import Mathlib

/-!
Shallow embedding of the quadtree library (`src/quadtree.c`,
`src/quadtree_private.h`, `quadtree.h`) and verification of its
specification claims.

Modelling conventions:
* `FLOAT` (C `double`) is modelled by `ℚ`: the properties under study concern
  order comparisons and midpoint arithmetic, not rounding.
* machine counters (`u_int64_t`, `unsigned int`) are modelled by `ℕ`; the one
  place where unsigned wrap-around is semantically visible (`n - 1` in
  `qt_itr_next`) is modelled explicitly modulo `2 ^ 64`.
* heap pointers and byte offsets are modelled structurally: a child offset of
  an inner node (`Inner.quadrants[i]`, where `0` = `ROOT` means "no child")
  becomes an `Option`, and the finalized contiguous buffer becomes the tree
  `FNode` that it encodes.
* loops whose termination is not structural are modelled with an explicit fuel
  parameter; `none` means "out of fuel, or an execution that leaves the model
  (reads that C performs on type-punned or out-of-bounds memory)".  The
  theorems below establish `some` results for the executions the claims are
  about.
-/

namespace Quadtree

/-- C `struct Item` (`quadtree.h`): `value` (`u_int64_t`) and
`coords[2]` (`double`, indexed by `X`, `Y`). -/
structure Item where
  value : Nat
  x : ℚ
  y : ℚ
deriving DecidableEq

/-- C `Quadrant` (`quadtree.h`): `ne[2]` and `sw[2]` corners. -/
structure Quadrant where
  nex : ℚ
  ney : ℚ
  swx : ℚ
  swy : ℚ
deriving DecidableEq

/-- `in_quadrant` (quadtree.c:107-111): inclusive comparisons on both sides. -/
def in_quadrant (i : Item) (q : Quadrant) : Bool :=
  decide (i.x ≥ q.swx) && decide (i.x ≤ q.nex) &&
  decide (i.y ≥ q.swy) && decide (i.y ≤ q.ney)

/-- `OVERLAP(qA, qB)` (quadtree_private.h:253-258); the boolean
multiplications are conjunction. -/
def OVERLAP (qA qB : Quadrant) : Bool :=
  decide (qA.swx ≤ qB.nex) && decide (qA.swy ≤ qB.ney) &&
  decide (qA.nex ≥ qB.swx) && decide (qA.ney ≥ qB.swy)

/-- `CONTAINED(inner, outer)` (quadtree_private.h:260-267). -/
def CONTAINED (qin qout : Quadrant) : Bool :=
  decide (qin.swx ≥ qout.swx) && decide (qin.swy ≥ qout.swy) &&
  decide (qin.nex ≤ qout.nex) && decide (qin.ney ≤ qout.ney)

/-- `CALCDIVS`, x midpoint (quadtree_private.h:291-293). -/
def calcDivX (q : Quadrant) : ℚ := q.swx + (q.nex - q.swx) / 2

/-- `CALCDIVS`, y midpoint (quadtree_private.h:291-293). -/
def calcDivY (q : Quadrant) : ℚ := q.swy + (q.ney - q.swy) / 2

/-- The four sub-quadrants produced by `_gen_quadrants` (quadtree.c:707-739),
in the `quadindex` enumeration order `NW, NE, SW, SE` = `0, 1, 2, 3`. -/
structure Quad4 where
  nw : Quadrant
  ne : Quadrant
  sw : Quadrant
  se : Quadrant
deriving DecidableEq

/-- Indexing `Quadrant quadrants[4]` by a `quadindex`. -/
def quad4get (m : Quad4) : Nat → Quadrant
  | 0 => m.nw
  | 1 => m.ne
  | 2 => m.sw
  | 3 => m.se
  | _ => m.nw

/-- `_gen_quadrants` (quadtree.c:707-739). -/
def gen_quadrants (region : Quadrant) : Quad4 :=
  let dx := calcDivX region
  let dy := calcDivY region
  { ne := ⟨region.nex, region.ney, dx, dy⟩
    se := ⟨region.nex, dy, dx, region.swy⟩
    sw := ⟨dx, dy, region.swx, region.swy⟩
    nw := ⟨dx, region.ney, region.swx, dy⟩ }

/-- C `TransNode` (quadtree_private.h:73-92): either an inner node with four
child pointers (`quadrants[NW..SE]`, possibly `NULL`) or a leaf with its
bucket (`items`, count `n` = list length) and capacity `size`.  The `nil`
constructor models a `NULL` `TransNode *`. -/
inductive TransNode where
  | nil
  | inner (nw ne sw se : TransNode)
  | leaf (items : List Item) (size : Nat)
deriving DecidableEq

/-- Read `node->quadrants[i]` of an inner `TransNode` (`nil` = `NULL`). -/
def childT : TransNode → Nat → TransNode
  | .inner a _ _ _, 0 => a
  | .inner _ b _ _, 1 => b
  | .inner _ _ c _, 2 => c
  | .inner _ _ _ d, 3 => d
  | _, _ => .nil

/-- Write `node->quadrants[i]` of an inner `TransNode`. -/
def setChildT : TransNode → Nat → TransNode → TransNode
  | .inner _ b c d, 0, t => .inner t b c d
  | .inner a _ c d, 1, t => .inner a t c d
  | .inner a b _ d, 2, t => .inner a b t d
  | .inner a b c _, 3, t => .inner a b c t
  | n, _, _ => n

/-- The counter part of C `struct UFQuadTree` (quadtree_private.h:97-111):
`size`, `maxdepth`, `maxfill`, `ninners`, `nleafs`.  These are the fields the
insertion routines mutate through the `qt` pointer. -/
structure UFCounters where
  size : Nat
  maxdepth : Nat
  maxfill : Nat
  ninners : Nat
  nleafs : Nat
deriving DecidableEq

/-- C `struct UFQuadTree`: the root node, bounding region, and counters. -/
structure UFQuadTree where
  root : TransNode
  region : Quadrant
  c : UFCounters
deriving DecidableEq

/-- `qt_create_quadtree` (quadtree.c:115-133): counters `(0,0,maxfill,1,0)`
and a root inner node with all four quadrants nullified. -/
def qt_create_quadtree (region : Quadrant) (maxfill : Nat) : UFQuadTree :=
  { root := .inner .nil .nil .nil .nil
    region := region
    c := { size := 0, maxdepth := 0, maxfill := maxfill, ninners := 1, nleafs := 0 } }

/-- `_FLOATcmp` (quadtree.c:263-266): `(*a > *b) - (*a < *b)`. -/
def FLOATcmp (a b : ℚ) : Int :=
  (if a > b then 1 else 0) - (if a < b then 1 else 0)

/-- `_itemcmp` (quadtree.c:240-261): lexicographic on `x` then `y`, computed
branch-free as `wrtx + wrty * !wrtx`. -/
def itemcmp (a b : Item) : Int :=
  let wrtx := FLOATcmp a.x b.x
  let wrty := FLOATcmp a.y b.y
  wrtx + wrty * (if wrtx = 0 then 1 else 0)

/-- `_distinct_items_exist` (quadtree.c:270-279): scan comparing each
adjacent pair `items[i-1]`, `items[i]`. -/
def distinct_items_exist : List Item → Bool
  | [] => false
  | [_] => false
  | a :: b :: rest => decide (itemcmp a b ≠ 0) || distinct_items_exist (b :: rest)

/-- The `quadindex` computation of `_qt_insert` (quadtree.c:180-206):
`quad = 0`, then `EAST`/`WEST` (`|= NE` / `&= SW`) on `x >= div_x`, then
`NORTH`/`SOUTH` (`&= NE` / `|= SW`) on `y >= div_y`, with `NE = 1`, `SW = 2`. -/
def classify (item : Item) (dx dy : ℚ) : Nat :=
  let q0 : Nat := 0
  let q1 : Nat := if item.x ≥ dx then q0 ||| 1 else q0 &&& 2
  if item.y ≥ dy then q1 &&& 1 else q1 ||| 2

/-- The in-place shrinking of `*q` performed by the same two `if` blocks of
`_qt_insert` (quadtree.c:190-206). -/
def shrinkQuadrant (q : Quadrant) (item : Item) (dx dy : ℚ) : Quadrant :=
  { nex := if item.x ≥ dx then q.nex else dx
    ney := if item.y ≥ dy then q.ney else dy
    swx := if item.x ≥ dx then dx else q.swx
    swy := if item.y ≥ dy then dy else q.swy }

mutual

/-- `_qt_insert` (quadtree.c:168-231), entry: increment `depth`, update
`maxdepth`, then run the `RESTART` body.  The fuel parameter makes the
non-structural recursion (splits re-insert into the same node) total. -/
def qtInsert : Nat → UFCounters → TransNode → Item → Quadrant → Nat →
    Option (UFCounters × TransNode)
  | 0, _, _, _, _, _ => none
  | fuel + 1, c, node, item, q, depth =>
    let depth' := depth + 1
    let c' := if depth' > c.maxdepth then { c with maxdepth := depth' } else c
    qtInsertBody fuel c' node item q depth'

/-- The `RESTART:` body of `_qt_insert` (quadtree.c:174-230).  `depth` has
already been incremented. -/
def qtInsertBody : Nat → UFCounters → TransNode → Item → Quadrant → Nat →
    Option (UFCounters × TransNode)
  | 0, _, _, _, _, _ => none
  | fuel + 1, c, node, item, q, depth =>
    match node with
    | .nil => none
    | .inner _ _ _ _ =>
      let dx := calcDivX q
      let dy := calcDivY q
      let quad := classify item dx dy
      let q' := shrinkQuadrant q item dx dy
      match childT node quad with
      | .nil =>
        -- `_init_leaf_node` (quadtree.c:281-288): fresh empty leaf of
        -- capacity `maxfill`; `nleafs++`.
        let c' := { c with nleafs := c.nleafs + 1 }
        match qtInsert fuel c' (.leaf [] c.maxfill) item q' depth with
        | none => none
        | some (c2, child') => some (c2, setChildT node quad child')
      | ch =>
        match qtInsert fuel c ch item q' depth with
        | none => none
        | some (c2, child') => some (c2, setChildT node quad child')
    | .leaf its sz =>
      -- `_ensure_bucket_size` (quadtree.c:299-319)
      if its.length + 1 > sz then
        match splitNode fuel c its sz q depth with
        | none => none
        | some (c2, node') =>
          match node' with
          | .nil => none
          | .inner _ _ _ _ =>
            -- bucket was full, leaf became inner: `goto RESTART`
            qtInsertBody fuel c2 node' item q depth
          | .leaf its' sz' => some (c2, .leaf (its' ++ [item]) sz')
      else
        some (c, .leaf (its ++ [item]) sz)

/-- `_split_node` (quadtree.c:323-352). -/
def splitNode : Nat → UFCounters → List Item → Nat → Quadrant → Nat →
    Option (UFCounters × TransNode)
  | 0, _, _, _, _, _ => none
  | fuel + 1, c, its, sz, q, depth =>
    if !distinct_items_exist its then
      -- all items coincide: double the bucket, do not split
      some (c, .leaf its (sz * 2))
    else
      let c' := { c with ninners := c.ninners + 1, nleafs := c.nleafs - 1 }
      reinsertAll fuel c' (.inner .nil .nil .nil .nil) its q depth

/-- The re-insertion loop of `_split_node` (quadtree.c:342-348): each former
item is re-inserted into the promoted node with a fresh copy of the same
`quadrant` and `depth - 1`. -/
def reinsertAll : Nat → UFCounters → TransNode → List Item → Quadrant → Nat →
    Option (UFCounters × TransNode)
  | 0, _, _, _, _, _ => none
  | _ + 1, c, node, [], _, _ => some (c, node)
  | fuel + 1, c, node, it :: rest, q, depth =>
    match qtInsert fuel c node it q (depth - 1) with
    | none => none
    | some (c2, node') => reinsertAll fuel c2 node' rest q depth

end

/-- `qt_insert` (quadtree.c:147-157): `size++`, copy the item, insert from
the root at depth 0 with the tree's bounding region. -/
def qt_insert (fuel : Nat) (qt : UFQuadTree) (item : Item) : Option UFQuadTree :=
  let c := { qt.c with size := qt.c.size + 1 }
  match qtInsert fuel c qt.root item qt.region 0 with
  | none => none
  | some (c', root') => some { qt with root := root', c := c' }

/-- Building a tree: create a builder and insert a list of items in order,
giving each insertion the same fuel. -/
def buildTree (fuel : Nat) (region : Quadrant) (maxfill : Nat)
    (items : List Item) : Option UFQuadTree :=
  items.foldlM (fun qt it => qt_insert fuel qt it) (qt_create_quadtree region maxfill)

/-! ### Semantic views of a builder tree -/

/-- All items stored in a builder subtree, in `NW, NE, SW, SE` depth-first
pre-order (the order in which `_qt_finalise` lays leaves out and in which the
iterator visits them). -/
def itemsOfT : TransNode → List Item
  | .nil => []
  | .inner a b c d => itemsOfT a ++ itemsOfT b ++ itemsOfT c ++ itemsOfT d
  | .leaf its _ => its

/-- Every leaf in the subtree (including the node itself) holds at least one
item. -/
def leavesOKT : TransNode → Bool
  | .nil => true
  | .inner a b c d => leavesOKT a && leavesOKT b && leavesOKT c && leavesOKT d
  | .leaf its _ => decide (its ≠ [])

/-- Every inner node in the subtree (including the node itself) has at least
one non-`NULL` child. -/
def innersOKT : TransNode → Bool
  | .nil => true
  | .inner a b c d =>
    (decide (a ≠ .nil) || decide (b ≠ .nil) || decide (c ≠ .nil) || decide (d ≠ .nil)) &&
    innersOKT a && innersOKT b && innersOKT c && innersOKT d
  | .leaf _ _ => true

/-- The children of the node satisfy `leavesOKT`; the node itself is exempt.
(For an inner node this coincides with `leavesOKT`.) -/
def childrenLeavesOK : TransNode → Bool
  | .inner a b c d => leavesOKT a && leavesOKT b && leavesOKT c && leavesOKT d
  | _ => true

/-- The children of the node satisfy `innersOKT`; the node itself is exempt
from the have-a-child requirement. -/
def childrenInnersOK : TransNode → Bool
  | .inner a b c d => innersOKT a && innersOKT b && innersOKT c && innersOKT d
  | _ => true

/-- Geometric placement invariant: all items of the subtree lie inside `q`,
and each child's items lie inside the corresponding sub-quadrant of `q`
(as computed by `_gen_quadrants`), recursively. -/
def itemsInQT : TransNode → Quadrant → Bool
  | .nil, _ => true
  | .leaf its _, q => its.all (fun i => in_quadrant i q)
  | .inner a b c d, q =>
    (itemsOfT (.inner a b c d)).all (fun i => in_quadrant i q) &&
    itemsInQT a (gen_quadrants q).nw && itemsInQT b (gen_quadrants q).ne &&
    itemsInQT c (gen_quadrants q).sw && itemsInQT d (gen_quadrants q).se

/-! ### The quadrant classification (claim C5) -/

theorem classify_eq (item : Item) (dx dy : ℚ) :
    classify item dx dy =
      if item.x ≥ dx then (if item.y ≥ dy then 1 else 3)
      else (if item.y ≥ dy then 0 else 2) := by
  unfold classify
  split_ifs <;> rfl

theorem classify_lt_four (item : Item) (dx dy : ℚ) :
    classify item dx dy < 4 := by
  rw [classify_eq]
  split_ifs <;> omega

theorem shrinkQuadrant_eq_gen (q : Quadrant) (item : Item) :
    shrinkQuadrant q item (calcDivX q) (calcDivY q) =
      quad4get (gen_quadrants q) (classify item (calcDivX q) (calcDivY q)) := by
  rw [classify_eq]
  unfold shrinkQuadrant gen_quadrants quad4get
  split_ifs <;> simp_all

/-- If the item is in `q`, it is in the sub-quadrant it is classified into. -/
theorem in_quadrant_shrink (q : Quadrant) (item : Item)
    (h : in_quadrant item q = true) :
    in_quadrant item (shrinkQuadrant q item (calcDivX q) (calcDivY q)) = true := by
  simp only [in_quadrant, shrinkQuadrant, Bool.and_eq_true, decide_eq_true_eq] at h ⊢
  obtain ⟨⟨⟨h1, h2⟩, h3⟩, h4⟩ := h
  split_ifs with hx hy hy <;>
    refine ⟨⟨⟨?_, ?_⟩, ?_⟩, ?_⟩ <;> first | assumption | linarith

/-! ### Item comparison and the distinct-items scan (claim C6) -/

theorem FLOATcmp_eq_zero_iff (a b : ℚ) : FLOATcmp a b = 0 ↔ a = b := by
  unfold FLOATcmp
  rcases lt_trichotomy a b with h | h | h
  · simp [h, not_lt.2 h.le, h.ne]
  · simp [h]
  · simp [h, not_lt.2 h.le, h.ne']

theorem itemcmp_eq_zero_iff (a b : Item) :
    itemcmp a b = 0 ↔ a.x = b.x ∧ a.y = b.y := by
  unfold itemcmp
  by_cases hx : FLOATcmp a.x b.x = 0
  · have hxy := (FLOATcmp_eq_zero_iff a.x b.x).1 hx
    have h0 : FLOATcmp b.x b.x = 0 := (FLOATcmp_eq_zero_iff _ _).2 rfl
    simp [hx, hxy, h0, FLOATcmp_eq_zero_iff]
  · have hxy : ¬ a.x = b.x := fun h => hx ((FLOATcmp_eq_zero_iff a.x b.x).2 h)
    simp [hx, hxy]

/-- The adjacent-pair scan of `_distinct_items_exist` finds no difference iff
all items of the bucket have pairwise equal coordinates. -/
theorem distinct_items_exist_eq_false_iff (its : List Item) :
    distinct_items_exist its = false ↔
      ∀ a ∈ its, ∀ b ∈ its, a.x = b.x ∧ a.y = b.y := by
  induction its with
  | nil => simp [distinct_items_exist]
  | cons a rest ih =>
    cases rest with
    | nil => simp [distinct_items_exist]
    | cons b rest' =>
      rw [distinct_items_exist]
      simp only [Bool.or_eq_false_iff, decide_eq_false_iff_not, not_not, ih,
        itemcmp_eq_zero_iff]
      constructor
      · rintro ⟨⟨hx, hy⟩, hall⟩ p hp q hq
        have hmb : b ∈ b :: rest' := List.mem_cons_self b rest'
        have key : ∀ r ∈ a :: b :: rest', r.x = b.x ∧ r.y = b.y := by
          intro r hr
          rcases List.mem_cons.1 hr with rfl | hr'
          · exact ⟨hx, hy⟩
          · exact hall r hr' b hmb
        obtain ⟨hpx, hpy⟩ := key p hp
        obtain ⟨hqx, hqy⟩ := key q hq
        exact ⟨hpx.trans hqx.symm, hpy.trans hqy.symm⟩
      · intro hall
        refine ⟨hall a (by simp) b (by simp), ?_⟩
        intro p hp q hq
        exact hall p (by simp [hp]) q (by simp [hq])

theorem distinct_items_exist_eq_true_iff (its : List Item) :
    distinct_items_exist its = true ↔
      ∃ a ∈ its, ∃ b ∈ its, itemcmp a b ≠ 0 := by
  rw [← Bool.not_eq_false, not_iff_comm]
  push_neg
  rw [distinct_items_exist_eq_false_iff]
  constructor
  · intro h a ha b hb
    exact (itemcmp_eq_zero_iff a b).1 (h a ha b hb)
  · intro h a ha b hb
    exact (itemcmp_eq_zero_iff a b).2 (h a ha b hb)

/-- A bucket in which the scan finds a difference has at least two items. -/
theorem distinct_items_exist_ne_nil {its : List Item}
    (h : distinct_items_exist its = true) : its ≠ [] := by
  intro hnil
  subst hnil
  simp [distinct_items_exist] at h

/-! ### Helper lemmas about children updates -/

/-- `node->is_inner` of a `TransNode`. -/
def isInner : TransNode → Bool
  | .inner _ _ _ _ => true
  | _ => false

theorem setChildT_isInner (a b c d : TransNode) (i : Nat) (t : TransNode) :
    isInner (setChildT (.inner a b c d) i t) = true := by
  rcases i with _ | _ | _ | _ | i <;> rfl

theorem itemsOfT_setChild (a b c d : TransNode) {i : Nat} (hi : i < 4)
    (t : TransNode) :
    (itemsOfT (setChildT (.inner a b c d) i t) : Multiset Item) +
      (itemsOfT (childT (.inner a b c d) i) : Multiset Item) =
    (itemsOfT (.inner a b c d) : Multiset Item) + (itemsOfT t : Multiset Item) := by
  interval_cases i <;>
    simp [setChildT, childT, itemsOfT, ← Multiset.coe_add] <;> abel

theorem leavesOKT_setChild {a b c d : TransNode} {i : Nat} (hi : i < 4)
    {t : TransNode} (hch : childrenLeavesOK (.inner a b c d) = true)
    (ht : leavesOKT t = true) :
    leavesOKT (setChildT (.inner a b c d) i t) = true := by
  simp only [childrenLeavesOK, Bool.and_eq_true] at hch
  interval_cases i <;> simp [setChildT, leavesOKT, ht, hch.1, hch.2]

theorem innersOKT_setChild {a b c d : TransNode} {i : Nat} (hi : i < 4)
    {t : TransNode} (hch : childrenInnersOK (.inner a b c d) = true)
    (ht : innersOKT t = true) (hne : t ≠ .nil) :
    innersOKT (setChildT (.inner a b c d) i t) = true := by
  simp only [childrenInnersOK, Bool.and_eq_true] at hch
  interval_cases i <;> simp [setChildT, innersOKT, ht, hne] <;> simp_all

theorem innersOKT_children {t : TransNode} (h : innersOKT t = true) :
    childrenInnersOK t = true := by
  cases t <;> simp_all [innersOKT, childrenInnersOK]

theorem leavesOKT_children {t : TransNode} (h : leavesOKT t = true) :
    childrenLeavesOK t = true := by
  cases t <;> simp_all [leavesOKT, childrenLeavesOK]

theorem leavesOKT_of_children_inner {t : TransNode} (hin : isInner t = true)
    (h : childrenLeavesOK t = true) : leavesOKT t = true := by
  cases t <;> simp_all [isInner, leavesOKT, childrenLeavesOK]

theorem itemsInQT_all {t : TransNode} {q : Quadrant} (h : itemsInQT t q = true) :
    ∀ x ∈ itemsOfT t, in_quadrant x q = true := by
  cases t with
  | nil => simp [itemsOfT]
  | leaf its sz =>
    simpa [itemsInQT, itemsOfT, List.all_eq_true] using h
  | inner a b c d =>
    simp only [itemsInQT, Bool.and_eq_true, List.all_eq_true] at h
    exact h.1.1.1.1

theorem itemsInQT_child {a b c d : TransNode} {q : Quadrant}
    (h : itemsInQT (.inner a b c d) q = true) {i : Nat} (hi : i < 4) :
    itemsInQT (childT (.inner a b c d) i)
      (quad4get (gen_quadrants q) i) = true := by
  simp only [itemsInQT, Bool.and_eq_true] at h
  interval_cases i <;> simp [childT, quad4get] <;> tauto

theorem isInner_ne_nil {t : TransNode} (h : isInner t = true) : t ≠ .nil := by
  cases t <;> simp_all [isInner]

theorem childrenLeavesOK_childT {a b c d : TransNode}
    (h : childrenLeavesOK (.inner a b c d) = true) {i : Nat} (hi : i < 4) :
    leavesOKT (childT (.inner a b c d) i) = true := by
  simp only [childrenLeavesOK, Bool.and_eq_true] at h
  interval_cases i <;> simp [childT] <;> tauto

theorem childrenInnersOK_childT {a b c d : TransNode}
    (h : childrenInnersOK (.inner a b c d) = true) {i : Nat} (hi : i < 4) :
    innersOKT (childT (.inner a b c d) i) = true := by
  simp only [childrenInnersOK, Bool.and_eq_true] at h
  interval_cases i <;> simp [childT] <;> tauto

theorem itemsInQT_setChild {a b c d : TransNode} {q : Quadrant} {i : Nat}
    (hi : i < 4) {t : TransNode}
    (hall : ∀ x ∈ itemsOfT (setChildT (.inner a b c d) i t),
      in_quadrant x q = true)
    (hold : itemsInQT (.inner a b c d) q = true)
    (ht : itemsInQT t (quad4get (gen_quadrants q) i) = true) :
    itemsInQT (setChildT (.inner a b c d) i t) q = true := by
  simp only [itemsInQT, Bool.and_eq_true] at hold
  interval_cases i <;>
    simp only [setChildT, itemsInQT, Bool.and_eq_true, List.all_eq_true,
      quad4get] at hall ht ⊢ <;>
    exact ⟨⟨⟨⟨hall, by tauto⟩, by tauto⟩, by tauto⟩, by tauto⟩

/-! ### The master invariant of the insertion family

One simultaneous fuel induction establishing, for `_qt_insert`, its `RESTART`
body, `_split_node` and the re-insertion loop: multiset preservation,
non-nullity, inner-ness preservation, the nonempty-leaves invariant, the
inner-has-a-child invariant, and the geometric placement invariant. -/

/-- Conclusions of a successful `_qt_insert`/`RESTART` body call. -/
def InsertConc (node : TransNode) (item : Item) (q : Quadrant)
    (node' : TransNode) : Prop :=
  ((itemsOfT node' : Multiset Item) = (itemsOfT node : Multiset Item) + {item}) ∧
  node' ≠ .nil ∧
  (isInner node = true → isInner node' = true) ∧
  (childrenLeavesOK node = true → leavesOKT node' = true) ∧
  (childrenInnersOK node = true → innersOKT node' = true) ∧
  (in_quadrant item q = true → itemsInQT node q = true → itemsInQT node' q = true)

theorem insert_master (fuel : Nat) :
    (∀ c node item q depth c' node',
      qtInsert fuel c node item q depth = some (c', node') →
      InsertConc node item q node') ∧
    (∀ c node item q depth c' node',
      qtInsertBody fuel c node item q depth = some (c', node') →
      InsertConc node item q node') ∧
    (∀ c its sz q depth c' node',
      splitNode fuel c its sz q depth = some (c', node') →
      ((itemsOfT node' : Multiset Item) = (its : Multiset Item)) ∧
      (node' = .leaf its (sz * 2) ∨
        (isInner node' = true ∧ leavesOKT node' = true ∧ innersOKT node' = true ∧
          ((∀ i ∈ its, in_quadrant i q = true) → itemsInQT node' q = true)))) ∧
    (∀ c node its q depth c' node',
      reinsertAll fuel c node its q depth = some (c', node') →
      ((itemsOfT node' : Multiset Item) =
        (itemsOfT node : Multiset Item) + (its : Multiset Item)) ∧
      (isInner node = true → isInner node' = true) ∧
      (isInner node = true → childrenLeavesOK node = true → leavesOKT node' = true) ∧
      (isInner node = true → childrenInnersOK node = true →
        ((its ≠ [] → innersOKT node' = true) ∧
         (innersOKT node = true → innersOKT node' = true))) ∧
      ((∀ i ∈ its, in_quadrant i q = true) → itemsInQT node q = true →
        itemsInQT node' q = true)) := by
  induction fuel with
  | zero =>
    refine ⟨?_, ?_, ?_, ?_⟩ <;> intros <;>
      simp_all [qtInsert, qtInsertBody, splitNode, reinsertAll]
  | succ fuel ih =>
    obtain ⟨ihI, ihB, ihS, ihR⟩ := ih
    refine ⟨?_, ?_, ?_, ?_⟩
    -- `_qt_insert`: bump depth, then run the body.
    · intro c node item q depth c' node' h
      simp only [qtInsert] at h
      exact ihB _ _ _ _ _ _ _ h
    -- the `RESTART` body
    · intro c node item q depth c' node' h
      cases node with
      | nil => simp [qtInsertBody] at h
      | inner a b cc d =>
        simp only [qtInsertBody] at h
        have hq4 : classify item (calcDivX q) (calcDivY q) < 4 :=
          classify_lt_four item _ _
        have hshr := shrinkQuadrant_eq_gen q item
        -- every branch ends with `setChildT _ quad child'` for a recursive
        -- insertion into the (possibly fresh) child
        have main : ∀ (ch : TransNode) (c0 c2 : UFCounters) (child' : TransNode),
            qtInsert fuel c0 ch item
              (shrinkQuadrant q item (calcDivX q) (calcDivY q)) depth =
                some (c2, child') →
            (childrenLeavesOK (.inner a b cc d) = true → childrenLeavesOK ch = true) →
            (childrenInnersOK (.inner a b cc d) = true → childrenInnersOK ch = true) →
            ((itemsOfT ch : Multiset Item) =
              (itemsOfT (childT (.inner a b cc d)
                (classify item (calcDivX q) (calcDivY q))) : Multiset Item)) →
            (itemsInQT (.inner a b cc d) q = true →
              itemsInQT ch (quad4get (gen_quadrants q)
                (classify item (calcDivX q) (calcDivY q))) = true) →
            InsertConc (.inner a b cc d) item q
              (setChildT (.inner a b cc d)
                (classify item (calcDivX q) (calcDivY q)) child') := by
          intro ch c0 c2 child' hrec hl hi hM hqt
          obtain ⟨rM, rne, _, rleaf, rinn, rq⟩ := ihI _ _ _ _ _ _ _ hrec
          have hset := itemsOfT_setChild a b cc d hq4 child'
          have hMres : (itemsOfT (setChildT (.inner a b cc d)
              (classify item (calcDivX q) (calcDivY q)) child') : Multiset Item) =
              (itemsOfT (.inner a b cc d) : Multiset Item) + {item} := by
            have h2 : (itemsOfT (setChildT (.inner a b cc d)
                (classify item (calcDivX q) (calcDivY q)) child') : Multiset Item) +
                (itemsOfT ch : Multiset Item) =
                ((itemsOfT (.inner a b cc d) : Multiset Item) + {item}) +
                  (itemsOfT ch : Multiset Item) := by
              rw [← hM] at hset
              rw [hset, rM]
              abel
            exact add_right_cancel h2
          refine ⟨hMres, ?_, ?_, ?_, ?_, ?_⟩
          · exact isInner_ne_nil (setChildT_isInner _ _ _ _ _ _)
          · intro _; exact setChildT_isInner _ _ _ _ _ _
          · intro hcl
            have := rleaf (hl hcl)
            exact leavesOKT_setChild hq4 hcl this
          · intro hci
            have := rinn (hi hci)
            exact innersOKT_setChild hq4 hci this rne
          · intro hinq hqt0
            have hinq' : in_quadrant item (shrinkQuadrant q item
                (calcDivX q) (calcDivY q)) = true := in_quadrant_shrink q item hinq
            have hqt0' := hqt hqt0
            rw [← hshr] at hqt0'
            have hqt' := rq hinq' hqt0'
            rw [hshr] at hqt'
            refine itemsInQT_setChild hq4 ?_ hqt0 hqt'
            intro x hx
            have hx' : x ∈ ((itemsOfT (.inner a b cc d) : Multiset Item) + {item}) := by
              rw [← hMres]
              exact Multiset.mem_coe.2 hx
            rcases Multiset.mem_add.1 hx' with hx0 | hx1
            · exact itemsInQT_all hqt0 x (Multiset.mem_coe.1 hx0)
            · rw [Multiset.mem_singleton.1 hx1]
              exact hinq
        split at h
        -- the selected child slot is NULL: `_init_leaf_node` then insert
        · rename_i heqnil
          split at h
          · simp at h
          · rename_i c2 child' heq
            rw [Option.some.injEq, Prod.mk.injEq] at h
            obtain ⟨rfl, rfl⟩ : c2 = c' ∧ node' = setChildT (.inner a b cc d)
                (classify item (calcDivX q) (calcDivY q)) child' :=
              ⟨h.1, h.2.symm⟩
            refine main _ _ _ _ heq (fun _ => rfl) (fun _ => rfl) ?_
              (fun _ => by simp [itemsInQT])
            rw [heqnil]
            simp [itemsOfT]
        -- the selected child slot is non-NULL: insert into it
        · split at h
          · simp at h
          · rename_i c2 child' heq
            rw [Option.some.injEq, Prod.mk.injEq] at h
            obtain ⟨rfl, rfl⟩ : c2 = c' ∧ node' = setChildT (.inner a b cc d)
                (classify item (calcDivX q) (calcDivY q)) child' :=
              ⟨h.1, h.2.symm⟩
            refine main _ _ _ _ heq ?_ ?_ rfl ?_
            · intro hcl
              exact leavesOKT_children (childrenLeavesOK_childT hcl hq4)
            · intro hci
              exact innersOKT_children (childrenInnersOK_childT hci hq4)
            · intro hqt0
              exact itemsInQT_child hqt0 hq4
      | leaf its sz =>
        simp only [qtInsertBody] at h
        split at h
        -- overflow: `_split_node`, then retry
        · split at h
          · simp at h
          · rename_i c2 node2 heqS
            obtain ⟨hsM, hsplit⟩ := ihS _ _ _ _ _ _ _ heqS
            split at h
            · simp at h
            -- the split promoted the leaf: `goto RESTART`
            · obtain ⟨rM, rne, _, rleaf, rinn, rq⟩ := ihB _ _ _ _ _ _ _ h
              rcases hsplit with h2 | ⟨hsi, hsl, hsii, hsq⟩
              · exact absurd h2 (by simp)
              refine ⟨?_, rne, ?_, ?_, ?_, ?_⟩
              · rw [rM, hsM]
                simp [itemsOfT]
              · intro hfalse; simp [isInner] at hfalse
              · intro _
                exact rleaf (leavesOKT_children hsl)
              · intro _
                exact rinn (innersOKT_children hsii)
              · intro hinq hq0
                have hits : ∀ i ∈ its, in_quadrant i q = true := by
                  intro i hi
                  exact itemsInQT_all hq0 i (by simp [itemsOfT, hi])
                exact rq hinq (hsq hits)
            -- the split only doubled the bucket: do the insert
            · rename_i its' sz'
              rw [Option.some.injEq, Prod.mk.injEq] at h
              obtain ⟨rfl, rfl⟩ : c2 = c' ∧ node' = .leaf (its' ++ [item]) sz' :=
                ⟨h.1, h.2.symm⟩
              have hM' : (its' : Multiset Item) = (its : Multiset Item) := by
                simpa [itemsOfT] using hsM
              refine ⟨?_, by simp, ?_, ?_, ?_, ?_⟩
              · simp only [itemsOfT, ← Multiset.coe_add, hM']
                simp
              · intro hfalse; simp [isInner] at hfalse
              · intro _; simp [leavesOKT]
              · intro _; simp [innersOKT]
              · intro hinq hq0
                simp only [itemsInQT, List.all_eq_true] at hq0 ⊢
                intro x hx
                rcases List.mem_append.1 hx with hx0 | hx1
                · have : x ∈ (its : Multiset Item) := by
                    rw [← hM']; exact Multiset.mem_coe.2 hx0
                  exact hq0 x (Multiset.mem_coe.1 this)
                · rw [List.mem_singleton.1 hx1]
                  exact hinq
        -- no overflow: plain append
        · rw [Option.some.injEq, Prod.mk.injEq] at h
          obtain ⟨rfl, rfl⟩ : c = c' ∧ node' = .leaf (its ++ [item]) sz :=
            ⟨h.1, h.2.symm⟩
          refine ⟨?_, by simp, ?_, ?_, ?_, ?_⟩
          · simp only [itemsOfT, ← Multiset.coe_add]
            push_cast
            simp
          · intro hfalse; simp [isInner] at hfalse
          · intro _; simp [leavesOKT]
          · intro _; simp [innersOKT]
          · intro hinq hq0
            simp only [itemsInQT, List.all_eq_true] at hq0 ⊢
            intro x hx
            rcases List.mem_append.1 hx with hx0 | hx1
            · exact hq0 x hx0
            · rw [List.mem_singleton.1 hx1]
              exact hinq
    -- `_split_node`
    · intro c its sz q depth c' node' h
      simp only [splitNode] at h
      split at h
      · rw [Option.some.injEq, Prod.mk.injEq] at h
        obtain ⟨rfl, rfl⟩ : c = c' ∧ node' = .leaf its (sz * 2) :=
          ⟨h.1, h.2.symm⟩
        exact ⟨by simp [itemsOfT], Or.inl rfl⟩
      · rename_i hdist
        have hdist' : distinct_items_exist its = true := by
          revert hdist
          cases distinct_items_exist its <;> simp
        obtain ⟨rM, rinner, rleaf, rinn, rq⟩ := ihR _ _ _ _ _ _ _ h
        have hiQnil : ∀ q0 : Quadrant,
            itemsInQT (.inner .nil .nil .nil .nil) q0 = true := by
          intro q0; simp [itemsInQT, itemsOfT]
        refine ⟨by simpa [itemsOfT] using rM, Or.inr ⟨?_, ?_, ?_, ?_⟩⟩
        · exact rinner rfl
        · exact rleaf rfl rfl
        · exact (rinn rfl rfl).1 (distinct_items_exist_ne_nil hdist')
        · intro hits
          exact rq hits (hiQnil q)
    -- the re-insertion loop
    · intro c node its q depth c' node' h
      cases its with
      | nil =>
        simp only [reinsertAll] at h
        rw [Option.some.injEq, Prod.mk.injEq] at h
        obtain ⟨rfl, rfl⟩ : c = c' ∧ node' = node := ⟨h.1, h.2.symm⟩
        refine ⟨by simp, fun h => h, ?_, ?_, fun _ h => h⟩
        · intro hin hcl
          exact leavesOKT_of_children_inner hin hcl
        · intro _ _
          exact ⟨fun hfalse => absurd rfl hfalse, fun h => h⟩
      | cons it rest =>
        simp only [reinsertAll] at h
        split at h
        · simp at h
        · rename_i c2 node1 heq
          obtain ⟨iM, _, iInner, iLeaf, iInn, iQ⟩ := ihI _ _ _ _ _ _ _ heq
          obtain ⟨rM, rInner, rLeaf, rInn, rQ⟩ := ihR _ _ _ _ _ _ _ h
          refine ⟨?_, ?_, ?_, ?_, ?_⟩
          · rw [rM, iM]
            simp only [← Multiset.cons_coe]
            abel
          · intro hin; exact rInner (iInner hin)
          · intro hin hcl
            have h1 : leavesOKT node1 = true := iLeaf hcl
            exact rLeaf (iInner hin) (leavesOKT_children h1)
          · intro hin hci
            have h1 : innersOKT node1 = true := iInn hci
            have h2 := rInn (iInner hin) (innersOKT_children h1)
            exact ⟨fun _ => h2.2 h1, fun _ => h2.2 h1⟩
          · intro hinq hq0
            have h1 := iQ (hinq it (by simp)) hq0
            exact rQ (fun i hi => hinq i (by simp [hi])) h1

/-! ### Builder-level invariants -/

/-- The insertion family never modifies the `maxfill` and `size` counters
(`size` is incremented only by the `qt_insert` wrapper). -/
theorem counters_atom (fuel : Nat) :
    (∀ c node item q depth c' node',
      qtInsert fuel c node item q depth = some (c', node') →
      c'.maxfill = c.maxfill ∧ c'.size = c.size) ∧
    (∀ c node item q depth c' node',
      qtInsertBody fuel c node item q depth = some (c', node') →
      c'.maxfill = c.maxfill ∧ c'.size = c.size) ∧
    (∀ c its sz q depth c' node',
      splitNode fuel c its sz q depth = some (c', node') →
      c'.maxfill = c.maxfill ∧ c'.size = c.size) ∧
    (∀ c node its q depth c' node',
      reinsertAll fuel c node its q depth = some (c', node') →
      c'.maxfill = c.maxfill ∧ c'.size = c.size) := by
  induction fuel with
  | zero =>
    refine ⟨?_, ?_, ?_, ?_⟩ <;> intros <;>
      simp_all [qtInsert, qtInsertBody, splitNode, reinsertAll]
  | succ fuel ih =>
    obtain ⟨ihI, ihB, ihS, ihR⟩ := ih
    refine ⟨?_, ?_, ?_, ?_⟩
    · intro c node item q depth c' node' h
      simp only [qtInsert] at h
      have h2 := ihB _ _ _ _ _ _ _ h
      split_ifs at h2 <;> simpa using h2
    · intro c node item q depth c' node' h
      cases node with
      | nil => simp [qtInsertBody] at h
      | inner a b cc d =>
        simp only [qtInsertBody] at h
        split at h
        · split at h
          · simp at h
          · rename_i c2 child' heq
            rw [Option.some.injEq, Prod.mk.injEq] at h
            obtain ⟨rfl, -⟩ := h
            simpa using ihI _ _ _ _ _ _ _ heq
        · split at h
          · simp at h
          · rename_i c2 child' heq
            rw [Option.some.injEq, Prod.mk.injEq] at h
            obtain ⟨rfl, -⟩ := h
            exact ihI _ _ _ _ _ _ _ heq
      | leaf its sz =>
        simp only [qtInsertBody] at h
        split at h
        · split at h
          · simp at h
          · rename_i c2 node2 heqS
            have hS := ihS _ _ _ _ _ _ _ heqS
            split at h
            · simp at h
            · have hB := ihB _ _ _ _ _ _ _ h
              exact ⟨hB.1.trans hS.1, hB.2.trans hS.2⟩
            · rw [Option.some.injEq, Prod.mk.injEq] at h
              obtain ⟨rfl, -⟩ := h
              exact hS
        · rw [Option.some.injEq, Prod.mk.injEq] at h
          obtain ⟨rfl, -⟩ := h
          exact ⟨rfl, rfl⟩
    · intro c its sz q depth c' node' h
      simp only [splitNode] at h
      split at h
      · rw [Option.some.injEq, Prod.mk.injEq] at h
        obtain ⟨rfl, -⟩ := h
        exact ⟨rfl, rfl⟩
      · simpa using ihR _ _ _ _ _ _ _ h
    · intro c node its q depth c' node' h
      cases its with
      | nil =>
        simp only [reinsertAll] at h
        rw [Option.some.injEq, Prod.mk.injEq] at h
        obtain ⟨rfl, -⟩ := h
        exact ⟨rfl, rfl⟩
      | cons it rest =>
        simp only [reinsertAll] at h
        split at h
        · simp at h
        · rename_i c2 node1 heq
          have h1 := ihI _ _ _ _ _ _ _ heq
          have h2 := ihR _ _ _ _ _ _ _ h
          exact ⟨h2.1.trans h1.1, h2.2.trans h1.2⟩

theorem qt_insert_some {fuel : Nat} {qt : UFQuadTree} {item : Item}
    {qt' : UFQuadTree} (h : qt_insert fuel qt item = some qt') :
    qt'.region = qt.region ∧ qt'.c.maxfill = qt.c.maxfill ∧
      qt'.c.size = qt.c.size + 1 ∧ InsertConc qt.root item qt.region qt'.root := by
  simp only [qt_insert] at h
  split at h
  · simp at h
  · rename_i c' root' heq
    rw [Option.some.injEq] at h
    subst h
    have hc := (counters_atom fuel).1 _ _ _ _ _ _ _ heq
    exact ⟨rfl, by simpa using hc.1, by simpa using hc.2,
      (insert_master fuel).1 _ _ _ _ _ _ _ heq⟩

/-- Each insertion step preserves region, leaves-nonempty, inner root,
inner-has-child, placement; and adds the item to the multiset. -/
theorem foldInsert_master (fuel : Nat) (items : List Item) :
    ∀ qt b, items.foldlM (fun s it => qt_insert fuel s it) qt = some b →
    b.region = qt.region ∧
    ((itemsOfT b.root : Multiset Item) =
      (itemsOfT qt.root : Multiset Item) + (items : Multiset Item)) ∧
    (leavesOKT qt.root = true → leavesOKT b.root = true) ∧
    (isInner qt.root = true → isInner b.root = true) ∧
    (isInner qt.root = true → childrenInnersOK qt.root = true →
      ((items ≠ [] → innersOKT b.root = true) ∧
       (innersOKT qt.root = true → innersOKT b.root = true))) ∧
    ((∀ i ∈ items, in_quadrant i qt.region = true) →
      itemsInQT qt.root qt.region = true → itemsInQT b.root qt.region = true) := by
  induction items with
  | nil =>
    intro qt b h
    simp only [List.foldlM_nil, pure, Option.some.injEq] at h
    subst h
    refine ⟨rfl, by simp, fun h => h, fun h => h, ?_, fun _ h => h⟩
    intro _ _
    exact ⟨fun hne => absurd rfl hne, fun h => h⟩
  | cons it rest ih =>
    intro qt b h
    simp only [List.foldlM_cons] at h
    cases heq : qt_insert fuel qt it with
    | none => rw [heq] at h; simp at h
    | some qt1 =>
      rw [heq] at h
      simp only [Option.bind_eq_bind, Option.some_bind] at h
      obtain ⟨hreg, hmf, hsz, iM, _, iInner, iLeaf, iInn, iQ⟩ := qt_insert_some heq
      obtain ⟨rReg, rM, rLeaf, rInner, rInn, rQ⟩ := ih qt1 b h
      refine ⟨rReg.trans hreg, ?_, ?_, ?_, ?_, ?_⟩
      · rw [rM, iM]
        simp only [← Multiset.cons_coe]
        abel
      · intro h0
        exact rLeaf (iLeaf (leavesOKT_children h0))
      · intro h0
        exact rInner (iInner h0)
      · intro h0 h1
        have h2 : innersOKT qt1.root = true := iInn h1
        have h3 := rInn (iInner h0) (innersOKT_children h2)
        exact ⟨fun _ => h3.2 h2, fun _ => h3.2 h2⟩
      · intro hinq h0
        have h1 : itemsInQT qt1.root qt.region = true :=
          iQ (hinq it (by simp)) h0
        have h2 := rQ (fun i hi => by rw [hreg]; exact hinq i (by simp [hi]))
        rw [hreg] at h2
        exact h2 h1

theorem buildTree_invariants {fuel : Nat} {region : Quadrant} {maxfill : Nat}
    {items : List Item} {b : UFQuadTree}
    (hb : buildTree fuel region maxfill items = some b) :
    b.region = region ∧
    ((itemsOfT b.root : Multiset Item) = (items : Multiset Item)) ∧
    leavesOKT b.root = true ∧
    isInner b.root = true ∧
    (items ≠ [] → innersOKT b.root = true) ∧
    ((∀ i ∈ items, in_quadrant i region = true) →
      itemsInQT b.root region = true) := by
  unfold buildTree at hb
  obtain ⟨hreg, hM, hLeaf, hInner, hInn, hQ⟩ :=
    foldInsert_master fuel items (qt_create_quadtree region maxfill) b hb
  simp only [qt_create_quadtree] at hreg hM hLeaf hInner hInn hQ
  refine ⟨hreg, by simpa [itemsOfT] using hM, ?_, ?_, ?_, ?_⟩
  · exact hLeaf (by simp [leavesOKT])
  · exact hInner rfl
  · intro hne
    exact (hInn rfl (by simp [childrenInnersOK, innersOKT])).1 hne
  · intro hin
    exact hQ hin (by simp [itemsInQT, itemsOfT])

/-! ### The finalized tree

The finalized layout is a contiguous buffer: a header, an array of `Inner`
records whose `quadrants[i]` are byte offsets (offset `ROOT = 0` meaning "no
child"), and packed leaves.  `FNode` is the tree this buffer encodes: an
offset that resolves to an inner/leaf node becomes that node, offset `0`
becomes `nil`. -/

inductive FNode where
  | nil
  | inner (nw ne sw se : FNode)
  | leaf (items : List Item)
deriving DecidableEq

/-- Resolve `inner->quadrants[i]` of a finalized inner node. -/
def childF : FNode → Nat → FNode
  | .inner a _ _ _, 0 => a
  | .inner _ b _ _, 1 => b
  | .inner _ _ c _, 2 => c
  | .inner _ _ _ d, 3 => d
  | _, _ => .nil

/-- The structural content `_qt_finalise` (quadtree.c:432-524) writes into
the buffer: inner nodes become offset quadruples (absent child = `ROOT`),
leaves are copied with their items in insertion order; capacities are
dropped. -/
def finalizeNode : TransNode → FNode
  | .nil => .nil
  | .inner a b c d =>
    .inner (finalizeNode a) (finalizeNode b) (finalizeNode c) (finalizeNode d)
  | .leaf its _ => .leaf its

/-- C `struct QuadTree` (quadtree_portable / `_init_quadtree`,
quadtree.c:369-381): the header fields and the encoded node structure. -/
structure QuadTreeF where
  region : Quadrant
  size : Nat
  maxdepth : Nat
  ninners : Nat
  nleafs : Nat
  root : FNode
deriving DecidableEq

/-- `qt_finalise` (quadtree.c:384-429), without the optional file dump:
copy the header counters and lay out the nodes. -/
def qt_finalise (qt : UFQuadTree) : QuadTreeF :=
  { region := qt.region
    size := qt.c.size
    maxdepth := qt.c.maxdepth
    ninners := qt.c.ninners
    nleafs := qt.c.nleafs
    root := finalizeNode qt.root }

/-- Items of a finalized subtree in `NW, NE, SW, SE` depth-first order. -/
def itemsOfF : FNode → List Item
  | .nil => []
  | .inner a b c d => itemsOfF a ++ itemsOfF b ++ itemsOfF c ++ itemsOfF d
  | .leaf its => its

/-- Every leaf of the finalized subtree holds at least one item. -/
def leavesOKF : FNode → Bool
  | .nil => true
  | .inner a b c d => leavesOKF a && leavesOKF b && leavesOKF c && leavesOKF d
  | .leaf its => decide (its ≠ [])

/-- Every leaf of the finalized subtree holds at most `N` items. -/
def leavesLEF : FNode → Nat → Bool
  | .nil, _ => true
  | .inner a b c d, n => leavesLEF a n && leavesLEF b n && leavesLEF c n && leavesLEF d n
  | .leaf its, n => decide (its.length ≤ n)

/-- Placement invariant on the finalized tree (mirror of `itemsInQT`). -/
def itemsInQF : FNode → Quadrant → Bool
  | .nil, _ => true
  | .leaf its, q => its.all (fun i => in_quadrant i q)
  | .inner a b c d, q =>
    (itemsOfF (.inner a b c d)).all (fun i => in_quadrant i q) &&
    itemsInQF a (gen_quadrants q).nw && itemsInQF b (gen_quadrants q).ne &&
    itemsInQF c (gen_quadrants q).sw && itemsInQF d (gen_quadrants q).se

/-- Structural depth of a finalized tree (a root-only tree has depth 0). -/
def depthF : FNode → Nat
  | .nil => 0
  | .leaf _ => 0
  | .inner a b c d => 1 + max (max (depthF a) (depthF b)) (max (depthF c) (depthF d))

theorem itemsOfF_finalize (t : TransNode) :
    itemsOfF (finalizeNode t) = itemsOfT t := by
  induction t with
  | nil => rfl
  | inner a b c d iha ihb ihc ihd => simp [finalizeNode, itemsOfF, itemsOfT, iha, ihb, ihc, ihd]
  | leaf its sz => rfl

theorem leavesOKF_finalize {t : TransNode} (h : leavesOKT t = true) :
    leavesOKF (finalizeNode t) = true := by
  induction t with
  | nil => rfl
  | inner a b c d iha ihb ihc ihd =>
    simp only [leavesOKT, Bool.and_eq_true] at h
    simp [finalizeNode, leavesOKF, iha h.1.1.1, ihb h.1.1.2, ihc h.1.2, ihd h.2]
  | leaf its sz => simpa [finalizeNode, leavesOKF, leavesOKT] using h

theorem itemsInQF_finalize {t : TransNode} {q : Quadrant}
    (h : itemsInQT t q = true) : itemsInQF (finalizeNode t) q = true := by
  induction t generalizing q with
  | nil => rfl
  | inner a b c d iha ihb ihc ihd =>
    simp only [itemsInQT, Bool.and_eq_true] at h
    obtain ⟨⟨⟨⟨hall, ha⟩, hb⟩, hc⟩, hd⟩ := h
    simp only [finalizeNode, itemsInQF, Bool.and_eq_true]
    refine ⟨⟨⟨⟨?_, iha ha⟩, ihb hb⟩, ihc hc⟩, ihd hd⟩
    have : itemsOfF (finalizeNode (TransNode.inner a b c d)) =
        itemsOfT (.inner a b c d) := itemsOfF_finalize _
    simp only [finalizeNode] at this
    rw [this]
    exact hall
  | leaf its sz => simpa [finalizeNode, itemsInQF, itemsInQT] using h

/-- Each leaf of a tree holds at most the total number of items. -/
theorem leavesLEF_total (t : FNode) : leavesLEF t (itemsOfF t).length = true := by
  have mono : ∀ t' n m, n ≤ m → leavesLEF t' n = true → leavesLEF t' m = true := by
    intro t'
    induction t' with
    | nil => intro n m _ _; rfl
    | inner a b c d iha ihb ihc ihd =>
      intro n m hnm h
      simp only [leavesLEF, Bool.and_eq_true] at h ⊢
      exact ⟨⟨⟨iha n m hnm h.1.1.1, ihb n m hnm h.1.1.2⟩, ihc n m hnm h.1.2⟩,
        ihd n m hnm h.2⟩
    | leaf its =>
      intro n m hnm h
      simp only [leavesLEF, decide_eq_true_eq] at h ⊢
      omega
  induction t with
  | nil => rfl
  | inner a b c d iha ihb ihc ihd =>
    simp only [leavesLEF, Bool.and_eq_true, itemsOfF, List.length_append]
    refine ⟨⟨⟨mono a _ _ (by omega) iha, mono b _ _ (by omega) ihb⟩,
      mono c _ _ (by omega) ihc⟩, mono d _ _ (by omega) ihd⟩
  | leaf its => simp [leavesLEF, itemsOfF]

theorem leavesLEF_mono {t : FNode} {n m : Nat} (hnm : n ≤ m)
    (h : leavesLEF t n = true) : leavesLEF t m = true := by
  induction t with
  | nil => rfl
  | inner a b c d iha ihb ihc ihd =>
    simp only [leavesLEF, Bool.and_eq_true] at h ⊢
    exact ⟨⟨⟨iha h.1.1.1, ihb h.1.1.2⟩, ihc h.1.2⟩, ihd h.2⟩
  | leaf its =>
    simp only [leavesLEF, decide_eq_true_eq] at h ⊢
    omega

/-! ### Claim C5 -/

/-- C5: During insertion descent at every inner node, the midpoints are
computed as `mx = sw.x + (ne.x - sw.x)/2`, `my = sw.y + (ne.y - sw.y)/2` of
the current quadrant, and the item is classified into exactly one of the four
children (`NW = 0`, `NE = 1`, `SW = 2`, `SE = 3`) by the
on-the-boundary-goes-north/east rule: `x ≥ mx` selects east (`NE`/`SE`),
`y ≥ my` selects north (`NW`/`NE`); otherwise west/south. -/
theorem C5_insert_classification (item : Item) (q : Quadrant) :
    calcDivX q = q.swx + (q.nex - q.swx) / 2 ∧
    calcDivY q = q.swy + (q.ney - q.swy) / 2 ∧
    classify item (calcDivX q) (calcDivY q) =
      (if item.x ≥ calcDivX q
        then (if item.y ≥ calcDivY q then 1 else 3)
        else (if item.y ≥ calcDivY q then 0 else 2)) ∧
    classify item (calcDivX q) (calcDivY q) < 4 :=
  ⟨rfl, rfl, classify_eq item _ _, classify_lt_four item _ _⟩

/-! ### Claim C6 -/

/-- C6: When inserting into a full leaf, `_split_node` first decides whether
any two items of the bucket have distinct coordinates under the lexicographic
comparison (the adjacent-pair scan is equivalent to the pairwise test); if no
two are distinct it doubles the bucket capacity and does not split, and
otherwise it converts the leaf into an inner node with four empty child slots
and re-inserts each former item into that same node with the same quadrant
the leaf occupied, preserving the item multiset. -/
theorem C6_split_policy (fuel : Nat) (c : UFCounters) (its : List Item)
    (sz : Nat) (q : Quadrant) (depth : Nat) :
    (distinct_items_exist its = true ↔ ∃ a ∈ its, ∃ b ∈ its, itemcmp a b ≠ 0) ∧
    (distinct_items_exist its = false →
      splitNode (fuel + 1) c its sz q depth = some (c, .leaf its (sz * 2))) ∧
    (distinct_items_exist its = true →
      splitNode (fuel + 1) c its sz q depth =
        reinsertAll fuel { c with ninners := c.ninners + 1, nleafs := c.nleafs - 1 }
          (.inner .nil .nil .nil .nil) its q depth) ∧
    (∀ c' node', splitNode (fuel + 1) c its sz q depth = some (c', node') →
      distinct_items_exist its = true →
      isInner node' = true ∧
        (itemsOfT node' : Multiset Item) = (its : Multiset Item)) := by
  refine ⟨distinct_items_exist_eq_true_iff its, ?_, ?_, ?_⟩
  · intro h
    simp [splitNode, h]
  · intro h
    simp [splitNode, h]
  · intro c' node' h hdist
    have hS := (insert_master (fuel + 1)).2.2.1 _ _ _ _ _ _ _ h
    refine ⟨?_, hS.1⟩
    rcases hS.2 with h2 | h2
    · subst h2
      -- impossible: with distinct items the node is promoted
      simp only [splitNode, hdist, Bool.not_true, Bool.false_eq_true,
        if_false] at h
      have := (insert_master fuel).2.2.2 _ _ _ _ _ _ _ h
      have hinner := this.2.1 rfl
      simp [isInner] at hinner
    · exact h2.1

/-! ### Claim C7: all-coincident insertions -/

theorem childT_empty_inner (j : Nat) :
    childT (.inner .nil .nil .nil .nil) j = .nil := by
  rcases j with _ | _ | _ | _ | j <;> rfl

theorem childT_setChildT_self {a b c d : TransNode} {j : Nat} (hj : j < 4)
    (t : TransNode) : childT (setChildT (.inner a b c d) j t) j = t := by
  interval_cases j <;> rfl

theorem childT_setChildT_other {a b c d : TransNode} {j j' : Nat} (hj : j < 4)
    (hj' : j' < 4) (hne : j' ≠ j) (t : TransNode) :
    childT (setChildT (.inner a b c d) j t) j' = childT (.inner a b c d) j' := by
  interval_cases j <;> interval_cases j' <;> first | rfl | omega

theorem classify_coords_only (v v' : Nat) (x y dx dy : ℚ) :
    classify (Item.mk v x y) dx dy = classify (Item.mk v' x y) dx dy := rfl

theorem distinct_items_exist_map_const (x y : ℚ) (vs : List Nat) :
    distinct_items_exist (vs.map fun v => Item.mk v x y) = false := by
  rw [distinct_items_exist_eq_false_iff]
  intro a ha b hb
  obtain ⟨va, -, rfl⟩ := List.mem_map.1 ha
  obtain ⟨vb, -, rfl⟩ := List.mem_map.1 hb
  exact ⟨rfl, rfl⟩

/-- The first insertion into a fresh builder: the root gains one leaf child
holding the item; `maxdepth` becomes 2, `nleafs` becomes 1. -/
theorem qt_insert_first (region : Quadrant) (bsz : Nat) (item : Item)
    (fuel : Nat) (hb : 1 ≤ bsz) (hf : 5 ≤ fuel) :
    qt_insert fuel (qt_create_quadtree region bsz) item = some
      { root := setChildT (.inner .nil .nil .nil .nil)
          (classify item (calcDivX region) (calcDivY region)) (.leaf [item] bsz)
        region := region
        c := ⟨1, 2, bsz, 1, 1⟩ } := by
  obtain ⟨f, rfl⟩ : ∃ f, fuel = f + 5 := ⟨fuel - 5, by omega⟩
  simp only [qt_insert, qt_create_quadtree, qtInsert, qtInsertBody,
    childT_empty_inner]
  norm_num
  rw [if_neg (by omega : ¬ bsz = 0)]

/-- Inserting a coincident item into a builder whose root has a single leaf
child (at the classified quadrant) holding only coincident items: the item is
appended, the bucket possibly doubles, and nothing structural changes. -/
theorem qt_insert_coincident_step (region : Quadrant) (bsz k sz : Nat)
    (x y : ℚ) (a b c d : TransNode) (items : List Item) (v : Nat) (fuel : Nat)
    (_hsz : 1 ≤ sz) (hlen : items.length ≤ sz)
    (hcoords : ∀ i ∈ items, i.x = x ∧ i.y = y)
    (hchild : childT (.inner a b c d)
      (classify (Item.mk 0 x y) (calcDivX region) (calcDivY region)) =
        .leaf items sz)
    (hf : 5 ≤ fuel) :
    qt_insert fuel ⟨.inner a b c d, region, ⟨k, 2, bsz, 1, 1⟩⟩ (Item.mk v x y) =
      some ⟨setChildT (.inner a b c d)
          (classify (Item.mk 0 x y) (calcDivX region) (calcDivY region))
          (.leaf (items ++ [Item.mk v x y])
            (if items.length + 1 > sz then sz * 2 else sz)),
        region, ⟨k + 1, 2, bsz, 1, 1⟩⟩ := by
  obtain ⟨f, rfl⟩ : ∃ f, fuel = f + 5 := ⟨fuel - 5, by omega⟩
  have hclass : classify (Item.mk v x y) (calcDivX region) (calcDivY region) =
      classify (Item.mk 0 x y) (calcDivX region) (calcDivY region) := rfl
  have hdist : distinct_items_exist items = false := by
    rw [distinct_items_exist_eq_false_iff]
    intro p hp q hq
    obtain ⟨hpx, hpy⟩ := hcoords p hp
    obtain ⟨hqx, hqy⟩ := hcoords q hq
    exact ⟨hpx.trans hqx.symm, hpy.trans hqy.symm⟩
  simp only [qt_insert, qtInsert, qtInsertBody, hclass, hchild]
  norm_num
  by_cases hov : items.length + 1 > sz
  · rw [if_pos (by omega : sz < items.length + 1)]
    rw [if_pos (by omega : sz < items.length + 1)]
    simp only [splitNode, hdist]
    norm_num
  · rw [if_neg (by omega : ¬ sz < items.length + 1)]
    rw [if_neg (by omega : ¬ sz < items.length + 1)]

theorem setChildT_inner_exists (a b c d : TransNode) (j : Nat) (t : TransNode) :
    ∃ w x y z, setChildT (.inner a b c d) j t = .inner w x y z := by
  rcases j with _ | _ | _ | _ | j <;> exact ⟨_, _, _, _, rfl⟩

/-- The exact builder shape after inserting any positive number of coincident
points. -/
theorem coincident_build (region : Quadrant) (bsz : Nat) (x y : ℚ)
    (hb : 1 ≤ bsz) (fuel : Nat) (hf : 5 ≤ fuel) :
    ∀ vs : List Nat, vs ≠ [] →
    ∃ (a b c d : TransNode) (sz : Nat), 1 ≤ sz ∧ vs.length ≤ sz ∧
      buildTree fuel region bsz (vs.map fun v => Item.mk v x y) =
        some ⟨.inner a b c d, region, ⟨vs.length, 2, bsz, 1, 1⟩⟩ ∧
      childT (.inner a b c d)
        (classify (Item.mk 0 x y) (calcDivX region) (calcDivY region)) =
          .leaf (vs.map fun v => Item.mk v x y) sz ∧
      (∀ j, j < 4 →
        j ≠ classify (Item.mk 0 x y) (calcDivX region) (calcDivY region) →
        childT (.inner a b c d) j = .nil) := by
  intro vs
  induction vs using List.reverseRecOn with
  | nil => intro h; exact absurd rfl h
  | append_singleton vs v ih =>
    intro _
    have hq4 : classify (Item.mk 0 x y) (calcDivX region) (calcDivY region) < 4 :=
      classify_lt_four _ _ _
    by_cases hvs : vs = []
    -- first insertion
    · subst hvs
      obtain ⟨w1, w2, w3, w4, hform⟩ := setChildT_inner_exists .nil .nil .nil .nil
        (classify (Item.mk 0 x y) (calcDivX region) (calcDivY region))
        (.leaf [Item.mk v x y] bsz)
      refine ⟨w1, w2, w3, w4, bsz, ?_, ?_, ?_, ?_, ?_⟩
      · omega
      · simp only [List.nil_append, List.length_cons, List.length_nil]
        omega
      · simp only [List.nil_append, List.map_cons, List.map_nil, buildTree,
          List.foldlM_cons, List.foldlM_nil]
        rw [qt_insert_first region bsz (Item.mk v x y) (fuel) hb hf]
        simp only [Option.pure_def, Option.some_bind]
        rw [show classify (Item.mk v x y) (calcDivX region) (calcDivY region) =
          classify (Item.mk 0 x y) (calcDivX region) (calcDivY region) from rfl]
        rw [hform]
        simp
      · rw [← hform, childT_setChildT_self hq4]
        simp only [List.nil_append, List.map_cons, List.map_nil]
      · intro j hj hne
        rw [← hform, childT_setChildT_other hq4 hj hne, childT_empty_inner]
    -- subsequent insertion
    · obtain ⟨a, b, c, d, sz, hsz1, hszlen, hbuild, hchild, hothers⟩ := ih hvs
      have hcoords : ∀ i ∈ vs.map fun v => Item.mk v x y, i.x = x ∧ i.y = y := by
        intro i hi
        obtain ⟨w, -, rfl⟩ := List.mem_map.1 hi
        exact ⟨rfl, rfl⟩
      have step := qt_insert_coincident_step region bsz vs.length sz x y a b c d
        (vs.map fun v => Item.mk v x y) v fuel hsz1 (by simpa using hszlen)
        hcoords hchild hf
      obtain ⟨w1, w2, w3, w4, hform⟩ := setChildT_inner_exists a b c d
        (classify (Item.mk 0 x y) (calcDivX region) (calcDivY region))
        (.leaf ((vs.map fun v => Item.mk v x y) ++ [Item.mk v x y])
          (if (vs.map fun v => Item.mk v x y).length + 1 > sz then sz * 2 else sz))
      refine ⟨w1, w2, w3, w4,
        if (vs.map fun v => Item.mk v x y).length + 1 > sz then sz * 2 else sz,
        ?_, ?_, ?_, ?_, ?_⟩
      · split <;> omega
      · simp only [List.length_append, List.length_map, List.length_cons,
          List.length_nil]
        split <;> omega
      · simp only [List.map_append, List.map_cons, List.map_nil, buildTree,
          List.foldlM_append, List.foldlM_cons, List.foldlM_nil]
        rw [show List.foldlM (fun qt it => qt_insert fuel qt it)
          (qt_create_quadtree region bsz) (vs.map fun v => Item.mk v x y) =
          buildTree fuel region bsz (vs.map fun v => Item.mk v x y) from rfl]
        rw [hbuild]
        simp only [Option.bind_eq_bind, Option.some_bind]
        rw [step, hform]
        simp only [Option.pure_def, Option.some_bind, List.length_append,
          List.length_cons, List.length_nil]
      · rw [← hform, childT_setChildT_self hq4]
        simp only [List.map_append, List.map_cons, List.map_nil,
          List.length_append, List.length_map, List.length_cons, List.length_nil]
      · intro j hj hne
        rw [← hform, childT_setChildT_other hq4 hj hne]
        exact hothers j hj hne

theorem childF_finalize (a b c d : TransNode) (j : Nat) :
    childF (finalizeNode (.inner a b c d)) j =
      finalizeNode (childT (.inner a b c d) j) := by
  rcases j with _ | _ | _ | _ | j <;> rfl

/-- C7: For every builder whose inserted items all share one coordinate pair
`(x, y)` (values arbitrary), with any `bucket_size ≥ 1` and any positive
number of inserts, the finalized tree has structural depth 1, exactly one
inner node (`ninners = 1`), exactly one leaf (`nleafs = 1`), and that leaf
holds exactly the inserted items — its count `n` equals the number of
inserts, however large.  (The `maxdepth` header field, which counts insertion
recursion depth rather than tree depth, is 2.) -/
theorem C7_coincident_bucket (region : Quadrant) (bsz : Nat) (x y : ℚ)
    (vs : List Nat) (fuel : Nat) (hb : 1 ≤ bsz) (hvs : vs ≠ []) (hf : 5 ≤ fuel) :
    ∃ b, buildTree fuel region bsz (vs.map fun v => Item.mk v x y) = some b ∧
      (qt_finalise b).ninners = 1 ∧
      (qt_finalise b).nleafs = 1 ∧
      (qt_finalise b).size = vs.length ∧
      (qt_finalise b).maxdepth = 2 ∧
      depthF (qt_finalise b).root = 1 ∧
      ∃ j, j < 4 ∧
        childF (qt_finalise b).root j = .leaf (vs.map fun v => Item.mk v x y) ∧
        (vs.map fun v => Item.mk v x y).length = vs.length := by
  obtain ⟨a, b, c, d, sz, hsz1, hlen, hbuild, hchild, hothers⟩ :=
    coincident_build region bsz x y hb fuel hf vs hvs
  have hq4 : classify (Item.mk 0 x y) (calcDivX region) (calcDivY region) < 4 :=
    classify_lt_four _ _ _
  refine ⟨_, hbuild, rfl, rfl, rfl, rfl, ?_, ?_⟩
  · -- the four children are `nil` or the single leaf, hence depth 1
    have hcase : ∀ j, j < 4 → childT (.inner a b c d) j = .nil ∨
        childT (.inner a b c d) j =
          .leaf (vs.map fun v => Item.mk v x y) sz := by
      intro j hj
      by_cases hje : j = classify (Item.mk 0 x y) (calcDivX region) (calcDivY region)
      · right; rw [hje]; exact hchild
      · left; exact hothers j hj hje
    have ha := hcase 0 (by omega)
    have hb' := hcase 1 (by omega)
    have hc := hcase 2 (by omega)
    have hd := hcase 3 (by omega)
    simp only [childT] at ha hb' hc hd
    show depthF (finalizeNode (.inner a b c d)) = 1
    rcases ha with ha | ha <;> rcases hb' with hb' | hb' <;>
      rcases hc with hc | hc <;> rcases hd with hd | hd <;>
      subst ha hb' hc hd <;> simp [finalizeNode, depthF]
  · refine ⟨classify (Item.mk 0 x y) (calcDivX region) (calcDivY region),
      hq4, ?_, by simp⟩
    show childF (finalizeNode (.inner a b c d)) _ = _
    rw [childF_finalize, hchild]
    rfl

/-! ### Claim C8 -/

/-- C8 counterexample: a freshly created builder (no insertions) is a
reachable builder state whose root is an inner node with all four child
slots empty — the claimed invariant "every inner node has at least one
non-empty child slot" fails on it. -/
theorem C8_counterexample :
    isInner (qt_create_quadtree ⟨10, 10, 0, 0⟩ 4).root = true ∧
    (∀ j, j < 4 → childT (qt_create_quadtree ⟨10, 10, 0, 0⟩ 4).root j = .nil) ∧
    innersOKT (qt_create_quadtree ⟨10, 10, 0, 0⟩ 4).root = false := by
  refine ⟨rfl, ?_, rfl⟩
  intro j hj
  interval_cases j <;> rfl

/-- C8 (amended): in every builder into which at least one item has been
inserted, every inner node (the root included) has at least one non-empty
child slot; the empty builder is the sole exception — its root is an inner
node with all four child slots `NULL`. -/
theorem C8_inner_has_child (fuel : Nat) (region : Quadrant) (maxfill : Nat)
    (items : List Item) (b : UFQuadTree)
    (hne : items ≠ []) (hb : buildTree fuel region maxfill items = some b) :
    innersOKT b.root = true ∧
    innersOKT (qt_create_quadtree region maxfill).root = false :=
  ⟨(buildTree_invariants hb).2.2.2.2.1 hne, rfl⟩

/-! ### Claim C10 -/

/-- `2 ^ 64`, the modulus of `u_int64_t` arithmetic. -/
def pow64 : Nat := 2 ^ 64

/-- The unsigned computation `leaf->n - 1` of the loop condition of
`qt_itr_next` (quadtree.c:572), with u64 wrap-around made explicit. -/
def pred64 (n : Nat) : Nat := (n + (pow64 - 1)) % pow64

theorem pred64_eq {n : Nat} (h1 : 1 ≤ n) (h2 : n < 2 ^ 64) :
    pred64 n = n - 1 := by
  have hp : pow64 = 18446744073709551616 := rfl
  unfold pred64
  rw [hp]
  omega

/-- C10: every leaf of a tree built by any sequence of completed insertions
(and hence every leaf emitted into the finalized tree) holds at least one
item, so the unsigned comparison `n - 1 >= cur_item` of `qt_itr_next` does
not wrap around on any leaf reached by traversal: for `1 ≤ n < 2^64` it is
exactly `cur_item < n`. -/
theorem C10_leaf_occupancy (fuel : Nat) (region : Quadrant) (maxfill : Nat)
    (items : List Item) (b : UFQuadTree) (n cur : Nat)
    (hb : buildTree fuel region maxfill items = some b)
    (h1 : 1 ≤ n) (h2 : n < 2 ^ 64) :
    leavesOKT b.root = true ∧
    leavesOKF (qt_finalise b).root = true ∧
    pred64 n = n - 1 ∧
    (pred64 n ≥ cur ↔ cur < n) := by
  refine ⟨(buildTree_invariants hb).2.2.1,
    leavesOKF_finalize (buildTree_invariants hb).2.2.1, pred64_eq h1 h2, ?_⟩
  rw [pred64_eq h1 h2]
  omega

/-! ### The query iterator

The iterator state of `struct Qt_Iterator` (quadtree_private.h:152-168):
the frame stack (top of stack first, so `so = stack.length - 1` and
`so = -1` corresponds to `[]`), the leaf pointer `lp` (`none` = `NULL` =
exhausted) and the per-item cursor.  The query region and the tree are
threaded through the functions explicitly.  Executions that read
type-punned or out-of-bounds memory in C leave the model (`none`), as does
running out of fuel. -/

/-- C `Qt_Itr_Frame` (quadtree_private.h:114-126). -/
structure Frame where
  node : FNode
  quadrants : Quad4
  quadrant : Nat
  within_parent : Bool
deriving DecidableEq

structure ItrState where
  stack : List Frame
  lp : Option (List Item)
  cur_item : Nat
deriving DecidableEq

/-- An `FNode` is an inner node. -/
def isInnerF : FNode → Bool
  | .inner _ _ _ _ => true
  | _ => false

/-- The frame pushed for a child (quadtree.c:639-661): child index 0, the
four sub-quadrants generated from the parent's current sub-quadrant, and
`within_parent` = parent's flag OR containment of that sub-quadrant in the
query region. -/
def mkFrame (Q : Quadrant) (f : Frame) (child : FNode) : Frame :=
  { node := child
    quadrants := gen_quadrants (quad4get f.quadrants f.quadrant)
    quadrant := 0
    within_parent := f.within_parent ||
      CONTAINED (quad4get f.quadrants f.quadrant) Q }

/-- `so--; if (so >= 0) stack[so].quadrant++` — pop and bump the new top. -/
def bumpTop : List Frame → List Frame
  | [] => []
  | g :: t => { g with quadrant := g.quadrant + 1 } :: t

mutual

/-- `_itr_next_recursive`, entry at the `RECURSE` label (quadtree.c:590-609):
if the top frame's node is a leaf, succeed with that leaf (`lp`, fresh
cursor); otherwise run the scan loop.  Result: `some (some (items, stack))`
on success, `some none` on exhaustion (`lp := NULL`), `none` out of model. -/
def itrRecEnter (Q : Quadrant) : Nat → List Frame →
    Option (Option (List Item × List Frame))
  | 0, _ => none
  | _ + 1, [] => none    -- entered with so = -1: reads stack[-1]
  | fuel + 1, f :: rest =>
    match f.node with
    | .leaf its => some (some (its, f :: rest))
    | _ => itrScan Q fuel (f :: rest)

/-- The `while (itr->so >= 0)` scan loop of `_itr_next_recursive`
(quadtree.c:614-690): scan the top frame's child indices; skip `ROOT`
offsets and non-overlapping sub-quadrants; push and re-enter on a hit; pop
and bump when the four quadrants are exhausted. -/
def itrScan (Q : Quadrant) : Nat → List Frame →
    Option (Option (List Item × List Frame))
  | 0, _ => none
  | _ + 1, [] => some none    -- stack exhausted: lp := NULL
  | fuel + 1, f :: rest =>
    match f.node with
    | .inner _ _ _ _ =>
      if f.quadrant ≠ 4 then
        match childF f.node f.quadrant with
        | .nil => itrScan Q fuel ({ f with quadrant := f.quadrant + 1 } :: rest)
        | child =>
          if OVERLAP Q (quad4get f.quadrants f.quadrant) then
            itrRecEnter Q fuel (mkFrame Q f child :: f :: rest)
          else
            itrScan Q fuel ({ f with quadrant := f.quadrant + 1 } :: rest)
      else
        itrScan Q fuel (bumpTop rest)
    | _ => none    -- scanning a non-inner frame reads garbage

end

/-- The root frame pushed by `qt_query_itr` (quadtree.c:540-545). -/
def rootFrame (t : QuadTreeF) : Frame :=
  { node := t.root
    quadrants := gen_quadrants t.region
    quadrant := 0
    within_parent := false }

/-- Turn the result of `_itr_next_recursive` into the iterator state it
leaves behind (`lp`/`cur_item`/stack). -/
def stateOfRes : Option (List Item × List Frame) → ItrState
  | none => ⟨[], none, 0⟩
  | some (its, s) => ⟨s, some its, 0⟩

/-- `qt_query_itr` (quadtree.c:528-550): push the root frame (child index 0,
`within_parent` false, sub-quadrants of the tree's bounding region), then
advance to the first leaf. -/
def qt_query_itr (fuel : Nat) (t : QuadTreeF) (Q : Quadrant) : Option ItrState :=
  match itrRecEnter Q fuel [rootFrame t] with
  | none => none
  | some r => some (stateOfRes r)

/-- `qt_itr_next` (quadtree.c:555-585): while the (u64) comparison
`n - 1 >= cur_item` holds, take the next item of `lp` and return it if it is
in the query region; when the leaf is exhausted, pop, bump the parent's
child index, re-run `_itr_next_recursive`, and loop (`goto ENTER`). -/
def qt_itr_next (Q : Quadrant) : Nat → ItrState → Option (Option Item × ItrState)
  | 0, _ => none
  | fuel + 1, s =>
    match s.lp with
    | none => some (none, s)    -- return NULL (the C code frees the iterator)
    | some its =>
      match s.stack with
      | [] => none              -- `stack[so * !!lp]` with `so = -1`
      | f :: rest =>
        match f.node with
        | .leaf fits =>
          if pred64 fits.length ≥ s.cur_item then
            match its.get? s.cur_item with
            | none => none      -- reads past the end of `lp->items`
            | some itm =>
              if in_quadrant itm Q then
                some (some itm, ⟨f :: rest, some its, s.cur_item + 1⟩)
              else
                qt_itr_next Q fuel ⟨f :: rest, some its, s.cur_item + 1⟩
          else
            match itrRecEnter Q fuel (bumpTop rest) with
            | none => none
            | some r => qt_itr_next Q fuel (stateOfRes r)
        | _ => none             -- `node.as_leaf->n` read on a non-leaf frame

/-- Repeatedly call `qt_itr_next` until it returns `NULL`, collecting the
yielded items. -/
def itrDrain (Q : Quadrant) : Nat → ItrState → Option (List Item)
  | 0, _ => none
  | fuel + 1, s =>
    match qt_itr_next Q fuel s with
    | none => none
    | some (none, _) => some []
    | some (some itm, s') =>
      match itrDrain Q fuel s' with
      | none => none
      | some ys => some (itm :: ys)

/-- Open a query iterator and drain it: the item sequence a client observes
from `qt_query_itr` followed by repeated `qt_itr_next`. -/
def qt_query_all (fuel : Nat) (t : QuadTreeF) (Q : Quadrant) :
    Option (List Item) :=
  match qt_query_itr fuel t Q with
  | none => none
  | some s => itrDrain Q fuel s

/-- `_include_leaf` (quadtree.c:810-857): with `within` set, copy pointers to
all the leaf's items verbatim; otherwise run the per-item region check. -/
def include_leaf (Q : Quadrant) (its : List Item) (within : Bool) : List Item :=
  if within then its else its.filter (fun i => in_quadrant i Q)

/-- The loop of `qt_query_ary` (quadtree.c:742-771): store each fetched item
(`items[i] = qt_itr_next(itr)`), exit on `NULL` writing back `i`, and break
after storing once `*maxn > 0 && i >= *maxn`.  Returns the stored items and
the count written back through `maxn` (the caller may read that many). -/
def aryLoop (Q : Quadrant) : Nat → ItrState → Nat → Nat → List Item →
    Option (List Item × Nat)
  | 0, _, _, _, _ => none
  | fuel + 1, s, maxn, i, acc =>
    match qt_itr_next Q fuel s with
    | none => none
    | some (none, _) => some (acc, i)
    | some (some itm, s') =>
      if 0 < maxn ∧ maxn ≤ i then some (acc ++ [itm], i)
      else aryLoop Q fuel s' maxn (i + 1) (acc ++ [itm])

/-- `qt_query_ary` (quadtree.c:742-771). -/
def qt_query_ary (fuel : Nat) (t : QuadTreeF) (Q : Quadrant) (maxn : Nat) :
    Option (List Item × Nat) :=
  match qt_query_itr fuel t Q with
  | none => none
  | some s => aryLoop Q fuel s maxn 0 []

/-- The loop of `qt_query_ary_fast` (quadtree.c:784-796): while `lp` is not
`NULL`, break once `*maxn != 0 && i >= *maxn`, include the whole current
leaf (`_include_leaf` with the top frame's `within_parent`), then pop, bump
and re-run the recursive descent. -/
def fastLoop (Q : Quadrant) : Nat → ItrState → Nat → Nat → List Item →
    Option (List Item × Nat)
  | 0, _, _, _, _ => none
  | fuel + 1, s, maxn, i, acc =>
    match s.lp with
    | none => some (acc, i)
    | some its =>
      if maxn ≠ 0 ∧ maxn ≤ i then some (acc, i)
      else
        match s.stack with
        | [] => none    -- reads `stack[so].within_parent` with `so = -1`
        | f :: rest =>
          let batch := include_leaf Q its f.within_parent
          match itrRecEnter Q fuel (bumpTop rest) with
          | none => none
          | some r =>
            fastLoop Q fuel (stateOfRes r) maxn (i + batch.length) (acc ++ batch)

/-- `qt_query_ary_fast` (quadtree.c:775-804). -/
def qt_query_ary_fast (fuel : Nat) (t : QuadTreeF) (Q : Quadrant)
    (maxn : Nat) : Option (List Item × Nat) :=
  match qt_query_itr fuel t Q with
  | none => none
  | some s => fastLoop Q fuel s maxn 0 []

/-- The number of stack frames the allocation of `qt_query_itr`
(quadtree.c:530-532) provides room for: the allocation is
`sizeof(Qt_Iterator) + sizeof(*itr->stack) * qt->maxdepth` bytes and
`itr->stack` points right after the `Qt_Iterator` header, leaving space for
exactly `maxdepth` frames. -/
def iterStackFramesAllocated (t : QuadTreeF) : Nat := t.maxdepth

/-! ### Functional specification of the traversal

`visitLeaves Q t q w` is the sequence of leaves (with their `within_parent`
flags) that the iterator machine visits in a subtree `t` whose bounding
quadrant is `q`, entered with inherited flag `w`. -/

def visitLeaves (Q : Quadrant) : FNode → Quadrant → Bool → List (List Item × Bool)
  | .nil, _, _ => []
  | .leaf its, _, w => [(its, w)]
  | .inner a b c d, q, w =>
    (if a ≠ .nil ∧ OVERLAP Q (gen_quadrants q).nw = true then
      visitLeaves Q a (gen_quadrants q).nw
        (w || CONTAINED (gen_quadrants q).nw Q) else []) ++
    (if b ≠ .nil ∧ OVERLAP Q (gen_quadrants q).ne = true then
      visitLeaves Q b (gen_quadrants q).ne
        (w || CONTAINED (gen_quadrants q).ne Q) else []) ++
    (if c ≠ .nil ∧ OVERLAP Q (gen_quadrants q).sw = true then
      visitLeaves Q c (gen_quadrants q).sw
        (w || CONTAINED (gen_quadrants q).sw Q) else []) ++
    (if d ≠ .nil ∧ OVERLAP Q (gen_quadrants q).se = true then
      visitLeaves Q d (gen_quadrants q).se
        (w || CONTAINED (gen_quadrants q).se Q) else [])

/-- The visits contributed by child index `i` of a frame. -/
def childVisit (Q : Quadrant) (f : Frame) (i : Nat) : List (List Item × Bool) :=
  match childF f.node i with
  | .nil => []
  | t =>
    if OVERLAP Q (quad4get f.quadrants i) then
      visitLeaves Q t (quad4get f.quadrants i)
        (f.within_parent || CONTAINED (quad4get f.quadrants i) Q)
    else []

/-- The visits a frame still has to produce, from its current child index. -/
def frameVisits (Q : Quadrant) (f : Frame) : List (List Item × Bool) :=
  match f.node with
  | .leaf its => [(its, f.within_parent)]
  | _ => ((List.range 4).drop f.quadrant).flatMap (childVisit Q f)

/-- The visits the frames below the top still have to produce: each resumes
at its current child index plus one (its `quadrant` is bumped on pop). -/
def belowVisits (Q : Quadrant) (rest : List Frame) : List (List Item × Bool) :=
  rest.flatMap (fun g => frameVisits Q { g with quadrant := g.quadrant + 1 })

/-- All visits a stack still has to produce. -/
def visitsOf (Q : Quadrant) : List Frame → List (List Item × Bool)
  | [] => []
  | f :: rest => frameVisits Q f ++ belowVisits Q rest

/-- The items the per-item interface yields for a visit sequence: each
visited leaf's items filtered by the query region. -/
def streamOfVisits (Q : Quadrant) (vs : List (List Item × Bool)) : List Item :=
  vs.flatMap (fun v => v.1.filter (fun i => in_quadrant i Q))

/-! ### Termination measure for the traversal -/

/-- Node weight: `nil` 0, a leaf 1, an inner node 1 plus its children. -/
def sizeF : FNode → Nat
  | .nil => 0
  | .leaf _ => 1
  | .inner a b c d => 1 + sizeF a + sizeF b + sizeF c + sizeF d

/-- Remaining weight of a frame: each unvisited child slot costs
`1 + 5 * sizeF child`; leaves and `nil` frames cost nothing. -/
def fm (f : Frame) : Nat :=
  match f.node with
  | .inner _ _ _ _ =>
    (((List.range 4).drop f.quadrant).map
      (fun i => 1 + 5 * sizeF (childF f.node i))).sum
  | _ => 0

def belowM (rest : List Frame) : Nat :=
  (rest.map (fun g => fm { g with quadrant := g.quadrant + 1 })).sum

def stackM : List Frame → Nat
  | [] => 0
  | f :: rest => fm f + belowM rest

/-- The combined measure: strictly decreases on every scan step. -/
def mu (s : List Frame) : Nat := 2 * stackM s + s.length

/-! ### Unfolding lemmas for the visit and measure functions -/

theorem range4_drop {q : Nat} (hq : q < 4) :
    (List.range 4).drop q = q :: (List.range 4).drop (q + 1) := by
  interval_cases q <;> rfl

theorem range4_drop_done {q : Nat} (hq : 4 ≤ q) :
    (List.range 4).drop q = [] := by
  apply List.drop_eq_nil_of_le
  simpa using hq

theorem fm_step {f : Frame} (hin : isInnerF f.node = true)
    (hq : f.quadrant < 4) :
    fm f = (1 + 5 * sizeF (childF f.node f.quadrant)) +
      fm { f with quadrant := f.quadrant + 1 } := by
  obtain ⟨a, b, c, d, hf⟩ : ∃ a b c d, f.node = .inner a b c d := by
    cases h : f.node <;> simp [isInnerF, h] at hin ⊢
  simp only [fm, hf, range4_drop hq, List.map_cons, List.sum_cons]

theorem fm_done {f : Frame} (hq : 4 ≤ f.quadrant) : fm f = 0 := by
  unfold fm
  cases f.node <;> simp [range4_drop_done hq]

theorem fm_leaf {f : Frame} {its : List Item} (h : f.node = .leaf its) :
    fm f = 0 := by
  unfold fm
  rw [h]

theorem frameVisits_step {Q : Quadrant} {f : Frame}
    (hin : isInnerF f.node = true) (hq : f.quadrant < 4) :
    frameVisits Q f = childVisit Q f f.quadrant ++
      frameVisits Q { f with quadrant := f.quadrant + 1 } := by
  obtain ⟨a, b, c, d, hf⟩ : ∃ a b c d, f.node = .inner a b c d := by
    cases h : f.node <;> simp [isInnerF, h] at hin ⊢
  have hcv : childVisit Q { f with quadrant := f.quadrant + 1 } = childVisit Q f :=
    funext fun i => rfl
  rw [hf] at hcv
  simp only [frameVisits, hf, range4_drop hq, List.flatMap_cons, hcv]

theorem frameVisits_done {Q : Quadrant} {f : Frame}
    (hin : isInnerF f.node = true) (hq : 4 ≤ f.quadrant) :
    frameVisits Q f = [] := by
  obtain ⟨a, b, c, d, hf⟩ : ∃ a b c d, f.node = .inner a b c d := by
    cases h : f.node <;> simp [isInnerF, h] at hin ⊢
  simp only [frameVisits, hf, range4_drop_done hq, List.flatMap_nil]

theorem frameVisits_leaf {Q : Quadrant} {f : Frame} {its : List Item}
    (h : f.node = .leaf its) :
    frameVisits Q f = [(its, f.within_parent)] := by
  unfold frameVisits
  rw [h]

theorem visitsOf_bumpTop (Q : Quadrant) (rest : List Frame) :
    visitsOf Q (bumpTop rest) = belowVisits Q rest := by
  cases rest with
  | nil => rfl
  | cons g t => simp [bumpTop, visitsOf, belowVisits, List.flatMap_cons]

theorem stackM_bumpTop (rest : List Frame) :
    stackM (bumpTop rest) = belowM rest := by
  cases rest with
  | nil => rfl
  | cons g t => simp [bumpTop, stackM, belowM, List.map_cons, List.sum_cons]

theorem mu_bumpTop_lt (f : Frame) (rest : List Frame)
    (hf : fm f = 0) :
    mu (bumpTop rest) < mu (f :: rest) := by
  have h1 := stackM_bumpTop rest
  have h2 : (bumpTop rest).length = rest.length := by
    cases rest <;> simp [bumpTop]
  simp only [mu, h1, h2, show stackM (f :: rest) = fm f + belowM rest from rfl,
    hf, List.length_cons]
  omega

theorem mu_skip_lt {f : Frame} (rest : List Frame)
    (hin : isInnerF f.node = true) (hq : f.quadrant < 4) :
    mu ({ f with quadrant := f.quadrant + 1 } :: rest) < mu (f :: rest) := by
  have h := fm_step hin hq
  simp only [mu, stackM, List.length_cons]
  omega

/-- The frame freshly pushed for an inner child has weight
`5 * sizeF child - 1`; for a leaf child, 0. -/
theorem fm_mkFrame_le (Q : Quadrant) (f : Frame) (child : FNode)
    (hch : child ≠ .nil) :
    fm (mkFrame Q f child) + 1 ≤ 5 * sizeF child := by
  cases child with
  | nil => exact absurd rfl hch
  | leaf its => simp [mkFrame, fm, sizeF]
  | inner a b c d =>
    simp [mkFrame, fm, sizeF, List.range_succ, childF]
    omega

theorem mu_push_lt {Q : Quadrant} {f : Frame} (rest : List Frame)
    (hin : isInnerF f.node = true) (hq : f.quadrant < 4)
    (hch : childF f.node f.quadrant ≠ .nil) :
    mu (mkFrame Q f (childF f.node f.quadrant) :: f :: rest) <
      mu (f :: rest) := by
  have h := fm_step hin hq
  have h2 := fm_mkFrame_le Q f (childF f.node f.quadrant) hch
  have h3 : belowM (f :: rest) =
      fm { f with quadrant := f.quadrant + 1 } + belowM rest := by
    simp [belowM, List.map_cons, List.sum_cons]
  simp only [mu, stackM, List.length_cons, h3]
  omega

/-! ### Stack well-formedness and the descent specification -/

def stackWF : List Frame → Prop
  | [] => True
  | f :: rest => f.node ≠ .nil ∧ f.quadrant ≤ 4 ∧
      ∀ g ∈ rest, isInnerF g.node = true ∧ g.quadrant ≤ 3

/-- Nodes of the result stack come from nodes of the input stack by
repeatedly taking children. -/
def heredity (s s' : List Frame) : Prop :=
  ∀ P : FNode → Prop, (∀ t i, P t → P (childF t i)) →
    (∀ g ∈ s, P g.node) → ∀ g ∈ s', P g.node

/-- What `_itr_next_recursive` computes, relative to the visit spec. -/
def RecRel (Q : Quadrant) (s : List Frame) :
    Option (List Item × List Frame) → Prop
  | none => visitsOf Q s = []
  | some (its, s') =>
    ∃ f rest', s' = f :: rest' ∧ f.node = .leaf its ∧
      visitsOf Q s = (its, f.within_parent) :: belowVisits Q rest' ∧
      stackWF s' ∧ mu s' ≤ mu s ∧ heredity s s' ∧
      (rest' ≠ [] ∨ s' = s)

theorem childVisit_eq_if (Q : Quadrant) (node : FNode) (qs : Quad4) (qq : Nat)
    (w : Bool) (i : Nat) :
    childVisit Q ⟨node, qs, qq, w⟩ i =
      if childF node i ≠ .nil ∧ OVERLAP Q (quad4get qs i) = true then
        visitLeaves Q (childF node i) (quad4get qs i)
          (w || CONTAINED (quad4get qs i) Q)
      else [] := by
  unfold childVisit
  cases h : childF node i <;> simp [h]

theorem frameVisits_mk (Q : Quadrant) (t : FNode) (q : Quadrant) (w : Bool) :
    frameVisits Q ⟨t, gen_quadrants q, 0, w⟩ = visitLeaves Q t q w := by
  cases t with
  | nil =>
    simp [frameVisits, List.range_succ, childVisit, childF, visitLeaves]
  | leaf its => rfl
  | inner a b c d =>
    have h4 : List.range 4 = [0, 1, 2, 3] := rfl
    simp only [frameVisits, h4, List.drop_zero, List.flatMap_cons,
      List.flatMap_nil, List.append_nil]
    simp only [childVisit_eq_if, childF, quad4get, visitLeaves, List.append_assoc]

theorem isInnerF_ne_nil {t : FNode} (h : isInnerF t = true) : t ≠ .nil := by
  cases t <;> simp [isInnerF] at h ⊢

theorem heredity_trans {s1 s2 s3 : List Frame}
    (h1 : heredity s1 s2) (h2 : heredity s2 s3) : heredity s1 s3 :=
  fun P hP hS => h2 P hP (h1 P hP hS)

theorem heredity_bumpTop (f : Frame) (rest : List Frame) :
    heredity (f :: rest) (bumpTop rest) := by
  intro P hP hS g hg
  cases rest with
  | nil => simp [bumpTop] at hg
  | cons g0 t =>
    simp only [bumpTop, List.mem_cons] at hg
    rcases hg with rfl | hg
    · exact hS g0 (by simp)
    · exact hS g (by simp [hg])

theorem heredity_skip (f : Frame) (rest : List Frame) :
    heredity (f :: rest) ({ f with quadrant := f.quadrant + 1 } :: rest) := by
  intro P hP hS g hg
  simp only [List.mem_cons] at hg
  rcases hg with rfl | hg
  · exact hS f (by simp)
  · exact hS g (by simp [hg])

theorem heredity_push (Q : Quadrant) (f : Frame) (rest : List Frame) :
    heredity (f :: rest) (mkFrame Q f (childF f.node f.quadrant) :: f :: rest) := by
  intro P hP hS g hg
  simp only [List.mem_cons] at hg
  rcases hg with h | h | h
  · rw [h]
    exact hP f.node f.quadrant (hS f (by simp))
  · rw [h]
    exact hS f (by simp)
  · exact hS g (by simp [h])

theorem RecRel_step {Q : Quadrant} {S S'' : List Frame}
    {r : Option (List Item × List Frame)}
    (h : RecRel Q S'' r)
    (hv : visitsOf Q S = visitsOf Q S'')
    (hlt : mu S'' < mu S)
    (hher : heredity S S'')
    (hne : ∀ g rest', S'' = g :: rest' → rest' = [] → isInnerF g.node = true) :
    RecRel Q S r := by
  cases r with
  | none => simpa [RecRel, hv] using h
  | some p =>
    obtain ⟨g, rest', hs', hgl, hvis, hwf'', hmu'', hher', hlast⟩ := h
    refine ⟨g, rest', hs', hgl, hv ▸ hvis, hwf'',
      le_trans hmu'' (le_of_lt hlt), heredity_trans hher hher', Or.inl ?_⟩
    rcases hlast with h1 | h1
    · exact h1
    · intro hr0
      subst hr0
      have := hne g [] (h1 ▸ hs') rfl
      rw [hgl] at this
      simp [isInnerF] at this

theorem itrScan_skip_nil {Q : Quadrant} {fuel : Nat} {f : Frame}
    {rest : List Frame} (hin : isInnerF f.node = true) (hq : f.quadrant ≠ 4)
    (hch : childF f.node f.quadrant = .nil) :
    itrScan Q (fuel + 1) (f :: rest) =
      itrScan Q fuel ({ f with quadrant := f.quadrant + 1 } :: rest) := by
  obtain ⟨a, b, c, d, hf⟩ : ∃ a b c d, f.node = .inner a b c d := by
    cases h : f.node <;> simp [isInnerF, h] at hin ⊢
  rw [hf] at hch
  simp only [itrScan, hf, hch, if_pos hq]

theorem itrScan_skip_ov {Q : Quadrant} {fuel : Nat} {f : Frame}
    {rest : List Frame} (hin : isInnerF f.node = true) (hq : f.quadrant ≠ 4)
    (hov : ¬ OVERLAP Q (quad4get f.quadrants f.quadrant) = true) :
    itrScan Q (fuel + 1) (f :: rest) =
      itrScan Q fuel ({ f with quadrant := f.quadrant + 1 } :: rest) := by
  obtain ⟨a, b, c, d, hf⟩ : ∃ a b c d, f.node = .inner a b c d := by
    cases h : f.node <;> simp [isInnerF, h] at hin ⊢
  cases hch : childF f.node f.quadrant with
  | nil =>
    rw [hf] at hch
    simp only [itrScan, hf, hch, if_pos hq]
  | leaf its =>
    rw [hf] at hch
    simp only [itrScan, hf, hch, if_pos hq, if_neg hov]
  | inner w x y z =>
    rw [hf] at hch
    simp only [itrScan, hf, hch, if_pos hq, if_neg hov]

theorem itrScan_push {Q : Quadrant} {fuel : Nat} {f : Frame}
    {rest : List Frame} (hin : isInnerF f.node = true) (hq : f.quadrant ≠ 4)
    (hch : childF f.node f.quadrant ≠ .nil)
    (hov : OVERLAP Q (quad4get f.quadrants f.quadrant) = true) :
    itrScan Q (fuel + 1) (f :: rest) =
      itrRecEnter Q fuel (mkFrame Q f (childF f.node f.quadrant) :: f :: rest) := by
  obtain ⟨a, b, c, d, hf⟩ : ∃ a b c d, f.node = .inner a b c d := by
    cases h : f.node <;> simp [isInnerF, h] at hin ⊢
  cases hch2 : childF f.node f.quadrant with
  | nil => exact absurd hch2 hch
  | leaf its =>
    have hch3 := hch2
    rw [hf] at hch3
    simp only [itrScan, hf, hch3, if_pos hq, if_pos hov]
  | inner w x y z =>
    have hch3 := hch2
    rw [hf] at hch3
    simp only [itrScan, hf, hch3, if_pos hq, if_pos hov]

theorem itrScan_pop {Q : Quadrant} {fuel : Nat} {f : Frame}
    {rest : List Frame} (hin : isInnerF f.node = true) (hq : f.quadrant = 4) :
    itrScan Q (fuel + 1) (f :: rest) = itrScan Q fuel (bumpTop rest) := by
  obtain ⟨a, b, c, d, hf⟩ : ∃ a b c d, f.node = .inner a b c d := by
    cases h : f.node <;> simp [isInnerF, h] at hin ⊢
  simp only [itrScan, hf, hq]
  simp

theorem itrRec_exists (Q : Quadrant) : ∀ n S, mu S = n → stackWF S →
    ((∀ f rest, S = f :: rest → isInnerF f.node = true) →
      ∃ fuel r, itrScan Q fuel S = some r ∧ RecRel Q S r) ∧
    (S ≠ [] → ∃ fuel r, itrRecEnter Q fuel S = some r ∧ RecRel Q S r) := by
  intro n
  induction n using Nat.strong_induction_on with
  | _ n ih =>
  intro S hmu hwf
  have scanPart : (∀ f rest, S = f :: rest → isInnerF f.node = true) →
      ∃ fuel r, itrScan Q fuel S = some r ∧ RecRel Q S r := by
    intro htop
    cases S with
    | nil => exact ⟨1, none, rfl, by simp [RecRel, visitsOf]⟩
    | cons f rest =>
      have hin : isInnerF f.node = true := htop f rest rfl
      obtain ⟨hne, hq4, hrest⟩ := hwf
      by_cases hq : f.quadrant < 4
      · by_cases hch : childF f.node f.quadrant = .nil
        · -- skip over a NULL child slot
          have hlt := mu_skip_lt (f := f) rest hin hq
          have hwf' : stackWF ({ f with quadrant := f.quadrant + 1 } :: rest) :=
            ⟨hne, by show f.quadrant + 1 ≤ 4; omega, hrest⟩
          obtain ⟨fuel, r, hrun, hrel⟩ := (ih _ (hmu ▸ hlt) _ rfl hwf').1
            (by intro g rr h
                injection h with h1 _
                rw [← h1]
                exact hin)
          refine ⟨fuel + 1, r, ?_, ?_⟩
          · rw [itrScan_skip_nil hin (by omega) hch]
            exact hrun
          · refine RecRel_step hrel ?_ hlt (heredity_skip f rest) ?_
            · simp only [visitsOf]
              rw [frameVisits_step hin hq]
              have hz : childVisit Q f f.quadrant = [] := by
                simp [childVisit, hch]
              rw [hz, List.nil_append]
            · intro g rr h h0
              injection h with h1 _
              rw [← h1]
              exact hin
        · by_cases hov : OVERLAP Q (quad4get f.quadrants f.quadrant) = true
          · -- push the overlapping child and recurse into it
            have hlt := mu_push_lt (Q := Q) rest hin hq hch
            have hwf' : stackWF
                (mkFrame Q f (childF f.node f.quadrant) :: f :: rest) := by
              refine ⟨hch, by simp [mkFrame], ?_⟩
              intro g hg
              rcases List.mem_cons.mp hg with h | h
              · rw [h]
                exact ⟨hin, by omega⟩
              · exact hrest g h
            obtain ⟨fuel, r, hrun, hrel⟩ :=
              (ih _ (hmu ▸ hlt) _ rfl hwf').2 (by simp)
            refine ⟨fuel + 1, r, ?_, ?_⟩
            · rw [itrScan_push hin (by omega) hch hov]
              exact hrun
            · refine RecRel_step hrel ?_ hlt (heredity_push Q f rest) ?_
              · simp only [visitsOf]
                rw [frameVisits_step hin hq]
                have hcv : childVisit Q f f.quadrant =
                    frameVisits Q (mkFrame Q f (childF f.node f.quadrant)) := by
                  have h1 : frameVisits Q (mkFrame Q f (childF f.node f.quadrant)) =
                      visitLeaves Q (childF f.node f.quadrant)
                        (quad4get f.quadrants f.quadrant)
                        (f.within_parent ||
                          CONTAINED (quad4get f.quadrants f.quadrant) Q) :=
                    frameVisits_mk Q (childF f.node f.quadrant)
                      (quad4get f.quadrants f.quadrant)
                      (f.within_parent ||
                        CONTAINED (quad4get f.quadrants f.quadrant) Q)
                  rw [h1]
                  cases hc : childF f.node f.quadrant with
                  | nil => exact absurd hc hch
                  | leaf its => simp [childVisit, hc, hov]
                  | inner w x y z => simp [childVisit, hc, hov]
                have hb : belowVisits Q (f :: rest) =
                    frameVisits Q { f with quadrant := f.quadrant + 1 } ++
                      belowVisits Q rest := by
                  simp [belowVisits, List.flatMap_cons]
                rw [hcv, hb, List.append_assoc]
              · intro g rr h h0
                rw [h0] at h
                injection h with _ h2
                exact (List.cons_ne_nil f rest h2).elim
          · -- skip: the child's quadrant does not overlap the query
            have hlt := mu_skip_lt (f := f) rest hin hq
            have hwf' : stackWF ({ f with quadrant := f.quadrant + 1 } :: rest) :=
              ⟨hne, by show f.quadrant + 1 ≤ 4; omega, hrest⟩
            obtain ⟨fuel, r, hrun, hrel⟩ := (ih _ (hmu ▸ hlt) _ rfl hwf').1
              (by intro g rr h
                  injection h with h1 _
                  rw [← h1]
                  exact hin)
            refine ⟨fuel + 1, r, ?_, ?_⟩
            · rw [itrScan_skip_ov hin (by omega) hov]
              exact hrun
            · refine RecRel_step hrel ?_ hlt (heredity_skip f rest) ?_
              · simp only [visitsOf]
                rw [frameVisits_step hin hq]
                have hz : childVisit Q f f.quadrant = [] := by
                  cases hc : childF f.node f.quadrant <;>
                    simp [childVisit, hc, hov]
                rw [hz, List.nil_append]
              · intro g rr h h0
                injection h with h1 _
                rw [← h1]
                exact hin
      · -- pop: all four quadrants of the top frame are done
        have hq4' : 4 ≤ f.quadrant := by omega
        have hfm : fm f = 0 := fm_done hq4'
        have hlt := mu_bumpTop_lt f rest hfm
        have hwf' : stackWF (bumpTop rest) := by
          cases rest with
          | nil => trivial
          | cons g0 t =>
            obtain ⟨hg1, hg2⟩ := hrest g0 (by simp)
            exact ⟨isInnerF_ne_nil hg1, by show g0.quadrant + 1 ≤ 4; omega,
              fun x hx => hrest x (by simp [hx])⟩
        have htop' : ∀ g rr, bumpTop rest = g :: rr → isInnerF g.node = true := by
          cases rest with
          | nil =>
            intro g rr h
            simp [bumpTop] at h
          | cons g0 t =>
            intro g rr h
            injection h with h1 _
            rw [← h1]
            exact (hrest g0 (by simp)).1
        obtain ⟨fuel, r, hrun, hrel⟩ := (ih _ (hmu ▸ hlt) _ rfl hwf').1 htop'
        refine ⟨fuel + 1, r, ?_, ?_⟩
        · rw [itrScan_pop hin (by omega)]
          exact hrun
        · refine RecRel_step hrel ?_ hlt (heredity_bumpTop f rest) ?_
          · rw [visitsOf_bumpTop]
            show frameVisits Q f ++ belowVisits Q rest = belowVisits Q rest
            rw [frameVisits_done hin hq4', List.nil_append]
          · intro g rr h _
            exact htop' g rr h
  refine ⟨scanPart, ?_⟩
  intro hSne
  cases S with
  | nil => exact absurd rfl hSne
  | cons f rest =>
    obtain ⟨hne, hq4, hrest⟩ := hwf
    cases hfn : f.node with
    | nil => exact absurd hfn hne
    | leaf its =>
      refine ⟨1, some (its, f :: rest), ?_, ?_⟩
      · show itrRecEnter Q 1 (f :: rest) = _
        simp [itrRecEnter, hfn]
      · refine ⟨f, rest, rfl, hfn, ?_, ⟨hne, hq4, hrest⟩, le_refl _, ?_,
          Or.inr rfl⟩
        · simp [visitsOf, frameVisits_leaf hfn]
        · intro P hP hS g hg
          exact hS g hg
    | inner a b c d =>
      obtain ⟨fuel, r, hrun, hrel⟩ := scanPart
        (by intro g rr h
            injection h with h1 _
            subst h1
            simp [isInnerF, hfn])
      refine ⟨fuel + 1, r, ?_, hrel⟩
      show itrRecEnter Q (fuel + 1) (f :: rest) = some r
      simp only [itrRecEnter, hfn]
      exact hrun

theorem itrRecEnter_leaf {Q : Quadrant} {fuel : Nat} {f : Frame}
    {rest : List Frame} {its : List Item} (h : f.node = .leaf its) :
    itrRecEnter Q (fuel + 1) (f :: rest) = some (some (its, f :: rest)) := by
  simp [itrRecEnter, h]

theorem itrRecEnter_go {Q : Quadrant} {fuel : Nat} {f : Frame}
    {rest : List Frame} (h : ∀ its, f.node ≠ .leaf its) :
    itrRecEnter Q (fuel + 1) (f :: rest) = itrScan Q fuel (f :: rest) := by
  cases hfn : f.node with
  | nil => simp [itrRecEnter, hfn]
  | leaf its => exact absurd hfn (h its)
  | inner a b c d => simp [itrRecEnter, hfn]

theorem itr_mono (Q : Quadrant) : ∀ fuel fuel', fuel ≤ fuel' →
    (∀ S r, itrScan Q fuel S = some r → itrScan Q fuel' S = some r) ∧
    (∀ S r, itrRecEnter Q fuel S = some r → itrRecEnter Q fuel' S = some r) := by
  intro fuel
  induction fuel with
  | zero =>
    intro fuel' h
    constructor
    · intro S r hr
      simp [itrScan] at hr
    · intro S r hr
      simp [itrRecEnter] at hr
  | succ fuel ihf =>
    intro fuel' h
    obtain ⟨fuel'', rfl⟩ : ∃ k, fuel' = k + 1 := ⟨fuel' - 1, by omega⟩
    have ih := ihf fuel'' (by omega)
    constructor
    · intro S r hr
      cases S with
      | nil => exact hr
      | cons f rest =>
        cases hfn : f.node with
        | nil =>
          simp only [itrScan, hfn] at hr
          exact Option.noConfusion hr
        | leaf its =>
          simp only [itrScan, hfn] at hr
          exact Option.noConfusion hr
        | inner a b c d =>
          have hin : isInnerF f.node = true := by simp [isInnerF, hfn]
          by_cases hq : f.quadrant = 4
          · rw [itrScan_pop hin hq] at hr
            rw [itrScan_pop hin hq]
            exact ih.1 _ _ hr
          · by_cases hch : childF f.node f.quadrant = .nil
            · rw [itrScan_skip_nil hin hq hch] at hr
              rw [itrScan_skip_nil hin hq hch]
              exact ih.1 _ _ hr
            · by_cases hov : OVERLAP Q (quad4get f.quadrants f.quadrant) = true
              · rw [itrScan_push hin hq hch hov] at hr
                rw [itrScan_push hin hq hch hov]
                exact ih.2 _ _ hr
              · rw [itrScan_skip_ov hin hq hov] at hr
                rw [itrScan_skip_ov hin hq hov]
                exact ih.1 _ _ hr
    · intro S r hr
      cases S with
      | nil =>
        simp [itrRecEnter] at hr
      | cons f rest =>
        cases hfn : f.node with
        | leaf its =>
          rw [itrRecEnter_leaf hfn] at hr
          rw [itrRecEnter_leaf hfn]
          exact hr
        | nil =>
          rw [itrRecEnter_go (by simp [hfn])] at hr
          rw [itrRecEnter_go (by simp [hfn])]
          exact ih.1 _ _ hr
        | inner a b c d =>
          rw [itrRecEnter_go (by simp [hfn])] at hr
          rw [itrRecEnter_go (by simp [hfn])]
          exact ih.1 _ _ hr

theorem itrRecEnter_det {Q : Quadrant} {fuel fuel' : Nat} {S : List Frame}
    {r r' : Option (List Item × List Frame)}
    (h : itrRecEnter Q fuel S = some r) (h' : itrRecEnter Q fuel' S = some r') :
    r = r' := by
  rcases le_total fuel fuel' with hle | hle
  · have h2 := (itr_mono Q fuel fuel' hle).2 S r h
    rw [h2] at h'
    exact Option.some.inj h'
  · have h2 := (itr_mono Q fuel' fuel hle).2 S r' h'
    rw [h2] at h
    exact (Option.some.inj h).symm

theorem qt_itr_next_mono (Q : Quadrant) : ∀ fuel fuel', fuel ≤ fuel' →
    ∀ s r, qt_itr_next Q fuel s = some r → qt_itr_next Q fuel' s = some r := by
  intro fuel
  induction fuel with
  | zero =>
    intro fuel' h s r hr
    simp [qt_itr_next] at hr
  | succ fuel ihf =>
    intro fuel' h s r hr
    obtain ⟨fuel'', rfl⟩ : ∃ k, fuel' = k + 1 := ⟨fuel' - 1, by omega⟩
    have hle : fuel ≤ fuel'' := by omega
    cases hlp : s.lp with
    | none =>
      simp only [qt_itr_next, hlp] at hr ⊢
      exact hr
    | some its =>
      cases hst : s.stack with
      | nil =>
        simp only [qt_itr_next, hlp, hst] at hr
        exact Option.noConfusion hr
      | cons f rest =>
        cases hfn : f.node with
        | nil =>
          simp only [qt_itr_next, hlp, hst, hfn] at hr
          exact Option.noConfusion hr
        | inner a b c d =>
          simp only [qt_itr_next, hlp, hst, hfn] at hr
          exact Option.noConfusion hr
        | leaf fits =>
          by_cases hcur : pred64 fits.length ≥ s.cur_item
          · cases hget : its.get? s.cur_item with
            | none =>
              simp only [qt_itr_next, hlp, hst, hfn, if_pos hcur, hget] at hr
              exact Option.noConfusion hr
            | some itm =>
              by_cases hinq : in_quadrant itm Q = true
              · simp only [qt_itr_next, hlp, hst, hfn, if_pos hcur, hget,
                  if_pos hinq] at hr ⊢
                exact hr
              · simp only [qt_itr_next, hlp, hst, hfn, if_pos hcur, hget,
                  if_neg hinq] at hr ⊢
                exact ihf fuel'' hle _ _ hr
          · cases hre : itrRecEnter Q fuel (bumpTop rest) with
            | none =>
              simp only [qt_itr_next, hlp, hst, hfn, if_neg hcur, hre] at hr
              exact Option.noConfusion hr
            | some rr =>
              have hre' := (itr_mono Q fuel fuel'' hle).2 _ _ hre
              simp only [qt_itr_next, hlp, hst, hfn, if_neg hcur, hre] at hr
              simp only [qt_itr_next, hlp, hst, hfn, if_neg hcur, hre']
              exact ihf fuel'' hle _ _ hr

theorem itrDrain_mono (Q : Quadrant) : ∀ fuel fuel', fuel ≤ fuel' →
    ∀ s r, itrDrain Q fuel s = some r → itrDrain Q fuel' s = some r := by
  intro fuel
  induction fuel with
  | zero =>
    intro fuel' h s r hr
    simp [itrDrain] at hr
  | succ fuel ihf =>
    intro fuel' h s r hr
    obtain ⟨fuel'', rfl⟩ : ∃ k, fuel' = k + 1 := ⟨fuel' - 1, by omega⟩
    have hle : fuel ≤ fuel'' := by omega
    cases hn : qt_itr_next Q fuel s with
    | none =>
      simp only [itrDrain, hn] at hr
      exact Option.noConfusion hr
    | some p =>
      have hn' := qt_itr_next_mono Q fuel fuel'' hle _ _ hn
      obtain ⟨oi, s'⟩ := p
      cases oi with
      | none =>
        simp only [itrDrain, hn] at hr
        simp only [itrDrain, hn']
        exact hr
      | some itm =>
        cases hd : itrDrain Q fuel s' with
        | none =>
          simp only [itrDrain, hn, hd] at hr
          exact Option.noConfusion hr
        | some ys =>
          have hd' := ihf fuel'' hle _ _ hd
          simp only [itrDrain, hn, hd] at hr
          simp only [itrDrain, hn', hd']
          exact hr

theorem qt_query_all_mono {Q : Quadrant} {t : QuadTreeF} {fuel fuel' : Nat}
    (hle : fuel ≤ fuel') {r : List Item}
    (hr : qt_query_all fuel t Q = some r) : qt_query_all fuel' t Q = some r := by
  unfold qt_query_all qt_query_itr at hr ⊢
  cases he : itrRecEnter Q fuel [rootFrame t] with
  | none =>
    rw [he] at hr
    exact Option.noConfusion hr
  | some rr =>
    have he' := (itr_mono Q fuel fuel' hle).2 _ _ he
    rw [he] at hr
    rw [he']
    exact itrDrain_mono Q fuel fuel' hle _ _ hr

theorem qt_query_all_det {Q : Quadrant} {t : QuadTreeF} {fuel fuel' : Nat}
    {r r' : List Item} (h : qt_query_all fuel t Q = some r)
    (h' : qt_query_all fuel' t Q = some r') : r = r' := by
  rcases le_total fuel fuel' with hle | hle
  · have h2 := qt_query_all_mono hle h
    rw [h2] at h'
    exact Option.some.inj h'
  · have h2 := qt_query_all_mono hle h'
    rw [h2] at h
    exact (Option.some.inj h).symm

/-! ### The per-item interface: state invariant and specification -/

/-- Length of the current leaf's bucket (`lp->n`). -/
def lpLen (s : ItrState) : Nat :=
  match s.lp with
  | none => 0
  | some its => its.length

/-- Termination measure for `qt_itr_next`'s internal loop. -/
def nextMeasure (s : ItrState) : Nat :=
  pow64 * mu s.stack + (lpLen s - s.cur_item)

/-- All leaves reachable from the frame's node are non-empty and hold at
most `N` items. -/
def frameOK (N : Nat) (g : Frame) : Prop :=
  leavesOKF g.node = true ∧ leavesLEF g.node N = true

/-- Invariant of the iterator state between `qt_itr_next` calls. -/
def stateWF (N : Nat) (s : ItrState) : Prop :=
  stackWF s.stack ∧ (∀ g ∈ s.stack, frameOK N g) ∧
  (match s.lp with
   | none => True
   | some its => ∃ f rest, s.stack = f :: rest ∧ rest ≠ [] ∧
       f.node = .leaf its ∧ s.cur_item ≤ its.length)

/-- The items the iterator still has to yield from state `s`. -/
def specOf (Q : Quadrant) (s : ItrState) : List Item :=
  match s.lp, s.stack with
  | some its, _ :: rest =>
      (its.drop s.cur_item).filter (fun i => in_quadrant i Q) ++
        streamOfVisits Q (belowVisits Q rest)
  | _, _ => []

/-- What one `qt_itr_next` call achieves. -/
def NextRel (Q : Quadrant) (N : Nat) (s : ItrState) :
    Option Item × ItrState → Prop
  | (none, s') => specOf Q s = [] ∧ s'.lp = none
  | (some itm, s') => specOf Q s = itm :: specOf Q s' ∧ stateWF N s'

theorem NextRel_congr {Q : Quadrant} {N : Nat} {s s1 : ItrState}
    {r : Option Item × ItrState} (h : NextRel Q N s1 r)
    (he : specOf Q s = specOf Q s1) : NextRel Q N s r := by
  obtain ⟨oi, s'⟩ := r
  cases oi with
  | none => exact ⟨he.trans h.1, h.2⟩
  | some itm => exact ⟨he.trans h.1, h.2⟩

theorem leaves_child {N : Nat} :
    ∀ (t : FNode) (i : Nat), leavesOKF t = true ∧ leavesLEF t N = true →
    leavesOKF (childF t i) = true ∧ leavesLEF (childF t i) N = true := by
  intro t i h
  cases t with
  | nil => exact ⟨rfl, rfl⟩
  | leaf its => exact ⟨rfl, rfl⟩
  | inner a b c d =>
    simp only [leavesOKF, leavesLEF, Bool.and_eq_true] at h
    match i with
    | 0 => exact ⟨h.1.1.1.1, h.2.1.1.1⟩
    | 1 => exact ⟨h.1.1.1.2, h.2.1.1.2⟩
    | 2 => exact ⟨h.1.1.2, h.2.1.2⟩
    | 3 => exact ⟨h.1.2, h.2.2⟩
    | n + 4 => exact ⟨rfl, rfl⟩

theorem stackWF_bumpTop {rest : List Frame}
    (hrest : ∀ g ∈ rest, isInnerF g.node = true ∧ g.quadrant ≤ 3) :
    stackWF (bumpTop rest) := by
  cases rest with
  | nil => trivial
  | cons g0 t =>
    obtain ⟨hg1, hg2⟩ := hrest g0 (by simp)
    exact ⟨isInnerF_ne_nil hg1, by show g0.quadrant + 1 ≤ 4; omega,
      fun x hx => hrest x (by simp [hx])⟩

theorem qt_itr_next_none {Q : Quadrant} {fuel : Nat} {s : ItrState}
    (h : s.lp = none) : qt_itr_next Q (fuel + 1) s = some (none, s) := by
  simp only [qt_itr_next, h]

theorem qt_itr_next_read {Q : Quadrant} {fuel : Nat} {s : ItrState}
    {its fits : List Item} {f : Frame} {rest : List Frame} {itm : Item}
    (hlp : s.lp = some its) (hst : s.stack = f :: rest)
    (hfn : f.node = .leaf fits) (hcond : pred64 fits.length ≥ s.cur_item)
    (hget : its.get? s.cur_item = some itm) :
    qt_itr_next Q (fuel + 1) s =
      if in_quadrant itm Q then
        some (some itm, ⟨f :: rest, some its, s.cur_item + 1⟩)
      else qt_itr_next Q fuel ⟨f :: rest, some its, s.cur_item + 1⟩ := by
  simp only [qt_itr_next, hlp, hst, hfn, if_pos hcond, hget]

theorem qt_itr_next_pop {Q : Quadrant} {fuel : Nat} {s : ItrState}
    {its fits : List Item} {f : Frame} {rest : List Frame}
    (hlp : s.lp = some its) (hst : s.stack = f :: rest)
    (hfn : f.node = .leaf fits) (hcond : ¬ pred64 fits.length ≥ s.cur_item) :
    qt_itr_next Q (fuel + 1) s =
      match itrRecEnter Q fuel (bumpTop rest) with
      | none => none
      | some r => qt_itr_next Q fuel (stateOfRes r) := by
  simp only [qt_itr_next, hlp, hst, hfn, if_neg hcond]

theorem next_exists (Q : Quadrant) (N : Nat) (hN : N < pow64) :
    ∀ n s, nextMeasure s = n → stateWF N s →
    ∃ fuel r, qt_itr_next Q fuel s = some r ∧ NextRel Q N s r := by
  intro n
  induction n using Nat.strong_induction_on with
  | _ n ih =>
  intro s hn hwf
  obtain ⟨hswf, hfr, hlive⟩ := hwf
  cases hlp : s.lp with
  | none =>
    refine ⟨1, (none, s), qt_itr_next_none hlp, ?_, hlp⟩
    simp [specOf, hlp]
  | some its =>
    rw [hlp] at hlive
    obtain ⟨f, rest, hst, hrne, hfn, hcur⟩ := hlive
    have hfOK : frameOK N f := hfr f (by rw [hst]; simp)
    have hne : its ≠ [] := by
      have h1 := hfOK.1
      rw [hfn] at h1
      simpa [leavesOKF] using h1
    have hlen : its.length ≤ N := by
      have h1 := hfOK.2
      rw [hfn] at h1
      simpa [leavesLEF] using h1
    have hlen1 : 1 ≤ its.length := List.length_pos.mpr hne
    have hlenp : its.length < 2 ^ 64 := lt_of_le_of_lt hlen hN
    by_cases hc : s.cur_item < its.length
    · -- the loop condition holds: read item `cur_item`
      have hcond : pred64 its.length ≥ s.cur_item := by
        rw [pred64_eq hlen1 hlenp]
        omega
      obtain ⟨itm, hget⟩ : ∃ itm, its.get? s.cur_item = some itm := by
        cases hg : its.get? s.cur_item with
        | none =>
          rw [List.get?_eq_none] at hg
          omega
        | some itm => exact ⟨itm, rfl⟩
      have hdrop : its.drop s.cur_item = itm :: its.drop (s.cur_item + 1) := by
        have := List.get?_eq_get hc
        rw [hget] at this
        rw [List.drop_eq_get_cons hc]
        simp [Option.some.inj this]
      have hwf1 : stateWF N (⟨f :: rest, some its, s.cur_item + 1⟩ : ItrState) := by
        refine ⟨hst ▸ hswf, fun g hg => hfr g (by rw [hst]; exact hg),
          ⟨f, rest, rfl, hrne, hfn, by show s.cur_item + 1 ≤ its.length; omega⟩⟩
      by_cases hinq : in_quadrant itm Q = true
      · refine ⟨2, (some itm, ⟨f :: rest, some its, s.cur_item + 1⟩), ?_, ?_, hwf1⟩
        · rw [qt_itr_next_read hlp hst hfn hcond hget, if_pos hinq]
        · simp only [specOf, hlp, hst, hdrop, List.filter_cons, hinq, if_pos]
          simp
      · set s1 : ItrState := ⟨f :: rest, some its, s.cur_item + 1⟩ with hs1
        have hm1 : nextMeasure s1 < n := by
          rw [← hn]
          show pow64 * mu (f :: rest) + (its.length - (s.cur_item + 1)) <
            pow64 * mu s.stack + (lpLen s - s.cur_item)
          rw [hst]
          simp only [lpLen, hlp]
          omega
        obtain ⟨fuel, r, hrun, hrel⟩ := ih _ hm1 s1 rfl hwf1
        refine ⟨fuel + 1, r, ?_, NextRel_congr hrel ?_⟩
        · rw [qt_itr_next_read hlp hst hfn hcond hget, if_neg hinq]
          exact hrun
        · simp only [specOf, hlp, hst, hdrop, List.filter_cons, hinq, hs1]
          simp [hinq]
    · -- the current leaf is exhausted: pop, bump and descend again
      have hcur' : s.cur_item = its.length := by omega
      have hcond : ¬ pred64 its.length ≥ s.cur_item := by
        rw [pred64_eq hlen1 hlenp]
        omega
      have hrestwf : ∀ g ∈ rest, isInnerF g.node = true ∧ g.quadrant ≤ 3 :=
        (hst ▸ hswf).2.2
      have hwfb : stackWF (bumpTop rest) := stackWF_bumpTop hrestwf
      have hbne : bumpTop rest ≠ [] := by
        cases hre : rest with
        | nil => exact absurd hre hrne
        | cons g0 t => simp [bumpTop]
      obtain ⟨fuel1, r1, hrun1, hrel1⟩ :=
        (itrRec_exists Q (mu (bumpTop rest)) (bumpTop rest) rfl hwfb).2 hbne
      have hspec0 : specOf Q s =
          streamOfVisits Q (visitsOf Q (bumpTop rest)) := by
        simp only [specOf, hlp, hst, hcur', List.drop_length, visitsOf_bumpTop]
        simp
      cases r1 with
      | none =>
        have hvis : visitsOf Q (bumpTop rest) = [] := hrel1
        refine ⟨fuel1 + 2, (none, ⟨[], none, 0⟩), ?_, ?_, rfl⟩
        · rw [show fuel1 + 2 = (fuel1 + 1) + 1 from rfl,
            qt_itr_next_pop hlp hst hfn hcond,
            (itr_mono Q fuel1 (fuel1 + 1) (by omega)).2 _ _ hrun1]
          exact qt_itr_next_none rfl
        · rw [hspec0, hvis]
          simp [streamOfVisits]
      | some p =>
        obtain ⟨its1, S1⟩ := p
        obtain ⟨g, rest1, hS1, hgl, hvis, hwf1s, hmu1, hher1, hlast1⟩ := hrel1
        subst hS1
        have hrne1 : rest1 ≠ [] := by
          rcases hlast1 with h1 | h1
          · exact h1
          · cases rest with
            | nil => exact absurd rfl hrne
            | cons g0 t =>
              simp only [bumpTop] at h1
              injection h1 with h2 _
              have hg0 := (hrestwf g0 (by simp)).1
              rw [h2] at hgl
              rw [show ({ g0 with quadrant := g0.quadrant + 1 } : Frame).node =
                g0.node from rfl] at hgl
              rw [hgl] at hg0
              simp [isInnerF] at hg0
        set s1 : ItrState := ⟨g :: rest1, some its1, 0⟩ with hs1
        have hPall : ∀ x ∈ g :: rest1, frameOK N x := by
          have hbase : ∀ x ∈ f :: rest,
              leavesOKF x.node = true ∧ leavesLEF x.node N = true := by
            intro x hx
            exact hfr x (by rw [hst]; exact hx)
          have hb2 : ∀ x ∈ bumpTop rest,
              leavesOKF x.node = true ∧ leavesLEF x.node N = true :=
            heredity_bumpTop f rest _ leaves_child hbase
          intro x hx
          exact hher1 _ leaves_child hb2 x hx
        have hgOK := hPall g (by simp)
        have hits1ne : its1 ≠ [] := by
          have h1 := hgOK.1
          rw [hgl] at h1
          simpa [leavesOKF] using h1
        have hits1len : its1.length ≤ N := by
          have h1 := hgOK.2
          rw [hgl] at h1
          simpa [leavesLEF] using h1
        have hwfS1 : stateWF N s1 :=
          ⟨hwf1s, hPall, ⟨g, rest1, rfl, hrne1, hgl, by simp⟩⟩
        have hm1 : nextMeasure s1 < n := by
          rw [← hn]
          have hmub : mu (bumpTop rest) < mu (f :: rest) :=
            mu_bumpTop_lt f rest (fm_leaf hfn)
          have hmu2 : mu (g :: rest1) < mu (f :: rest) :=
            lt_of_le_of_lt hmu1 hmub
          have hp : pow64 = 18446744073709551616 := rfl
          simp only [nextMeasure, lpLen, hs1, hlp, hst, hp]
          have hNp : N < 18446744073709551616 := by rw [← hp]; exact hN
          have : its1.length < 18446744073709551616 := by omega
          omega
        obtain ⟨fuel2, r, hrun2, hrel2⟩ := ih _ hm1 s1 rfl hwfS1
        refine ⟨max fuel1 fuel2 + 1, r, ?_, NextRel_congr hrel2 ?_⟩
        · rw [qt_itr_next_pop hlp hst hfn hcond,
            (itr_mono Q fuel1 (max fuel1 fuel2) (le_max_left _ _)).2 _ _ hrun1]
          exact qt_itr_next_mono Q fuel2 _ (le_max_right _ _) _ _ hrun2
        · rw [hspec0, hvis]
          simp [streamOfVisits, List.flatMap_cons, specOf, hs1]

theorem drain_exists (Q : Quadrant) (N : Nat) (hN : N < pow64) :
    ∀ n s, (specOf Q s).length = n → stateWF N s →
    ∃ fuel ys, itrDrain Q fuel s = some ys ∧ ys = specOf Q s := by
  intro n
  induction n using Nat.strong_induction_on with
  | _ n ih =>
  intro s hn hwf
  obtain ⟨fuel1, r, hrun, hrel⟩ := next_exists Q N hN (nextMeasure s) s rfl hwf
  obtain ⟨oi, s'⟩ := r
  cases oi with
  | none =>
    refine ⟨fuel1 + 1, [], ?_, hrel.1.symm⟩
    simp only [itrDrain, hrun]
  | some itm =>
    obtain ⟨hspec, hwf'⟩ := hrel
    have hlen : (specOf Q s').length < n := by
      rw [← hn, hspec]
      simp
    obtain ⟨fuel2, ys, hd2, hys⟩ := ih _ hlen s' rfl hwf'
    refine ⟨max fuel1 fuel2 + 1, itm :: ys, ?_, ?_⟩
    · have h1 := qt_itr_next_mono Q fuel1 (max fuel1 fuel2)
        (le_max_left _ _) _ _ hrun
      have h2 := itrDrain_mono Q fuel2 (max fuel1 fuel2)
        (le_max_right _ _) _ _ hd2
      simp only [itrDrain, h1, h2]
    · rw [hspec, hys]

/-- Master theorem for the per-item query interface: on a finalized tree
whose root is an inner node and all of whose leaves are non-empty and hold
at most `N < 2^64` items, opening an iterator and draining it terminates and
yields exactly the leaf-visit stream of the functional traversal spec. -/
theorem query_all_exists (Q : Quadrant) (N : Nat) (hN : N < pow64)
    (t : QuadTreeF) (hroot : isInnerF t.root = true)
    (hok : leavesOKF t.root = true) (hle : leavesLEF t.root N = true) :
    ∃ fuel ys, qt_query_all fuel t Q = some ys ∧
      ys = streamOfVisits Q (visitLeaves Q t.root t.region false) := by
  have hwfR : stackWF [rootFrame t] :=
    ⟨isInnerF_ne_nil hroot, by show (0 : Nat) ≤ 4; omega, by simp⟩
  obtain ⟨fuel1, r1, hrun1, hrel1⟩ :=
    (itrRec_exists Q (mu [rootFrame t]) [rootFrame t] rfl hwfR).2 (by simp)
  have hvisR : visitsOf Q [rootFrame t] =
      visitLeaves Q t.root t.region false := by
    show frameVisits Q (rootFrame t) ++ belowVisits Q [] = _
    rw [show belowVisits Q ([] : List Frame) = [] from rfl, List.append_nil]
    exact frameVisits_mk Q t.root t.region false
  cases r1 with
  | none =>
    have h0 : visitsOf Q [rootFrame t] = [] := hrel1
    refine ⟨fuel1 + 2, [], ?_, ?_⟩
    · unfold qt_query_all qt_query_itr
      rw [(itr_mono Q fuel1 (fuel1 + 2) (by omega)).2 _ _ hrun1]
      show itrDrain Q (fuel1 + 2) ⟨[], none, 0⟩ = some []
      simp only [itrDrain, qt_itr_next_none
        (show (⟨[], none, 0⟩ : ItrState).lp = none from rfl)]
    · rw [← hvisR, h0]
      rfl
  | some p =>
    obtain ⟨its1, S1⟩ := p
    obtain ⟨g, rest1, hS1, hgl, hvis, hwfS, hmuS, hher, hlast⟩ := hrel1
    subst hS1
    have hrne1 : rest1 ≠ [] := by
      rcases hlast with h1 | h1
      · exact h1
      · injection h1 with h2 h3
        rw [h2] at hgl
        have : t.root = .leaf its1 := hgl
        rw [this] at hroot
        simp [isInnerF] at hroot
    have hPall : ∀ x ∈ g :: rest1, frameOK N x := by
      intro x hx
      refine hher _ leaves_child ?_ x hx
      intro y hy
      simp only [List.mem_singleton] at hy
      rw [hy]
      exact ⟨hok, hle⟩
    have hwf1 : stateWF N (⟨g :: rest1, some its1, 0⟩ : ItrState) :=
      ⟨hwfS, hPall, ⟨g, rest1, rfl, hrne1, hgl, by show (0 : Nat) ≤ _; omega⟩⟩
    obtain ⟨fuel2, ys, hd, hys⟩ := drain_exists Q N hN _ _ rfl hwf1
    refine ⟨max fuel1 fuel2, ys, ?_, ?_⟩
    · unfold qt_query_all qt_query_itr
      rw [(itr_mono Q fuel1 (max fuel1 fuel2) (le_max_left _ _)).2 _ _ hrun1]
      exact itrDrain_mono Q fuel2 _ (le_max_right _ _) _ _ hd
    · rw [hys, ← hvisR, hvis]
      simp [specOf, streamOfVisits, List.flatMap_cons]

/-! ### The traversal stream equals the filtered item list -/

/-- A point lying in both rectangles witnesses that they overlap. -/
theorem point_overlap {i : Item} {s Q : Quadrant}
    (h1 : in_quadrant i s = true) (h2 : in_quadrant i Q = true) :
    OVERLAP Q s = true := by
  simp only [in_quadrant, Bool.and_eq_true, decide_eq_true_eq] at h1 h2
  simp only [OVERLAP, Bool.and_eq_true, decide_eq_true_eq]
  obtain ⟨⟨⟨a1, a2⟩, a3⟩, a4⟩ := h1
  obtain ⟨⟨⟨b1, b2⟩, b3⟩, b4⟩ := h2
  exact ⟨⟨⟨le_trans b1 a2, le_trans b3 a4⟩, le_trans a1 b2⟩, le_trans a3 b4⟩

/-- The top-level conjunct of `itemsInQF`: every item of the subtree lies in
its bounding quadrant. -/
theorem itemsInQF_items {t : FNode} {q : Quadrant}
    (h : itemsInQF t q = true) : ∀ x ∈ itemsOfF t, in_quadrant x q = true := by
  cases t with
  | nil => simp [itemsOfF]
  | leaf its =>
    simpa [itemsInQF, itemsOfF, List.all_eq_true] using h
  | inner a b c d =>
    simp only [itemsInQF, Bool.and_eq_true, List.all_eq_true] at h
    exact h.1.1.1.1

theorem streamOfVisits_append (Q : Quadrant) (v1 v2 : List (List Item × Bool)) :
    streamOfVisits Q (v1 ++ v2) = streamOfVisits Q v1 ++ streamOfVisits Q v2 := by
  simp [streamOfVisits]

/-- On a subtree satisfying the placement invariant, the traversal stream is
exactly the subtree's item list (in storage order) filtered by the query
region: pruning non-overlapping quadrants drops no matching item. -/
theorem stream_visitLeaves (Q : Quadrant) :
    ∀ (t : FNode) (q : Quadrant) (w : Bool), itemsInQF t q = true →
    streamOfVisits Q (visitLeaves Q t q w) =
      (itemsOfF t).filter (fun i => in_quadrant i Q) := by
  intro t
  induction t with
  | nil =>
    intro q w _
    rfl
  | leaf its =>
    intro q w _
    simp [visitLeaves, streamOfVisits, itemsOfF]
  | inner a b c d iha ihb ihc ihd =>
    intro q w h
    have hch : ∀ (ch : FNode) (sub : Quadrant) (w' : Bool),
        itemsInQF ch sub = true →
        (∀ q' w'', itemsInQF ch q' = true →
          streamOfVisits Q (visitLeaves Q ch q' w'') =
            (itemsOfF ch).filter (fun i => in_quadrant i Q)) →
        streamOfVisits Q
          (if ch ≠ .nil ∧ OVERLAP Q sub = true then visitLeaves Q ch sub w'
           else []) =
          (itemsOfF ch).filter (fun i => in_quadrant i Q) := by
      intro ch sub w' hin ihh
      by_cases hc : ch ≠ FNode.nil ∧ OVERLAP Q sub = true
      · rw [if_pos hc]
        exact ihh sub w' hin
      · rw [if_neg hc]
        rcases not_and_or.mp hc with h1 | h1
        · have h2 : ch = FNode.nil := not_not.mp h1
          rw [h2]
          rfl
        · rw [show streamOfVisits Q ([] : List (List Item × Bool)) = []
            from rfl]
          symm
          rw [List.filter_eq_nil]
          intro x hx
          intro hxq
          exact h1 (point_overlap (itemsInQF_items hin x hx) hxq)
    simp only [itemsInQF, Bool.and_eq_true] at h
    obtain ⟨⟨⟨⟨_, ha⟩, hb⟩, hc'⟩, hd⟩ := h
    show streamOfVisits Q (_ ++ _ ++ _ ++ _) = _
    rw [streamOfVisits_append, streamOfVisits_append, streamOfVisits_append]
    rw [hch a _ _ ha (fun q' w'' hh => iha q' w'' hh),
      hch b _ _ hb (fun q' w'' hh => ihb q' w'' hh),
      hch c _ _ hc' (fun q' w'' hh => ihc q' w'' hh),
      hch d _ _ hd (fun q' w'' hh => ihd q' w'' hh)]
    show _ = (itemsOfF a ++ itemsOfF b ++ itemsOfF c ++ itemsOfF d).filter _
    simp [List.filter_append]

/-- Bridge: a finalized built tree satisfies the iterator's preconditions,
every drained run yields exactly the filtered item list, and the finalized
items are the inserted ones. -/
theorem built_query_stream {fuel : Nat} {region : Quadrant} {maxfill : Nat}
    {items : List Item} {b : UFQuadTree}
    (hb : buildTree fuel region maxfill items = some b)
    (hin : ∀ i ∈ items, in_quadrant i region = true)
    (hN : items.length < pow64) (Q : Quadrant) :
    (∃ fuel2 ys, qt_query_all fuel2 (qt_finalise b) Q = some ys) ∧
    (∀ fuel2 ys, qt_query_all fuel2 (qt_finalise b) Q = some ys →
      ys = (itemsOfF (finalizeNode b.root)).filter (fun i => in_quadrant i Q)) ∧
    ((itemsOfF (finalizeNode b.root) : Multiset Item) = (items : Multiset Item)) := by
  obtain ⟨hreg, hM, hleaf, hinner, _, hQ⟩ := buildTree_invariants hb
  have hMF : (itemsOfF (finalizeNode b.root) : Multiset Item) =
      (items : Multiset Item) := by
    rw [itemsOfF_finalize]
    exact hM
  have hroot : isInnerF (finalizeNode b.root) = true := by
    cases hb' : b.root with
    | nil => rw [hb'] at hinner; simp [isInner] at hinner
    | leaf its sz => rw [hb'] at hinner; simp [isInner] at hinner
    | inner x y z w => simp [finalizeNode, isInnerF]
  have hokF : leavesOKF (finalizeNode b.root) = true := leavesOKF_finalize hleaf
  have hlen : (itemsOfF (finalizeNode b.root)).length = items.length := by
    have h1 := congrArg Multiset.card hMF
    simpa using h1
  have hleF : leavesLEF (finalizeNode b.root) items.length = true := by
    have h1 := leavesLEF_total (finalizeNode b.root)
    rw [hlen] at h1
    exact h1
  have hQF : itemsInQF (finalizeNode b.root) region = true :=
    itemsInQF_finalize (hQ hin)
  obtain ⟨fuel2, ys, hrun, hys⟩ :=
    query_all_exists Q items.length hN (qt_finalise b) hroot hokF hleF
  refine ⟨⟨fuel2, ys, hrun⟩, ?_, hMF⟩
  intro fuel3 ys3 h3
  have hys3 : ys3 = ys := qt_query_all_det h3 hrun
  rw [hys3, hys]
  show streamOfVisits Q (visitLeaves Q (finalizeNode b.root) b.region false) = _
  rw [hreg]
  exact stream_visitLeaves Q (finalizeNode b.root) region false hQF

/-! ### Specification of the two bulk-query wrappers -/

/-- Pure model of the `qt_query_ary` loop over the matching-item stream. -/
def arySpec (maxn : Nat) : List Item → Nat → List Item → List Item × Nat
  | [], i, acc => (acc, i)
  | itm :: L, i, acc =>
    if 0 < maxn ∧ maxn ≤ i then (acc ++ [itm], i)
    else arySpec maxn L (i + 1) (acc ++ [itm])

/-- The leaf visits still ahead of an iterator state (`qt_query_ary_fast`
re-batches from the current leaf regardless of the per-item cursor). -/
def visitsOfState (Q : Quadrant) (s : ItrState) : List (List Item × Bool) :=
  match s.lp, s.stack with
  | some its, f :: rest => (its, f.within_parent) :: belowVisits Q rest
  | _, _ => []

/-- Pure model of the `qt_query_ary_fast` loop over the visit stream. -/
def fastSpec (Q : Quadrant) (maxn : Nat) :
    List (List Item × Bool) → Nat → List Item → List Item × Nat
  | [], i, acc => (acc, i)
  | (its, w) :: vs, i, acc =>
    if maxn ≠ 0 ∧ maxn ≤ i then (acc, i)
    else
      fastSpec Q maxn vs (i + (include_leaf Q its w).length)
        (acc ++ include_leaf Q its w)

theorem aryLoop_mono (Q : Quadrant) : ∀ fuel fuel', fuel ≤ fuel' →
    ∀ s maxn i acc r, aryLoop Q fuel s maxn i acc = some r →
      aryLoop Q fuel' s maxn i acc = some r := by
  intro fuel
  induction fuel with
  | zero =>
    intro fuel' h s maxn i acc r hr
    simp [aryLoop] at hr
  | succ fuel ihf =>
    intro fuel' h s maxn i acc r hr
    obtain ⟨fuel'', rfl⟩ : ∃ k, fuel' = k + 1 := ⟨fuel' - 1, by omega⟩
    have hle : fuel ≤ fuel'' := by omega
    cases hn : qt_itr_next Q fuel s with
    | none =>
      simp only [aryLoop, hn] at hr
      exact Option.noConfusion hr
    | some p =>
      have hn' := qt_itr_next_mono Q fuel fuel'' hle _ _ hn
      obtain ⟨oi, s'⟩ := p
      cases oi with
      | none =>
        simp only [aryLoop, hn] at hr
        simp only [aryLoop, hn']
        exact hr
      | some itm =>
        by_cases hbr : 0 < maxn ∧ maxn ≤ i
        · simp only [aryLoop, hn, if_pos hbr] at hr
          simp only [aryLoop, hn', if_pos hbr]
          exact hr
        · simp only [aryLoop, hn, if_neg hbr] at hr
          simp only [aryLoop, hn', if_neg hbr]
          exact ihf fuel'' hle _ _ _ _ _ hr

theorem fastLoop_mono (Q : Quadrant) : ∀ fuel fuel', fuel ≤ fuel' →
    ∀ s maxn i acc r, fastLoop Q fuel s maxn i acc = some r →
      fastLoop Q fuel' s maxn i acc = some r := by
  intro fuel
  induction fuel with
  | zero =>
    intro fuel' h s maxn i acc r hr
    simp [fastLoop] at hr
  | succ fuel ihf =>
    intro fuel' h s maxn i acc r hr
    obtain ⟨fuel'', rfl⟩ : ∃ k, fuel' = k + 1 := ⟨fuel' - 1, by omega⟩
    have hle : fuel ≤ fuel'' := by omega
    cases hlp : s.lp with
    | none =>
      simp only [fastLoop, hlp] at hr ⊢
      exact hr
    | some its =>
      by_cases hbr : maxn ≠ 0 ∧ maxn ≤ i
      · simp only [fastLoop, hlp, if_pos hbr] at hr ⊢
        exact hr
      · cases hst : s.stack with
        | nil =>
          simp only [fastLoop, hlp, if_neg hbr, hst] at hr
          exact Option.noConfusion hr
        | cons f rest =>
          cases hre : itrRecEnter Q fuel (bumpTop rest) with
          | none =>
            simp only [fastLoop, hlp, if_neg hbr, hst, hre] at hr
            exact Option.noConfusion hr
          | some rr =>
            have hre' := (itr_mono Q fuel fuel'' hle).2 _ _ hre
            simp only [fastLoop, hlp, if_neg hbr, hst, hre] at hr
            simp only [fastLoop, hlp, if_neg hbr, hst, hre']
            exact ihf fuel'' hle _ _ _ _ _ hr

theorem ary_exists (Q : Quadrant) (N : Nat) (hN : N < pow64) :
    ∀ n s, (specOf Q s).length = n → stateWF N s →
    ∀ maxn i acc, ∃ fuel r, aryLoop Q fuel s maxn i acc = some r ∧
      r = arySpec maxn (specOf Q s) i acc := by
  intro n
  induction n using Nat.strong_induction_on with
  | _ n ih =>
  intro s hn hwf maxn i acc
  obtain ⟨fuel1, r, hrun, hrel⟩ := next_exists Q N hN (nextMeasure s) s rfl hwf
  obtain ⟨oi, s'⟩ := r
  cases oi with
  | none =>
    refine ⟨fuel1 + 1, (acc, i), ?_, ?_⟩
    · simp only [aryLoop, hrun]
    · rw [hrel.1]
      rfl
  | some itm =>
    obtain ⟨hspec, hwf'⟩ := hrel
    by_cases hbr : 0 < maxn ∧ maxn ≤ i
    · refine ⟨fuel1 + 1, (acc ++ [itm], i), ?_, ?_⟩
      · simp only [aryLoop, hrun, if_pos hbr]
      · rw [hspec]
        simp [arySpec, hbr]
    · have hlen : (specOf Q s').length < n := by
        rw [← hn, hspec]
        simp
      obtain ⟨fuel2, r2, h2, hr2⟩ := ih _ hlen s' rfl hwf' maxn (i + 1) (acc ++ [itm])
      refine ⟨max fuel1 fuel2 + 1, r2, ?_, ?_⟩
      · have ha := qt_itr_next_mono Q fuel1 (max fuel1 fuel2)
          (le_max_left _ _) _ _ hrun
        have hb := aryLoop_mono Q fuel2 (max fuel1 fuel2)
          (le_max_right _ _) _ _ _ _ _ h2
        simp only [aryLoop, ha, if_neg hbr]
        exact hb
      · rw [hspec, hr2]
        simp [arySpec, hbr]

theorem fast_exists (Q : Quadrant) (N : Nat) :
    ∀ n s, (visitsOfState Q s).length = n → stateWF N s →
    ∀ maxn i acc, ∃ fuel r, fastLoop Q fuel s maxn i acc = some r ∧
      r = fastSpec Q maxn (visitsOfState Q s) i acc := by
  intro n
  induction n using Nat.strong_induction_on with
  | _ n ih =>
  intro s hn hwf maxn i acc
  obtain ⟨hswf, hfr, hlive⟩ := hwf
  cases hlp : s.lp with
  | none =>
    refine ⟨1, (acc, i), ?_, ?_⟩
    · simp only [fastLoop, hlp]
    · simp [visitsOfState, hlp, fastSpec]
  | some its =>
    rw [hlp] at hlive
    obtain ⟨f, rest, hst, hrne, hfn, hcur⟩ := hlive
    have hvs : visitsOfState Q s =
        (its, f.within_parent) :: belowVisits Q rest := by
      simp [visitsOfState, hlp, hst]
    by_cases hbr : maxn ≠ 0 ∧ maxn ≤ i
    · refine ⟨1, (acc, i), ?_, ?_⟩
      · simp only [fastLoop, hlp, if_pos hbr]
      · rw [hvs]
        simp [fastSpec, hbr]
    · have hrestwf : ∀ g ∈ rest, isInnerF g.node = true ∧ g.quadrant ≤ 3 :=
        (hst ▸ hswf).2.2
      have hwfb : stackWF (bumpTop rest) := stackWF_bumpTop hrestwf
      have hbne : bumpTop rest ≠ [] := by
        cases rest with
        | nil => exact absurd rfl hrne
        | cons g0 t => simp [bumpTop]
      obtain ⟨fuel1, r1, hrun1, hrel1⟩ :=
        (itrRec_exists Q (mu (bumpTop rest)) (bumpTop rest) rfl hwfb).2 hbne
      cases r1 with
      | none =>
        have hvis : visitsOf Q (bumpTop rest) = [] := hrel1
        have hb0 : belowVisits Q rest = [] := by
          rw [← visitsOf_bumpTop, hvis]
        refine ⟨fuel1 + 2,
          (acc ++ include_leaf Q its f.within_parent,
            i + (include_leaf Q its f.within_parent).length), ?_, ?_⟩
        · simp only [fastLoop, hlp, if_neg hbr, hst,
            (itr_mono Q fuel1 (fuel1 + 1) (by omega)).2 _ _ hrun1]
          simp [fastLoop, stateOfRes]
        · rw [hvs, hb0]
          simp [fastSpec, hbr]
      | some p =>
        obtain ⟨its1, S1⟩ := p
        obtain ⟨g, rest1, hS1, hgl, hvis, hwfS, hmu1, hher1, hlast1⟩ := hrel1
        subst hS1
        have hrne1 : rest1 ≠ [] := by
          rcases hlast1 with h1 | h1
          · exact h1
          · cases rest with
            | nil => exact absurd rfl hrne
            | cons g0 t =>
              simp only [bumpTop] at h1
              injection h1 with h2 _
              have hg0 := (hrestwf g0 (by simp)).1
              rw [h2] at hgl
              rw [show ({ g0 with quadrant := g0.quadrant + 1 } : Frame).node =
                g0.node from rfl] at hgl
              rw [hgl] at hg0
              simp [isInnerF] at hg0
        have hPall : ∀ x ∈ g :: rest1, frameOK N x := by
          have hbase : ∀ x ∈ f :: rest,
              leavesOKF x.node = true ∧ leavesLEF x.node N = true := by
            intro x hx
            exact hfr x (by rw [hst]; exact hx)
          have hb2 : ∀ x ∈ bumpTop rest,
              leavesOKF x.node = true ∧ leavesLEF x.node N = true :=
            heredity_bumpTop f rest _ leaves_child hbase
          intro x hx
          exact hher1 _ leaves_child hb2 x hx
        have hwf1 : stateWF N (⟨g :: rest1, some its1, 0⟩ : ItrState) :=
          ⟨hwfS, hPall, ⟨g, rest1, rfl, hrne1, hgl, Nat.zero_le _⟩⟩
        have hvs1 : visitsOfState Q (⟨g :: rest1, some its1, 0⟩ : ItrState) =
            (its1, g.within_parent) :: belowVisits Q rest1 := by
          simp [visitsOfState]
        have hbb : belowVisits Q rest =
            (its1, g.within_parent) :: belowVisits Q rest1 := by
          rw [← visitsOf_bumpTop, hvis]
        have hlen : (visitsOfState Q
            (⟨g :: rest1, some its1, 0⟩ : ItrState)).length < n := by
          rw [← hn, hvs, hvs1, hbb]
          simp
        obtain ⟨fuel2, r2, h2, hr2⟩ := ih _ hlen _ rfl hwf1 maxn
          (i + (include_leaf Q its f.within_parent).length)
          (acc ++ include_leaf Q its f.within_parent)
        refine ⟨max fuel1 fuel2 + 1, r2, ?_, ?_⟩
        · simp only [fastLoop, hlp, if_neg hbr, hst,
            (itr_mono Q fuel1 (max fuel1 fuel2) (le_max_left _ _)).2 _ _ hrun1]
          exact fastLoop_mono Q fuel2 _ (le_max_right _ _) _ _ _ _ _ h2
        · rw [hvs, hr2, hvs1, hbb]
          simp [fastSpec, hbr]

theorem arySpec_zero : ∀ (L : List Item) (i : Nat) (acc : List Item),
    arySpec 0 L i acc = (acc ++ L, i + L.length) := by
  intro L
  induction L with
  | nil =>
    intro i acc
    simp [arySpec]
  | cons itm L ihL =>
    intro i acc
    have hstep : arySpec 0 (itm :: L) i acc = arySpec 0 L (i + 1) (acc ++ [itm]) := by
      rw [show arySpec 0 (itm :: L) i acc =
        if 0 < 0 ∧ 0 ≤ i then (acc ++ [itm], i)
        else arySpec 0 L (i + 1) (acc ++ [itm]) from rfl, if_neg (by omega)]
    rw [hstep, ihL]
    simp only [List.append_assoc, List.singleton_append, List.length_cons]
    exact Prod.ext rfl (by omega)

theorem arySpec_pos {maxn : Nat} (hm : 0 < maxn) :
    ∀ (L : List Item) (i : Nat) (acc : List Item), i ≤ maxn →
    (arySpec maxn L i acc).2 = min maxn (i + L.length) ∧
    (arySpec maxn L i acc).1 = acc ++ L.take (min maxn (i + L.length) - i +
      (if maxn < i + L.length then 1 else 0)) := by
  intro L
  induction L with
  | nil =>
    intro i acc hi
    constructor
    · show i = min maxn (i + 0)
      omega
    · show acc = acc ++ List.take _ []
      simp
  | cons itm L ihL =>
    intro i acc hi
    by_cases hbr : 0 < maxn ∧ maxn ≤ i
    · have hieq : i = maxn := by omega
      simp only [arySpec, if_pos hbr]
      constructor
      · show i = min maxn (i + (itm :: L).length)
        simp only [List.length_cons]
        omega
      · show acc ++ [itm] = acc ++ List.take _ (itm :: L)
        have h1 : min maxn (i + (itm :: L).length) - i = 0 := by
          simp only [List.length_cons]
          omega
        have h2 : maxn < i + (itm :: L).length := by
          simp only [List.length_cons]
          omega
        rw [h1, if_pos h2]
        rfl
    · have hi1 : i + 1 ≤ maxn := by omega
      simp only [arySpec, if_neg hbr]
      obtain ⟨ih2, ih1⟩ := ihL (i + 1) (acc ++ [itm]) hi1
      constructor
      · rw [ih2]
        simp only [List.length_cons]
        omega
      · rw [ih1]
        have hk : min maxn (i + (itm :: L).length) - i +
            (if maxn < i + (itm :: L).length then 1 else 0) =
            (min maxn (i + 1 + L.length) - (i + 1) +
              (if maxn < i + 1 + L.length then 1 else 0)) + 1 := by
          simp only [List.length_cons]
          split <;> split <;> omega
        rw [hk]
        simp [List.take_succ_cons]

theorem fastSpec_shape (Q : Quadrant) (maxn : Nat) :
    ∀ (vs : List (List Item × Bool)) (i : Nat) (acc : List Item),
    ∃ tail, (fastSpec Q maxn vs i acc).1 = acc ++ tail ∧
      (fastSpec Q maxn vs i acc).2 = i + tail.length := by
  intro vs
  induction vs with
  | nil =>
    intro i acc
    exact ⟨[], by simp [fastSpec]⟩
  | cons v vs ihv =>
    intro i acc
    obtain ⟨its, w⟩ := v
    by_cases hbr : maxn ≠ 0 ∧ maxn ≤ i
    · exact ⟨[], by simp [fastSpec, hbr]⟩
    · obtain ⟨tail, h1, h2⟩ := ihv (i + (include_leaf Q its w).length)
        (acc ++ include_leaf Q its w)
    -- result tail is batch ++ tail
      refine ⟨include_leaf Q its w ++ tail, ?_, ?_⟩
      · simp only [fastSpec, if_neg hbr, h1, List.append_assoc]
      · simp only [fastSpec, if_neg hbr, h2, List.length_append]
        omega

theorem fastSpec_zero (Q : Quadrant) :
    ∀ (vs : List (List Item × Bool)) (i : Nat) (acc : List Item),
    fastSpec Q 0 vs i acc =
      (acc ++ vs.flatMap (fun v => include_leaf Q v.1 v.2),
       i + (vs.flatMap (fun v => include_leaf Q v.1 v.2)).length) := by
  intro vs
  induction vs with
  | nil =>
    intro i acc
    simp [fastSpec]
  | cons v vs ihv =>
    intro i acc
    obtain ⟨its, w⟩ := v
    have hstep : fastSpec Q 0 ((its, w) :: vs) i acc =
        fastSpec Q 0 vs (i + (include_leaf Q its w).length)
          (acc ++ include_leaf Q its w) := by
      rw [show fastSpec Q 0 ((its, w) :: vs) i acc =
        if (0 : Nat) ≠ 0 ∧ 0 ≤ i then (acc, i)
        else fastSpec Q 0 vs (i + (include_leaf Q its w).length)
          (acc ++ include_leaf Q its w) from rfl, if_neg (by simp)]
    rw [hstep, ihv]
    simp only [List.flatMap_cons, List.append_assoc, List.length_append]
    exact Prod.ext rfl (by omega)

/-- Soundness of the `within_parent` fast path over a visit list. -/
def WithinSound (Q : Quadrant) (vs : List (List Item × Bool)) : Prop :=
  ∀ its w, (its, w) ∈ vs → w = true → ∀ x ∈ its, in_quadrant x Q = true

theorem batchStream_eq {Q : Quadrant} {vs : List (List Item × Bool)}
    (h : WithinSound Q vs) :
    vs.flatMap (fun v => include_leaf Q v.1 v.2) = streamOfVisits Q vs := by
  induction vs with
  | nil => rfl
  | cons v vs ihv =>
    obtain ⟨its, w⟩ := v
    have hv : include_leaf Q its w = its.filter (fun i => in_quadrant i Q) := by
      cases w with
      | false => rfl
      | true =>
        show its = _
        symm
        rw [List.filter_eq_self]
        exact h its true (by simp) rfl
    simp only [List.flatMap_cons, streamOfVisits, hv]
    rw [show vs.flatMap (fun v => include_leaf Q v.1 v.2) =
      streamOfVisits Q vs from ihv
        (fun its' w' hm hw => h its' w' (by simp [hm]) hw)]
    rfl

theorem in_quadrant_contained {i : Item} {sub Q : Quadrant}
    (h1 : in_quadrant i sub = true) (h2 : CONTAINED sub Q = true) :
    in_quadrant i Q = true := by
  simp only [in_quadrant, CONTAINED, Bool.and_eq_true, decide_eq_true_eq]
    at h1 h2 ⊢
  obtain ⟨⟨⟨a1, a2⟩, a3⟩, a4⟩ := h1
  obtain ⟨⟨⟨b1, b2⟩, b3⟩, b4⟩ := h2
  exact ⟨⟨⟨le_trans b1 a1, le_trans a2 b3⟩, le_trans b2 a3⟩, le_trans a4 b4⟩

/-- The traversal only raises the `within_parent` flag soundly: a visit
carrying `w = true` only contains items that match the query region. -/
theorem visitLeaves_within (Q : Quadrant) :
    ∀ (t : FNode) (q : Quadrant) (w : Bool), itemsInQF t q = true →
    (w = true → ∀ x ∈ itemsOfF t, in_quadrant x Q = true) →
    WithinSound Q (visitLeaves Q t q w) := by
  intro t
  induction t with
  | nil =>
    intro q w _ _ its w' hm
    simp [visitLeaves] at hm
  | leaf iks =>
    intro q w _ hw its w' hm hw'
    simp only [visitLeaves, List.mem_singleton, Prod.mk.injEq] at hm
    obtain ⟨h1, h2⟩ := hm
    subst h1
    subst h2
    exact hw hw'
  | inner a b c d iha ihb ihc ihd =>
    intro q w h hw its w' hm hw'
    simp only [itemsInQF, Bool.and_eq_true] at h
    obtain ⟨⟨⟨⟨hall, ha⟩, hb⟩, hc'⟩, hd⟩ := h
    have hsub : ∀ (ch : FNode) (sub : Quadrant),
        itemsInQF ch sub = true →
        (∀ x ∈ itemsOfF ch, x ∈ itemsOfF (FNode.inner a b c d)) →
        (w || CONTAINED sub Q) = true → ∀ x ∈ itemsOfF ch,
          in_quadrant x Q = true := by
      intro ch sub hin hmem hwc x hx
      rcases Bool.or_eq_true_iff.mp hwc with h1 | h1
      · exact hw h1 x (hmem x hx)
      · exact in_quadrant_contained (itemsInQF_items hin x hx) h1
    have hblocks : ∀ (ch : FNode) (sub : Quadrant),
        itemsInQF ch sub = true →
        (∀ x ∈ itemsOfF ch, x ∈ itemsOfF (FNode.inner a b c d)) →
        (∀ q' w'', itemsInQF ch q' = true →
          (w'' = true → ∀ x ∈ itemsOfF ch, in_quadrant x Q = true) →
          WithinSound Q (visitLeaves Q ch q' w'')) →
        (its, w') ∈ (if ch ≠ FNode.nil ∧ OVERLAP Q sub = true then
          visitLeaves Q ch sub (w || CONTAINED sub Q) else []) →
        w' = true → ∀ x ∈ its, in_quadrant x Q = true := by
      intro ch sub hin hmem ihh hm' hw''
      by_cases hcnd : ch ≠ FNode.nil ∧ OVERLAP Q sub = true
      · rw [if_pos hcnd] at hm'
        exact ihh sub (w || CONTAINED sub Q) hin (hsub ch sub hin hmem)
          its w' hm' hw''
      · rw [if_neg hcnd] at hm'
        simp at hm'
    show _
    simp only [visitLeaves, List.mem_append] at hm
    have hma : ∀ x ∈ itemsOfF a, x ∈ itemsOfF (FNode.inner a b c d) := by
      intro x hx
      simp [itemsOfF, hx]
    have hmb : ∀ x ∈ itemsOfF b, x ∈ itemsOfF (FNode.inner a b c d) := by
      intro x hx
      simp [itemsOfF, hx]
    have hmc : ∀ x ∈ itemsOfF c, x ∈ itemsOfF (FNode.inner a b c d) := by
      intro x hx
      simp [itemsOfF, hx]
    have hmd : ∀ x ∈ itemsOfF d, x ∈ itemsOfF (FNode.inner a b c d) := by
      intro x hx
      simp [itemsOfF, hx]
    rcases hm with ((hm | hm) | hm) | hm
    · exact hblocks a _ ha hma iha hm hw'
    · exact hblocks b _ hb hmb ihb hm hw'
    · exact hblocks c _ hc' hmc ihc hm hw'
    · exact hblocks d _ hd hmd ihd hm hw'

theorem built_tree_wf {fuel : Nat} {region : Quadrant} {maxfill : Nat}
    {items : List Item} {b : UFQuadTree}
    (hb : buildTree fuel region maxfill items = some b)
    (hin : ∀ i ∈ items, in_quadrant i region = true) :
    isInnerF (finalizeNode b.root) = true ∧
    leavesOKF (finalizeNode b.root) = true ∧
    leavesLEF (finalizeNode b.root) items.length = true ∧
    itemsInQF (finalizeNode b.root) region = true ∧
    b.region = region ∧
    ((itemsOfF (finalizeNode b.root) : Multiset Item) =
      (items : Multiset Item)) := by
  obtain ⟨hreg, hM, hleaf, hinner, _, hQ⟩ := buildTree_invariants hb
  have hMF : (itemsOfF (finalizeNode b.root) : Multiset Item) =
      (items : Multiset Item) := by
    rw [itemsOfF_finalize]
    exact hM
  refine ⟨?_, leavesOKF_finalize hleaf, ?_, itemsInQF_finalize (hQ hin),
    hreg, hMF⟩
  · cases hb' : b.root with
    | nil => rw [hb'] at hinner; simp [isInner] at hinner
    | leaf its sz => rw [hb'] at hinner; simp [isInner] at hinner
    | inner x y z w => simp [finalizeNode, isInnerF]
  · have hlen : (itemsOfF (finalizeNode b.root)).length = items.length := by
      have h1 := congrArg Multiset.card hMF
      simpa using h1
    have h1 := leavesLEF_total (finalizeNode b.root)
    rw [hlen] at h1
    exact h1

theorem qt_query_ary_det {t : QuadTreeF} {Q : Quadrant} {maxn : Nat}
    {fuel fuel' : Nat} {r r' : List Item × Nat}
    (h : qt_query_ary fuel t Q maxn = some r)
    (h' : qt_query_ary fuel' t Q maxn = some r') : r = r' := by
  have mono : ∀ f f', f ≤ f' → ∀ rr, qt_query_ary f t Q maxn = some rr →
      qt_query_ary f' t Q maxn = some rr := by
    intro f f' hle rr hrr
    unfold qt_query_ary qt_query_itr at hrr ⊢
    cases he : itrRecEnter Q f [rootFrame t] with
    | none =>
      rw [he] at hrr
      exact Option.noConfusion hrr
    | some rr2 =>
      rw [he] at hrr
      rw [(itr_mono Q f f' hle).2 _ _ he]
      exact aryLoop_mono Q f f' hle _ _ _ _ _ hrr
  rcases le_total fuel fuel' with hle | hle
  · have h2 := mono fuel fuel' hle r h
    rw [h2] at h'
    exact Option.some.inj h'
  · have h2 := mono fuel' fuel hle r' h'
    rw [h2] at h
    exact (Option.some.inj h).symm

theorem qt_query_ary_fast_det {t : QuadTreeF} {Q : Quadrant} {maxn : Nat}
    {fuel fuel' : Nat} {r r' : List Item × Nat}
    (h : qt_query_ary_fast fuel t Q maxn = some r)
    (h' : qt_query_ary_fast fuel' t Q maxn = some r') : r = r' := by
  have mono : ∀ f f', f ≤ f' → ∀ rr, qt_query_ary_fast f t Q maxn = some rr →
      qt_query_ary_fast f' t Q maxn = some rr := by
    intro f f' hle rr hrr
    unfold qt_query_ary_fast qt_query_itr at hrr ⊢
    cases he : itrRecEnter Q f [rootFrame t] with
    | none =>
      rw [he] at hrr
      exact Option.noConfusion hrr
    | some rr2 =>
      rw [he] at hrr
      rw [(itr_mono Q f f' hle).2 _ _ he]
      exact fastLoop_mono Q f f' hle _ _ _ _ _ hrr
  rcases le_total fuel fuel' with hle | hle
  · have h2 := mono fuel fuel' hle r h
    rw [h2] at h'
    exact Option.some.inj h'
  · have h2 := mono fuel' fuel hle r' h'
    rw [h2] at h
    exact (Option.some.inj h).symm

/-- Bridge for the two bulk wrappers: on a built-and-finalized tree both
terminate for some fuel, and every successful run computes the pure
`arySpec`/`fastSpec` models over the matching stream / the visit list. -/
theorem built_wrappers {fuel : Nat} {region : Quadrant} {maxfill : Nat}
    {items : List Item} {b : UFQuadTree}
    (hb : buildTree fuel region maxfill items = some b)
    (hin : ∀ i ∈ items, in_quadrant i region = true)
    (hN : items.length < pow64) (Q : Quadrant) (maxn : Nat) :
    (∃ f2 r, qt_query_ary f2 (qt_finalise b) Q maxn = some r) ∧
    (∀ f2 r, qt_query_ary f2 (qt_finalise b) Q maxn = some r →
      r = arySpec maxn ((itemsOfF (finalizeNode b.root)).filter
        (fun i => in_quadrant i Q)) 0 []) ∧
    (∃ f2 r, qt_query_ary_fast f2 (qt_finalise b) Q maxn = some r) ∧
    (∀ f2 r, qt_query_ary_fast f2 (qt_finalise b) Q maxn = some r →
      r = fastSpec Q maxn
        (visitLeaves Q (finalizeNode b.root) region false) 0 []) ∧
    WithinSound Q (visitLeaves Q (finalizeNode b.root) region false) ∧
    streamOfVisits Q (visitLeaves Q (finalizeNode b.root) region false) =
      (itemsOfF (finalizeNode b.root)).filter (fun i => in_quadrant i Q) := by
  obtain ⟨hroot, hokF, hleF, hQF, hreg, hMF⟩ := built_tree_wf hb hin
  subst hreg
  have hws : WithinSound Q
      (visitLeaves Q (finalizeNode b.root) b.region false) :=
    visitLeaves_within Q (finalizeNode b.root) b.region false hQF
      (fun h => Bool.noConfusion h)
  have hstream : streamOfVisits Q
      (visitLeaves Q (finalizeNode b.root) b.region false) =
      (itemsOfF (finalizeNode b.root)).filter (fun i => in_quadrant i Q) :=
    stream_visitLeaves Q (finalizeNode b.root) b.region false hQF
  have hwfR : stackWF [rootFrame (qt_finalise b)] :=
    ⟨isInnerF_ne_nil hroot, by show (0 : Nat) ≤ 4; omega, by simp⟩
  have hvisR : visitsOf Q [rootFrame (qt_finalise b)] =
      visitLeaves Q (finalizeNode b.root) b.region false := by
    show frameVisits Q (rootFrame (qt_finalise b)) ++ belowVisits Q [] = _
    rw [show belowVisits Q ([] : List Frame) = [] from rfl, List.append_nil]
    exact frameVisits_mk Q (qt_finalise b).root (qt_finalise b).region false
  obtain ⟨fuel1, r1, hrun1, hrel1⟩ :=
    (itrRec_exists Q (mu [rootFrame (qt_finalise b)])
      [rootFrame (qt_finalise b)] rfl hwfR).2 (by simp)
  cases r1 with
  | none =>
    have h0 : visitsOf Q [rootFrame (qt_finalise b)] = [] := hrel1
    have hM0 : (itemsOfF (finalizeNode b.root)).filter
        (fun i => in_quadrant i Q) = [] := by
      rw [← hstream, ← hvisR, h0]
      rfl
    have hV0 : visitLeaves Q (finalizeNode b.root) b.region false = [] := by
      rw [← hvisR, h0]
    have hAry : qt_query_ary (fuel1 + 2) (qt_finalise b) Q maxn =
        some ([], 0) := by
      unfold qt_query_ary qt_query_itr
      rw [(itr_mono Q fuel1 (fuel1 + 2) (by omega)).2 _ _ hrun1]
      show aryLoop Q (fuel1 + 2) ⟨[], none, 0⟩ maxn 0 [] = some ([], 0)
      simp only [aryLoop,
        qt_itr_next_none (show (⟨[], none, 0⟩ : ItrState).lp = none from rfl)]
    have hFast : qt_query_ary_fast (fuel1 + 2) (qt_finalise b) Q maxn =
        some ([], 0) := by
      unfold qt_query_ary_fast qt_query_itr
      rw [(itr_mono Q fuel1 (fuel1 + 2) (by omega)).2 _ _ hrun1]
      show fastLoop Q (fuel1 + 2) ⟨[], none, 0⟩ maxn 0 [] = some ([], 0)
      simp only [fastLoop]
    refine ⟨⟨fuel1 + 2, ([], 0), hAry⟩, ?_, ⟨fuel1 + 2, ([], 0), hFast⟩, ?_,
      hws, hstream⟩
    · intro f2 r h2
      rw [qt_query_ary_det h2 hAry, hM0]
      rfl
    · intro f2 r h2
      rw [qt_query_ary_fast_det h2 hFast, hV0]
      rfl
  | some p =>
    obtain ⟨its1, S1⟩ := p
    obtain ⟨g, rest1, hS1, hgl, hvis, hwfS, hmuS, hher, hlast⟩ := hrel1
    subst hS1
    have hrne1 : rest1 ≠ [] := by
      rcases hlast with h1 | h1
      · exact h1
      · injection h1 with h2 h3
        rw [h2] at hgl
        have h5 : finalizeNode b.root = .leaf its1 := hgl
        rw [h5] at hroot
        simp [isInnerF] at hroot
    have hPall : ∀ x ∈ g :: rest1, frameOK items.length x := by
      intro x hx
      refine hher _ leaves_child ?_ x hx
      intro y hy
      simp only [List.mem_singleton] at hy
      rw [hy]
      exact ⟨hokF, hleF⟩
    have hwf1 : stateWF items.length (⟨g :: rest1, some its1, 0⟩ : ItrState) :=
      ⟨hwfS, hPall, ⟨g, rest1, rfl, hrne1, hgl, Nat.zero_le _⟩⟩
    have hspec1 : specOf Q (⟨g :: rest1, some its1, 0⟩ : ItrState) =
        (itemsOfF (finalizeNode b.root)).filter (fun i => in_quadrant i Q) := by
      rw [← hstream, ← hvisR, hvis]
      simp [specOf, streamOfVisits, List.flatMap_cons]
    have hvs1 : visitsOfState Q (⟨g :: rest1, some its1, 0⟩ : ItrState) =
        visitLeaves Q (finalizeNode b.root) b.region false := by
      rw [← hvisR, hvis]
      simp [visitsOfState]
    obtain ⟨fuelA, rA, hA, hrA⟩ :=
      ary_exists Q items.length hN _ _ rfl hwf1 maxn 0 []
    obtain ⟨fuelB, rB, hB, hrB⟩ :=
      fast_exists Q items.length _ _ rfl hwf1 maxn 0 []
    have hAry : qt_query_ary (max fuel1 fuelA) (qt_finalise b) Q maxn =
        some rA := by
      unfold qt_query_ary qt_query_itr
      rw [(itr_mono Q fuel1 (max fuel1 fuelA) (le_max_left _ _)).2 _ _ hrun1]
      exact aryLoop_mono Q fuelA _ (le_max_right _ _) _ _ _ _ _ hA
    have hFast : qt_query_ary_fast (max fuel1 fuelB) (qt_finalise b) Q maxn =
        some rB := by
      unfold qt_query_ary_fast qt_query_itr
      rw [(itr_mono Q fuel1 (max fuel1 fuelB) (le_max_left _ _)).2 _ _ hrun1]
      exact fastLoop_mono Q fuelB _ (le_max_right _ _) _ _ _ _ _ hB
    refine ⟨⟨_, rA, hAry⟩, ?_, ⟨_, rB, hFast⟩, ?_, hws, hstream⟩
    · intro f2 r h2
      rw [qt_query_ary_det h2 hAry, hrA, hspec1]
    · intro f2 r h2
      rw [qt_query_ary_fast_det h2 hFast, hrB, hvs1]

/-- C9 (amended): for every built-and-finalized tree, query region `Q` and
in-out length `max_n`, with `M` the matching-item stream in traversal order:
both wrappers terminate for some fuel; `qt_query_ary` with `max_n = 0`
returns all of `M` writing back its length, and with `max_n = m > 0` writes
back `min m |M|` and its readable prefix is the first `min m |M|` matching
items; `qt_query_ary_fast` always writes back exactly the number of items it
returns and with `max_n = 0` returns all of `M` — but with `max_n > 0` it
may return more than `max_n` items (it truncates at leaf granularity only;
see the counterexample). -/
theorem C9_bulk_query_wrappers (fuel : Nat) (region : Quadrant)
    (maxfill : Nat) (items : List Item) (b : UFQuadTree)
    (hb : buildTree fuel region maxfill items = some b)
    (hin : ∀ i ∈ items, in_quadrant i region = true)
    (hN : items.length < pow64) (Q : Quadrant) (maxn : Nat) :
    (∃ f2 r, qt_query_ary f2 (qt_finalise b) Q maxn = some r) ∧
    (∃ f2 r, qt_query_ary_fast f2 (qt_finalise b) Q maxn = some r) ∧
    (∀ f2 ys n, qt_query_ary f2 (qt_finalise b) Q maxn = some (ys, n) →
      (maxn = 0 → ys = (itemsOfF (finalizeNode b.root)).filter
          (fun i => in_quadrant i Q) ∧
        n = ((itemsOfF (finalizeNode b.root)).filter
          (fun i => in_quadrant i Q)).length) ∧
      (0 < maxn → n = min maxn ((itemsOfF (finalizeNode b.root)).filter
          (fun i => in_quadrant i Q)).length ∧
        ys.take n = ((itemsOfF (finalizeNode b.root)).filter
          (fun i => in_quadrant i Q)).take n)) ∧
    (∀ f2 ys n, qt_query_ary_fast f2 (qt_finalise b) Q maxn = some (ys, n) →
      n = ys.length ∧
      (maxn = 0 → ys = (itemsOfF (finalizeNode b.root)).filter
        (fun i => in_quadrant i Q))) := by
  obtain ⟨hexA, hchA, hexF, hchF, hws, hstream⟩ := built_wrappers hb hin hN Q maxn
  refine ⟨hexA, hexF, ?_, ?_⟩
  · intro f2 ys n h2
    have hr := hchA f2 (ys, n) h2
    constructor
    · intro hm0
      subst hm0
      rw [arySpec_zero] at hr
      obtain ⟨h3, h4⟩ := Prod.mk.injEq .. ▸ hr
      exact ⟨by simpa using h3, by simpa using h4⟩
    · intro hmp
      obtain ⟨h3, h4⟩ := arySpec_pos hmp
        ((itemsOfF (finalizeNode b.root)).filter (fun i => in_quadrant i Q))
        0 [] (Nat.zero_le _)
      have hys : ys = (arySpec maxn ((itemsOfF (finalizeNode b.root)).filter
          (fun i => in_quadrant i Q)) 0 []).1 := by rw [← hr]
      have hn : n = (arySpec maxn ((itemsOfF (finalizeNode b.root)).filter
          (fun i => in_quadrant i Q)) 0 []).2 := by rw [← hr]
      rw [h4] at hys
      rw [h3] at hn
      simp only [Nat.zero_add, List.nil_append] at hys hn
      constructor
      · exact hn
      · rw [hys, List.take_take, hn]
        congr 1
        split <;> omega
  · intro f2 ys n h2
    have hr := hchF f2 (ys, n) h2
    constructor
    · obtain ⟨tail, h3, h4⟩ := fastSpec_shape Q maxn
        (visitLeaves Q (finalizeNode b.root) region false) 0 []
      have hys : ys = tail := by
        have := congrArg Prod.fst hr
        simpa [h3] using this
      have hn : n = tail.length := by
        have := congrArg Prod.snd hr
        simpa [h4] using this
      rw [hys, hn]
    · intro hm0
      subst hm0
      rw [fastSpec_zero] at hr
      have := congrArg Prod.fst hr
      simp only [List.nil_append] at this
      rw [this, batchStream_eq hws, hstream]

/-- Every item yielded by `qt_itr_next` passed the per-item region check:
the advance loop (quadtree.c:572-580) tests `_in_quadrant` on every item it
returns and never consults `within_parent`. -/
theorem qt_itr_next_checked (Q : Quadrant) : ∀ (fuel : Nat) (s : ItrState)
    (itm : Item) (s' : ItrState),
    qt_itr_next Q fuel s = some (some itm, s') → in_quadrant itm Q = true := by
  intro fuel
  induction fuel with
  | zero =>
    intro s itm s' h
    simp [qt_itr_next] at h
  | succ fuel ihf =>
    intro s itm s' h
    cases hlp : s.lp with
    | none =>
      simp only [qt_itr_next, hlp] at h
      simp at h
    | some its =>
      cases hst : s.stack with
      | nil =>
        simp only [qt_itr_next, hlp, hst] at h
        exact Option.noConfusion h
      | cons f rest =>
        cases hfn : f.node with
        | nil =>
          simp only [qt_itr_next, hlp, hst, hfn] at h
          exact Option.noConfusion h
        | inner a b c d =>
          simp only [qt_itr_next, hlp, hst, hfn] at h
          exact Option.noConfusion h
        | leaf fits =>
          by_cases hcond : pred64 fits.length ≥ s.cur_item
          · cases hget : its.get? s.cur_item with
            | none =>
              simp only [qt_itr_next, hlp, hst, hfn, if_pos hcond, hget] at h
              exact Option.noConfusion h
            | some itm2 =>
              by_cases hinq : in_quadrant itm2 Q = true
              · simp only [qt_itr_next, hlp, hst, hfn, if_pos hcond, hget,
                  if_pos hinq, Option.some.injEq, Prod.mk.injEq] at h
                obtain ⟨h1, _⟩ := h
                rw [← h1]
                exact hinq
              · simp only [qt_itr_next, hlp, hst, hfn, if_pos hcond, hget,
                  if_neg hinq] at h
                exact ihf _ _ _ h
          · cases hre : itrRecEnter Q fuel (bumpTop rest) with
            | none =>
              simp only [qt_itr_next, hlp, hst, hfn, if_neg hcond, hre] at h
              exact Option.noConfusion h
            | some rr =>
              simp only [qt_itr_next, hlp, hst, hfn, if_neg hcond, hre] at h
              exact ihf _ _ _ h

/-- C3 (amended): the per-item advance `qt_itr_next` never elides the
region membership check — every item it yields satisfies `in_quadrant`, for
every iterator state, whatever the `within_parent` flags on the stack say.
The `within_parent` fast path exists only in `_include_leaf` (used by the
bulk wrapper `qt_query_ary_fast`), which copies the leaf verbatim when the
flag is set and filters per item otherwise. -/
theorem C3_within_parent_not_used_by_next (Q : Quadrant) :
    (∀ (fuel : Nat) (s : ItrState) (itm : Item) (s' : ItrState),
      qt_itr_next Q fuel s = some (some itm, s') →
      in_quadrant itm Q = true) ∧
    (∀ its : List Item, include_leaf Q its true = its) ∧
    (∀ its : List Item, include_leaf Q its false =
      its.filter (fun i => in_quadrant i Q)) :=
  ⟨qt_itr_next_checked Q, fun _ => rfl, fun _ => rfl⟩

/-- C4 (code bug): `qt_query_itr` allocates room for exactly `maxdepth`
stack frames (`sizeof(Qt_Iterator) + sizeof(*itr->stack) * qt->maxdepth`
bytes, with `itr->stack` pointing just past the header), not the
`maxdepth + 1` the spec describes; for a finalized tree built from an empty
builder, `maxdepth = 0`, so the unconditional root-frame write
`itr->stack[0]` (quadtree.c:540-545) lands outside the allocation. -/
theorem C4_iterator_stack_overflow :
    buildTree 1 ⟨10, 10, 0, 0⟩ 4 [] =
      some (qt_create_quadtree ⟨10, 10, 0, 0⟩ 4) ∧
    (qt_finalise (qt_create_quadtree ⟨10, 10, 0, 0⟩ 4)).maxdepth = 0 ∧
    iterStackFramesAllocated
      (qt_finalise (qt_create_quadtree ⟨10, 10, 0, 0⟩ 4)) = 0 ∧
    iterStackFramesAllocated
      (qt_finalise (qt_create_quadtree ⟨10, 10, 0, 0⟩ 4)) <
      [rootFrame (qt_finalise (qt_create_quadtree ⟨10, 10, 0, 0⟩ 4))].length := by
  refine ⟨by with_unfolding_all decide, rfl, rfl, by decide⟩

/-- C3 counterexample: an iterator state entering a leaf with
`within_parent = true` and one unread item `(1, 20, 20)` that lies outside
the query region `(0,0)–(15,15)`.  Were the per-item check elided as the
spec claims, `qt_itr_next` would return that item verbatim; instead the
advance applies the check, skips the item, and exhausts the iterator. -/
theorem C3_counterexample :
    ((⟨.leaf [⟨1, 20, 20⟩], gen_quadrants ⟨10, 10, 0, 0⟩, 0, true⟩ :
      Frame).within_parent = true) ∧
    in_quadrant ⟨1, 20, 20⟩ ⟨15, 15, 0, 0⟩ = false ∧
    qt_itr_next ⟨15, 15, 0, 0⟩ 10
      (⟨[⟨.leaf [⟨1, 20, 20⟩], gen_quadrants ⟨10, 10, 0, 0⟩, 0, true⟩,
         ⟨.inner (.leaf [⟨1, 20, 20⟩]) .nil .nil .nil,
           gen_quadrants ⟨10, 10, 0, 0⟩, 0, false⟩],
        some [⟨1, 20, 20⟩], 0⟩ : ItrState) =
      some (none, ⟨[], none, 0⟩) := by
  with_unfolding_all decide

/-- C9 counterexample: two in-region items in one leaf, `max_n = 1`.
`qt_query_ary` writes back 1 (the caller reads the first matching item),
but `qt_query_ary_fast` copies the whole leaf and writes back 2 — more than
the requested `max_n = 1` first matching items. -/
theorem C9_counterexample :
    buildTree 9 ⟨10, 10, 0, 0⟩ 1 [⟨1, 2, 2⟩, ⟨2, 3, 3⟩] =
      some ⟨.inner .nil .nil (.leaf [⟨1, 2, 2⟩, ⟨2, 3, 3⟩] 2) .nil,
        ⟨10, 10, 0, 0⟩, ⟨2, 2, 1, 1, 1⟩⟩ ∧
    (∀ i ∈ [(⟨1, 2, 2⟩ : Item), ⟨2, 3, 3⟩],
      in_quadrant i ⟨10, 10, 0, 0⟩ = true) ∧
    qt_query_ary 30 (qt_finalise ⟨.inner .nil .nil
        (.leaf [⟨1, 2, 2⟩, ⟨2, 3, 3⟩] 2) .nil,
        ⟨10, 10, 0, 0⟩, ⟨2, 2, 1, 1, 1⟩⟩) ⟨10, 10, 0, 0⟩ 1 =
      some ([⟨1, 2, 2⟩, ⟨2, 3, 3⟩], 1) ∧
    qt_query_ary_fast 30 (qt_finalise ⟨.inner .nil .nil
        (.leaf [⟨1, 2, 2⟩, ⟨2, 3, 3⟩] 2) .nil,
        ⟨10, 10, 0, 0⟩, ⟨2, 2, 1, 1, 1⟩⟩) ⟨10, 10, 0, 0⟩ 1 =
      some ([⟨1, 2, 2⟩, ⟨2, 3, 3⟩], 2) ∧
    ¬ (2 ≤ 1) := by
  refine ⟨by with_unfolding_all decide, by with_unfolding_all decide,
    by with_unfolding_all decide, by with_unfolding_all decide, by decide⟩

/-- C1: for every tree built by inserting `items` (all within the builder's
bounding region, as the caller contract requires) and then finalized,
querying with the tree's own bounding region and draining the iterator
(`qt_query_itr` + repeated `qt_itr_next`) terminates and yields every
inserted item exactly once: the yielded list contains each item with
exactly the multiplicity it was inserted with.  Some run succeeds, and
every successful run has this property. -/
theorem C1_query_own_region_yields_all (fuel : Nat) (region : Quadrant)
    (maxfill : Nat) (items : List Item) (b : UFQuadTree)
    (hb : buildTree fuel region maxfill items = some b)
    (hin : ∀ i ∈ items, in_quadrant i region = true)
    (hN : items.length < pow64) :
    (∃ fuel2 ys, qt_query_all fuel2 (qt_finalise b) region = some ys ∧
      ∀ i, ys.count i = items.count i) ∧
    (∀ fuel2 ys, qt_query_all fuel2 (qt_finalise b) region = some ys →
      ∀ i, ys.count i = items.count i) := by
  obtain ⟨⟨fuel2, ys, hrun⟩, hchar, hM⟩ := built_query_stream hb hin hN region
  have key : ∀ fuel3 ys3,
      qt_query_all fuel3 (qt_finalise b) region = some ys3 →
      ∀ i, ys3.count i = items.count i := by
    intro fuel3 ys3 h3 i
    rw [hchar _ _ h3]
    have hfull : (itemsOfF (finalizeNode b.root)).filter
        (fun i => in_quadrant i region) = itemsOfF (finalizeNode b.root) := by
      rw [List.filter_eq_self]
      intro x hx
      have hxi : x ∈ items := by
        have h4 : x ∈ (items : Multiset Item) := by
          rw [← hM]
          simpa using hx
        simpa using h4
      exact hin x hxi
    rw [hfull]
    have h5 := congrArg (Multiset.count i) hM
    simpa using h5
  exact ⟨⟨fuel2, ys, hrun, key fuel2 ys hrun⟩, key⟩

/-- C2: for every built-and-finalized tree and every query region `Q`, in
every successful drained run of the query iterator each yielded item lies in
`Q` under the inclusive rule `sw ≤ point ≤ ne`, and each inserted item that
is not yielded fails that rule; and some run succeeds. -/
theorem C2_inclusive_region_filter (fuel : Nat) (region : Quadrant)
    (maxfill : Nat) (items : List Item) (b : UFQuadTree)
    (hb : buildTree fuel region maxfill items = some b)
    (hin : ∀ i ∈ items, in_quadrant i region = true)
    (hN : items.length < pow64) (Q : Quadrant) :
    (∃ fuel2 ys, qt_query_all fuel2 (qt_finalise b) Q = some ys) ∧
    (∀ fuel2 ys, qt_query_all fuel2 (qt_finalise b) Q = some ys →
      (∀ i ∈ ys, in_quadrant i Q = true) ∧
      (∀ i ∈ items, i ∉ ys → in_quadrant i Q = false)) := by
  obtain ⟨⟨fuel2, ys, hrun⟩, hchar, hM⟩ := built_query_stream hb hin hN Q
  refine ⟨⟨fuel2, ys, hrun⟩, ?_⟩
  intro fuel3 ys3 h3
  rw [hchar _ _ h3]
  constructor
  · intro i hi
    exact (List.mem_filter.mp hi).2
  · intro i hi hni
    cases hq : in_quadrant i Q with
    | false => rfl
    | true =>
      exfalso
      apply hni
      apply List.mem_filter.mpr
      refine ⟨?_, hq⟩
      have h4 : i ∈ (itemsOfF (finalizeNode b.root) : Multiset Item) := by
        rw [hM]
        simpa using hi
      simpa using h4

/-! ### Witnesses -/

theorem C1_witness :
    buildTree 9 ⟨10, 10, 0, 0⟩ 1 [⟨1, 2, 2⟩, ⟨2, 3, 3⟩] =
      some ⟨.inner .nil .nil (.leaf [⟨1, 2, 2⟩, ⟨2, 3, 3⟩] 2) .nil,
        ⟨10, 10, 0, 0⟩, ⟨2, 2, 1, 1, 1⟩⟩ ∧
    (∀ i ∈ [(⟨1, 2, 2⟩ : Item), ⟨2, 3, 3⟩],
      in_quadrant i ⟨10, 10, 0, 0⟩ = true) ∧
    [(⟨1, 2, 2⟩ : Item), ⟨2, 3, 3⟩].length < pow64 ∧
    ((∃ fuel2 ys, qt_query_all fuel2 (qt_finalise ⟨.inner .nil .nil
        (.leaf [⟨1, 2, 2⟩, ⟨2, 3, 3⟩] 2) .nil, ⟨10, 10, 0, 0⟩, ⟨2, 2, 1, 1, 1⟩⟩)
        ⟨10, 10, 0, 0⟩ = some ys ∧
        ∀ i, ys.count i = [(⟨1, 2, 2⟩ : Item), ⟨2, 3, 3⟩].count i) ∧
      (∀ fuel2 ys, qt_query_all fuel2 (qt_finalise ⟨.inner .nil .nil
        (.leaf [⟨1, 2, 2⟩, ⟨2, 3, 3⟩] 2) .nil, ⟨10, 10, 0, 0⟩, ⟨2, 2, 1, 1, 1⟩⟩)
        ⟨10, 10, 0, 0⟩ = some ys →
        ∀ i, ys.count i = [(⟨1, 2, 2⟩ : Item), ⟨2, 3, 3⟩].count i)) :=
  ⟨by with_unfolding_all decide, by with_unfolding_all decide,
   by with_unfolding_all decide,
   C1_query_own_region_yields_all 9 ⟨10, 10, 0, 0⟩ 1 [⟨1, 2, 2⟩, ⟨2, 3, 3⟩] _
     (by with_unfolding_all decide) (by with_unfolding_all decide)
     (by with_unfolding_all decide)⟩

theorem C2_witness :
    buildTree 9 ⟨10, 10, 0, 0⟩ 1 [⟨1, 2, 2⟩, ⟨2, 3, 3⟩] =
      some ⟨.inner .nil .nil (.leaf [⟨1, 2, 2⟩, ⟨2, 3, 3⟩] 2) .nil,
        ⟨10, 10, 0, 0⟩, ⟨2, 2, 1, 1, 1⟩⟩ ∧
    (∀ i ∈ [(⟨1, 2, 2⟩ : Item), ⟨2, 3, 3⟩],
      in_quadrant i ⟨10, 10, 0, 0⟩ = true) ∧
    [(⟨1, 2, 2⟩ : Item), ⟨2, 3, 3⟩].length < pow64 ∧
    ((∃ fuel2 ys, qt_query_all fuel2 (qt_finalise ⟨.inner .nil .nil
        (.leaf [⟨1, 2, 2⟩, ⟨2, 3, 3⟩] 2) .nil, ⟨10, 10, 0, 0⟩, ⟨2, 2, 1, 1, 1⟩⟩)
        ⟨5, 5, 0, 0⟩ = some ys) ∧
      (∀ fuel2 ys, qt_query_all fuel2 (qt_finalise ⟨.inner .nil .nil
        (.leaf [⟨1, 2, 2⟩, ⟨2, 3, 3⟩] 2) .nil, ⟨10, 10, 0, 0⟩, ⟨2, 2, 1, 1, 1⟩⟩)
        ⟨5, 5, 0, 0⟩ = some ys →
        (∀ i ∈ ys, in_quadrant i ⟨5, 5, 0, 0⟩ = true) ∧
        (∀ i ∈ [(⟨1, 2, 2⟩ : Item), ⟨2, 3, 3⟩], i ∉ ys →
          in_quadrant i ⟨5, 5, 0, 0⟩ = false))) :=
  ⟨by with_unfolding_all decide, by with_unfolding_all decide,
   by with_unfolding_all decide,
   C2_inclusive_region_filter 9 ⟨10, 10, 0, 0⟩ 1 [⟨1, 2, 2⟩, ⟨2, 3, 3⟩] _
     (by with_unfolding_all decide) (by with_unfolding_all decide)
     (by with_unfolding_all decide) ⟨5, 5, 0, 0⟩⟩

theorem C3_witness :
    qt_itr_next ⟨15, 15, 0, 0⟩ 10
      (⟨[⟨.leaf [⟨1, 2, 2⟩], gen_quadrants ⟨10, 10, 0, 0⟩, 0, true⟩,
         ⟨.inner (.leaf [⟨1, 2, 2⟩]) .nil .nil .nil,
           gen_quadrants ⟨10, 10, 0, 0⟩, 0, false⟩],
        some [⟨1, 2, 2⟩], 0⟩ : ItrState) =
      some (some ⟨1, 2, 2⟩,
        ⟨[⟨.leaf [⟨1, 2, 2⟩], gen_quadrants ⟨10, 10, 0, 0⟩, 0, true⟩,
          ⟨.inner (.leaf [⟨1, 2, 2⟩]) .nil .nil .nil,
            gen_quadrants ⟨10, 10, 0, 0⟩, 0, false⟩],
         some [⟨1, 2, 2⟩], 1⟩) ∧
    in_quadrant ⟨1, 2, 2⟩ ⟨15, 15, 0, 0⟩ = true :=
  ⟨by with_unfolding_all decide,
   (C3_within_parent_not_used_by_next ⟨15, 15, 0, 0⟩).1 10
     (⟨[⟨.leaf [⟨1, 2, 2⟩], gen_quadrants ⟨10, 10, 0, 0⟩, 0, true⟩,
        ⟨.inner (.leaf [⟨1, 2, 2⟩]) .nil .nil .nil,
          gen_quadrants ⟨10, 10, 0, 0⟩, 0, false⟩],
       some [⟨1, 2, 2⟩], 0⟩ : ItrState) ⟨1, 2, 2⟩
     (⟨[⟨.leaf [⟨1, 2, 2⟩], gen_quadrants ⟨10, 10, 0, 0⟩, 0, true⟩,
        ⟨.inner (.leaf [⟨1, 2, 2⟩]) .nil .nil .nil,
          gen_quadrants ⟨10, 10, 0, 0⟩, 0, false⟩],
       some [⟨1, 2, 2⟩], 1⟩ : ItrState)
     (by with_unfolding_all decide)⟩

theorem C6_witness :
    (distinct_items_exist [(⟨1, 2, 2⟩ : Item), ⟨2, 3, 3⟩] = true ↔
      ∃ a ∈ [(⟨1, 2, 2⟩ : Item), ⟨2, 3, 3⟩],
        ∃ b ∈ [(⟨1, 2, 2⟩ : Item), ⟨2, 3, 3⟩], itemcmp a b ≠ 0) ∧
    (distinct_items_exist [(⟨1, 2, 2⟩ : Item), ⟨2, 3, 3⟩] = false →
      splitNode (4 + 1) ⟨2, 2, 1, 1, 1⟩ [⟨1, 2, 2⟩, ⟨2, 3, 3⟩] 2
        ⟨10, 10, 0, 0⟩ 1 = some (⟨2, 2, 1, 1, 1⟩,
          .leaf [⟨1, 2, 2⟩, ⟨2, 3, 3⟩] (2 * 2))) ∧
    (distinct_items_exist [(⟨1, 2, 2⟩ : Item), ⟨2, 3, 3⟩] = true →
      splitNode (4 + 1) ⟨2, 2, 1, 1, 1⟩ [⟨1, 2, 2⟩, ⟨2, 3, 3⟩] 2
        ⟨10, 10, 0, 0⟩ 1 =
        reinsertAll 4 ⟨2, 2, 1, 2, 0⟩ (.inner .nil .nil .nil .nil)
          [⟨1, 2, 2⟩, ⟨2, 3, 3⟩] ⟨10, 10, 0, 0⟩ 1) ∧
    (∀ c' node', splitNode (4 + 1) ⟨2, 2, 1, 1, 1⟩ [⟨1, 2, 2⟩, ⟨2, 3, 3⟩] 2
        ⟨10, 10, 0, 0⟩ 1 = some (c', node') →
      distinct_items_exist [(⟨1, 2, 2⟩ : Item), ⟨2, 3, 3⟩] = true →
      isInner node' = true ∧
        (itemsOfT node' : Multiset Item) =
          (([⟨1, 2, 2⟩, ⟨2, 3, 3⟩] : List Item) : Multiset Item)) :=
  C6_split_policy 4 ⟨2, 2, 1, 1, 1⟩ [⟨1, 2, 2⟩, ⟨2, 3, 3⟩] 2 ⟨10, 10, 0, 0⟩ 1

theorem C8_witness :
    [(⟨1, 2, 2⟩ : Item), ⟨2, 3, 3⟩] ≠ [] ∧
    buildTree 9 ⟨10, 10, 0, 0⟩ 1 [⟨1, 2, 2⟩, ⟨2, 3, 3⟩] =
      some ⟨.inner .nil .nil (.leaf [⟨1, 2, 2⟩, ⟨2, 3, 3⟩] 2) .nil,
        ⟨10, 10, 0, 0⟩, ⟨2, 2, 1, 1, 1⟩⟩ ∧
    (innersOKT (⟨.inner .nil .nil (.leaf [⟨1, 2, 2⟩, ⟨2, 3, 3⟩] 2) .nil,
        ⟨10, 10, 0, 0⟩, ⟨2, 2, 1, 1, 1⟩⟩ : UFQuadTree).root = true ∧
      innersOKT (qt_create_quadtree ⟨10, 10, 0, 0⟩ 1).root = false) :=
  ⟨by with_unfolding_all decide, by with_unfolding_all decide,
   C8_inner_has_child 9 ⟨10, 10, 0, 0⟩ 1 [⟨1, 2, 2⟩, ⟨2, 3, 3⟩] _
     (by with_unfolding_all decide) (by with_unfolding_all decide)⟩

theorem C10_witness :
    buildTree 9 ⟨10, 10, 0, 0⟩ 1 [⟨1, 2, 2⟩, ⟨2, 3, 3⟩] =
      some ⟨.inner .nil .nil (.leaf [⟨1, 2, 2⟩, ⟨2, 3, 3⟩] 2) .nil,
        ⟨10, 10, 0, 0⟩, ⟨2, 2, 1, 1, 1⟩⟩ ∧
    1 ≤ 3 ∧ 3 < 2 ^ 64 ∧
    (leavesOKT (⟨.inner .nil .nil (.leaf [⟨1, 2, 2⟩, ⟨2, 3, 3⟩] 2) .nil,
        ⟨10, 10, 0, 0⟩, ⟨2, 2, 1, 1, 1⟩⟩ : UFQuadTree).root = true ∧
      leavesOKF (qt_finalise ⟨.inner .nil .nil
        (.leaf [⟨1, 2, 2⟩, ⟨2, 3, 3⟩] 2) .nil,
        ⟨10, 10, 0, 0⟩, ⟨2, 2, 1, 1, 1⟩⟩).root = true ∧
      pred64 3 = 3 - 1 ∧
      (pred64 3 ≥ 1 ↔ 1 < 3)) :=
  ⟨by with_unfolding_all decide, by decide, by decide,
   C10_leaf_occupancy 9 ⟨10, 10, 0, 0⟩ 1 [⟨1, 2, 2⟩, ⟨2, 3, 3⟩] _ 3 1
     (by with_unfolding_all decide) (by decide) (by decide)⟩

theorem C7_witness :
    (1 : Nat) ≤ 1 ∧ ([1, 2, 3] : List Nat) ≠ [] ∧ (5 : Nat) ≤ 5 ∧
    (∃ b, buildTree 5 ⟨10, 10, 0, 0⟩ 1
        (([1, 2, 3] : List Nat).map fun v => Item.mk v 2 2) = some b ∧
      (qt_finalise b).ninners = 1 ∧
      (qt_finalise b).nleafs = 1 ∧
      (qt_finalise b).size = ([1, 2, 3] : List Nat).length ∧
      (qt_finalise b).maxdepth = 2 ∧
      depthF (qt_finalise b).root = 1 ∧
      ∃ j, j < 4 ∧
        childF (qt_finalise b).root j =
          .leaf (([1, 2, 3] : List Nat).map fun v => Item.mk v 2 2) ∧
        (([1, 2, 3] : List Nat).map fun v => Item.mk v 2 2).length =
          ([1, 2, 3] : List Nat).length) :=
  ⟨by decide, by decide, by decide,
   C7_coincident_bucket ⟨10, 10, 0, 0⟩ 1 2 2 [1, 2, 3] 5
     (by decide) (by decide) (by decide)⟩

theorem C9_witness :
    buildTree 9 ⟨10, 10, 0, 0⟩ 1 [⟨1, 2, 2⟩, ⟨2, 3, 3⟩] =
      some ⟨.inner .nil .nil (.leaf [⟨1, 2, 2⟩, ⟨2, 3, 3⟩] 2) .nil,
        ⟨10, 10, 0, 0⟩, ⟨2, 2, 1, 1, 1⟩⟩ ∧
    (∀ i ∈ [(⟨1, 2, 2⟩ : Item), ⟨2, 3, 3⟩],
      in_quadrant i ⟨10, 10, 0, 0⟩ = true) ∧
    [(⟨1, 2, 2⟩ : Item), ⟨2, 3, 3⟩].length < pow64 ∧
    ((∃ f2 r, qt_query_ary f2 (qt_finalise ⟨.inner .nil .nil
        (.leaf [⟨1, 2, 2⟩, ⟨2, 3, 3⟩] 2) .nil, ⟨10, 10, 0, 0⟩, ⟨2, 2, 1, 1, 1⟩⟩)
        ⟨10, 10, 0, 0⟩ 2 = some r) ∧
      (∃ f2 r, qt_query_ary_fast f2 (qt_finalise ⟨.inner .nil .nil
        (.leaf [⟨1, 2, 2⟩, ⟨2, 3, 3⟩] 2) .nil, ⟨10, 10, 0, 0⟩, ⟨2, 2, 1, 1, 1⟩⟩)
        ⟨10, 10, 0, 0⟩ 2 = some r) ∧
      (∀ f2 ys n, qt_query_ary f2 (qt_finalise ⟨.inner .nil .nil
          (.leaf [⟨1, 2, 2⟩, ⟨2, 3, 3⟩] 2) .nil, ⟨10, 10, 0, 0⟩, ⟨2, 2, 1, 1, 1⟩⟩)
          ⟨10, 10, 0, 0⟩ 2 = some (ys, n) →
        ((2 : Nat) = 0 → ys = (itemsOfF (finalizeNode
            (⟨.inner .nil .nil (.leaf [⟨1, 2, 2⟩, ⟨2, 3, 3⟩] 2) .nil,
              ⟨10, 10, 0, 0⟩, ⟨2, 2, 1, 1, 1⟩⟩ : UFQuadTree).root)).filter
            (fun i => in_quadrant i ⟨10, 10, 0, 0⟩) ∧
          n = ((itemsOfF (finalizeNode
            (⟨.inner .nil .nil (.leaf [⟨1, 2, 2⟩, ⟨2, 3, 3⟩] 2) .nil,
              ⟨10, 10, 0, 0⟩, ⟨2, 2, 1, 1, 1⟩⟩ : UFQuadTree).root)).filter
            (fun i => in_quadrant i ⟨10, 10, 0, 0⟩)).length) ∧
        ((0 : Nat) < 2 → n = min 2 ((itemsOfF (finalizeNode
            (⟨.inner .nil .nil (.leaf [⟨1, 2, 2⟩, ⟨2, 3, 3⟩] 2) .nil,
              ⟨10, 10, 0, 0⟩, ⟨2, 2, 1, 1, 1⟩⟩ : UFQuadTree).root)).filter
            (fun i => in_quadrant i ⟨10, 10, 0, 0⟩)).length ∧
          ys.take n = ((itemsOfF (finalizeNode
            (⟨.inner .nil .nil (.leaf [⟨1, 2, 2⟩, ⟨2, 3, 3⟩] 2) .nil,
              ⟨10, 10, 0, 0⟩, ⟨2, 2, 1, 1, 1⟩⟩ : UFQuadTree).root)).filter
            (fun i => in_quadrant i ⟨10, 10, 0, 0⟩)).take n)) ∧
      (∀ f2 ys n, qt_query_ary_fast f2 (qt_finalise ⟨.inner .nil .nil
          (.leaf [⟨1, 2, 2⟩, ⟨2, 3, 3⟩] 2) .nil, ⟨10, 10, 0, 0⟩, ⟨2, 2, 1, 1, 1⟩⟩)
          ⟨10, 10, 0, 0⟩ 2 = some (ys, n) →
        n = ys.length ∧
        ((2 : Nat) = 0 → ys = (itemsOfF (finalizeNode
            (⟨.inner .nil .nil (.leaf [⟨1, 2, 2⟩, ⟨2, 3, 3⟩] 2) .nil,
              ⟨10, 10, 0, 0⟩, ⟨2, 2, 1, 1, 1⟩⟩ : UFQuadTree).root)).filter
            (fun i => in_quadrant i ⟨10, 10, 0, 0⟩)))) :=
  ⟨by with_unfolding_all decide, by with_unfolding_all decide,
   by with_unfolding_all decide,
   C9_bulk_query_wrappers 9 ⟨10, 10, 0, 0⟩ 1 [⟨1, 2, 2⟩, ⟨2, 3, 3⟩] _
     (by with_unfolding_all decide) (by with_unfolding_all decide)
     (by with_unfolding_all decide) ⟨10, 10, 0, 0⟩ 2⟩

end Quadtree
